import Mathlib

/-!
Verification of the MCTS core of sw965/bibarel (mcts.go, eval.go).

Shallow embedding of the search code.

Modelling conventions.

* Go pointers to `Node` are indices into a heap (`List (Node B C)`); a `Nodes`
  slice is a list of such indices.  Allocating a node appends it to the heap.
* A `bp.Battle` is an immutable value: `Run` returns a new state, and the state
  a node points to is never written after the node was made (`Select` leaves
  its loop right after making a node, so its variable `battle` is not assigned
  again).
* `float64` is modelled by exact rationals: every finite `float64` is a
  rational and comparisons agree; the rounding of `+` and `/` is left out.
  `int` is modelled by `Int` (a visit count only grows by one per simulation,
  so it stays far below the machine bound).
* The map `NextNodeParam` is an association list with distinct keys, ranged over
  in list order.  Go leaves the iteration order of a map unspecified; none of the
  properties proved below depends on it.
* A Go call either returns normally, returns a non-nil `error`, or panics
  (index out of range, nil dereference).  `Fault` separates the last two.
* The game engine (package bippa), `crow.UpperConfidenceBound1` and the random
  source are external; they are parameters (`Engine`).  `R` is the state of the
  random source together with whatever else the engine's closures capture.
* The call sites in `Select`, `MaxUCB` and `ExpansionWithEvalY` name
  `MaxUCBBattleCommands`, `BattleCommands` and `NoExpansionBattleCommands`; the
  only definitions in the repository are `NewMaxUCBBattleCommands`,
  `NewBattleCommands` and `NewNoExpansionBattleCommands`, which the model uses.
* `for { ... }` in `Select` is iterated with fuel; `none` means the fuel ran out.
  `Select_total` and `RunMCTS_total` show that fuel above the size of the
  registry, respectively above the simulation count, is always enough.
-/

set_option linter.unusedSectionVars false

namespace Bibarel

/-- A call that does not return normally: a returned Go `error`, or a panic. -/
inductive Fault where
  | err (msg : String)
  | panic (msg : String)
deriving DecidableEq, Repr

/-- Source: `type UCBParam struct { TotalValue float64; SimuNum int }` -/
structure UCBParam where
  TotalValue : ℚ
  SimuNum : Int
deriving DecidableEq, Repr

/-- Source: `func (ucbParam *UCBParam) Average() (float64, error)` -/
def UCBParam.Average (ucbParam : UCBParam) : Except Fault ℚ :=
  if ucbParam.SimuNum = 0 then
    .error (.err "0除算")
  else
    .ok (ucbParam.TotalValue / (ucbParam.SimuNum : ℚ))

/-- Source: `type NextNodeParam map[bp.BattleCommand]*UCBParam` -/
abbrev NextNodeParam (C : Type) := List (C × UCBParam)

/-- Source: `type Node struct` ; `Battle` is the state the node was created for. -/
structure Node (B C : Type) where
  Battle : B
  AvailableBattleCommands : List C
  NextNodeParam : NextNodeParam C
  NextNodes : List Nat
  IsAllExpansion : Bool
  IsP1Node : Bool
  SelectCount : Int

/-- Source: `type Nodes []*Node` -/
abbrev Nodes := List Nat

/-- The allocated `Node` objects, addressed by index. -/
abbrev Heap (B C : Type) := List (Node B C)

/-- Source: `type Select struct { Node *Node; BattleCommand bp.BattleCommand }` -/
structure Select (C : Type) where
  Node : Nat
  BattleCommand : C
deriving DecidableEq, Repr

/-- Source: `type Selects []Select` -/
abbrev Selects (C : Type) := List (Select C)

/-- The external collaborators: the game engine of package bippa, the UCB1
function of package crow and `rand.Intn`. -/
structure Engine (B C R : Type) where
  /-- Source: `battle.Equal(other)` -/
  Equal : B → B → Bool
  /-- Source: `battle.IsGameEnd()` -/
  IsGameEnd : B → Bool
  /-- Source: `battle.IsP1Phase()` -/
  IsP1Phase : B → Bool
  /-- Source: `battle.P1Fighters.AvailableBattleCommands()` -/
  P1Commands : B → List C
  /-- Source: `battle.P2Fighters.AvailableBattleCommands()` -/
  P2Commands : B → List C
  /-- Source: `battle.Run(battleCommand, random)` -/
  Run : B → C → R → Except String B × R
  /-- Source: `random.Intn(n)` for `n > 0` -/
  Intn : R → Nat → Nat × R
  /-- Source: `crow.UpperConfidenceBound1(average, totalSimuNum, simuNum, X)` -/
  UpperConfidenceBound1 : ℚ → Int → Int → ℚ → Except String ℚ

/-- Source: `type Eval struct { Func; ReverseFunc }` ; `Func` may consume randomness. -/
structure Eval (B R : Type) where
  Func : B → R → Except String ℚ × R
  ReverseFunc : ℚ → ℚ

section Defs

variable {B C R : Type} [DecidableEq C]

/-- Source: `battleCommands.RandomChoice(random)` of package bippa: the element at index
`random.Intn(len)`; `Intn` panics for an empty list. -/
def RandomChoice (E : Engine B C R) (battleCommands : List C) (random : R) :
    Except Fault (C × R) :=
  match battleCommands[(E.Intn random battleCommands.length).1 % battleCommands.length]? with
  | none => .error (.panic "invalid argument to Intn")
  | some c => .ok (c, (E.Intn random battleCommands.length).2)

/-- Map read `nextNodeParam[battleCommand]` with the comma-ok result. -/
def NextNodeParam.get (nextNodeParam : NextNodeParam C) (battleCommand : C) : Option UCBParam :=
  match nextNodeParam with
  | [] => none
  | (c, p) :: rest => if c = battleCommand then some p else NextNodeParam.get rest battleCommand

/-- Map write `nextNodeParam[battleCommand] = ucbParam`. -/
def NextNodeParam.set (nextNodeParam : NextNodeParam C) (battleCommand : C) (ucbParam : UCBParam) :
    NextNodeParam C :=
  match nextNodeParam with
  | [] => [(battleCommand, ucbParam)]
  | (c, p) :: rest =>
    if c = battleCommand then (c, ucbParam) :: rest
    else (c, p) :: NextNodeParam.set rest battleCommand ucbParam

/-- Source: `func NewNodePointer(battle *bp.Battle) *Node` (the caller places it on the heap). -/
def NewNodePointer (E : Engine B C R) (battle : B) : Node B C :=
  let isP1Phase := E.IsP1Phase battle
  let availableBattleCommands := if isP1Phase then E.P1Commands battle else E.P2Commands battle
  { Battle := battle
    AvailableBattleCommands := availableBattleCommands
    NextNodeParam := []
    NextNodes := []
    IsAllExpansion := false
    IsP1Node := isP1Phase
    SelectCount := 0 }

/-- Source: `func (node *Node) NewNoExpansionBattleCommands() bp.BattleCommands` ;
`make` panics on a negative capacity. -/
def Node.NewNoExpansionBattleCommands (node : Node B C) : Except Fault (List C) :=
  if node.AvailableBattleCommands.length < node.NextNodeParam.length then
    .error (.panic "makeslice: cap out of range")
  else
    .ok (node.AvailableBattleCommands.filter
      (fun battleCommand => (NextNodeParam.get node.NextNodeParam battleCommand).isNone))

/-- Source: `func (nodes Nodes) Find(battle *bp.Battle) (*Node, error)` -/
def Nodes.Find (E : Engine B C R) (heap : Heap B C) (nodes : Nodes) (battle : B) :
    Except Fault Nat :=
  match nodes with
  | [] => .error (.err "battleが一致しているnodeが見つからなかった")
  | p :: rest =>
    match heap[p]? with
    | none => .error (.panic "nil pointer dereference")
    | some node => if E.Equal node.Battle battle then .ok p else Nodes.Find E heap rest battle

/-- Source: `func (nextNodeParam NextNodeParam) NewBattleCommands() bp.BattleCommands` -/
def NextNodeParam.NewBattleCommands (nextNodeParam : NextNodeParam C) : List C :=
  nextNodeParam.map Prod.fst

/-- Source: `func (nextNodeParam NextNodeParam) TotalSimuNum() int` -/
def NextNodeParam.TotalSimuNum (nextNodeParam : NextNodeParam C) : Int :=
  (nextNodeParam.map (fun e => e.2.SimuNum)).sum

/-- The loop of `UCBs` over the entries, for a fixed `totalSimuNum`. -/
def NextNodeParam.UCBsLoop (E : Engine B C R) (totalSimuNum : Int) (X : ℚ) :
    NextNodeParam C → Except Fault (List (C × ℚ))
  | [] => .ok []
  | (battleCommand, ucbParam) :: rest =>
    match ucbParam.Average with
    | .error e => .error e
    | .ok average =>
      match E.UpperConfidenceBound1 average totalSimuNum ucbParam.SimuNum X with
      | .error e => .error (.err e)
      | .ok ucb =>
        match NextNodeParam.UCBsLoop E totalSimuNum X rest with
        | .error e => .error e
        | .ok result => .ok ((battleCommand, ucb) :: result)

/-- Source: `func (nextNodeParam NextNodeParam) UCBs(X float64) (map[bp.BattleCommand]float64, error)` -/
def NextNodeParam.UCBs (E : Engine B C R) (nextNodeParam : NextNodeParam C) (X : ℚ) :
    Except Fault (List (C × ℚ)) :=
  NextNodeParam.UCBsLoop E (NextNodeParam.TotalSimuNum nextNodeParam) X nextNodeParam

/-- Read `ucbs[battleCommand]` of a `map[bp.BattleCommand]float64` (zero when absent). -/
def ucbsGet (ucbs : List (C × ℚ)) (battleCommand : C) : ℚ :=
  match ucbs with
  | [] => 0
  | (c, u) :: rest => if c = battleCommand then u else ucbsGet rest battleCommand

/-- Source: `func (nextNodeParam NextNodeParam) MaxUCB(X float64) (float64, error)` -/
def NextNodeParam.MaxUCB (E : Engine B C R) (nextNodeParam : NextNodeParam C) (X : ℚ) :
    Except Fault ℚ :=
  let battleCommands := NextNodeParam.NewBattleCommands nextNodeParam
  match NextNodeParam.UCBs E nextNodeParam X with
  | .error e => .error e
  | .ok ucbs =>
    match battleCommands with
    | [] => .error (.panic "index out of range")
    | first :: rest =>
      .ok (rest.foldl
        (fun maxUCB battleCommand =>
          if ucbsGet ucbs battleCommand > maxUCB then ucbsGet ucbs battleCommand else maxUCB)
        (ucbsGet ucbs first))

/-- Source: `func (nextNodeParam NextNodeParam) NewMaxUCBBattleCommands(X float64)` -/
def NextNodeParam.NewMaxUCBBattleCommands (E : Engine B C R) (nextNodeParam : NextNodeParam C)
    (X : ℚ) : Except Fault (List C) :=
  match NextNodeParam.MaxUCB E nextNodeParam X with
  | .error e => .error e
  | .ok maxUCB =>
    match NextNodeParam.UCBs E nextNodeParam X with
    | .error e => .error e
    | .ok ucbs => .ok ((ucbs.filter (fun e => e.2 = maxUCB)).map Prod.fst)

/-- The visit count read by `nextNodeParam[battleCommand].SimuNum`. -/
def NextNodeParam.simuNumAt (nextNodeParam : NextNodeParam C) (battleCommand : C) :
    Except Fault Int :=
  match NextNodeParam.get nextNodeParam battleCommand with
  | none => .error (.panic "nil pointer dereference")
  | some ucbParam => .ok ucbParam.SimuNum

/-- The loop of `MaxSimuNum` over `battleCommands[1:]`. -/
def NextNodeParam.MaxSimuNumLoop (nextNodeParam : NextNodeParam C) :
    List C → Int → Except Fault Int
  | [], result => .ok result
  | battleCommand :: rest, result =>
    match NextNodeParam.simuNumAt nextNodeParam battleCommand with
    | .error e => .error e
    | .ok simuNum =>
      NextNodeParam.MaxSimuNumLoop nextNodeParam rest (if simuNum > result then simuNum else result)

/-- Source: `func (nextNodeParam NextNodeParam) MaxSimuNum() int` -/
def NextNodeParam.MaxSimuNum (nextNodeParam : NextNodeParam C) : Except Fault Int :=
  match NextNodeParam.NewBattleCommands nextNodeParam with
  | [] => .error (.panic "index out of range")
  | first :: rest =>
    match NextNodeParam.simuNumAt nextNodeParam first with
    | .error e => .error e
    | .ok result => NextNodeParam.MaxSimuNumLoop nextNodeParam rest result

/-- Source: `func (nextNodeParam NextNodeParam) NewMaxSimuNumBattleCommands() bp.BattleCommands` -/
def NextNodeParam.NewMaxSimuNumBattleCommands (nextNodeParam : NextNodeParam C) :
    Except Fault (List C) :=
  match NextNodeParam.MaxSimuNum nextNodeParam with
  | .error e => .error e
  | .ok maxSimuNum =>
    .ok ((nextNodeParam.filter (fun e => e.2.SimuNum = maxSimuNum)).map Prod.fst)

/-- State of the loop of `Select`: the heap and the local variables. -/
structure SelectState (B C R : Type) where
  heap : Heap B C
  node : Nat
  battle : B
  allNodes : Nodes
  selects : Selects C
  random : R

/-- The values `Select` returns beside the error. -/
structure SelectReturn (B C : Type) where
  node : Nat
  battle : B
  allNodes : Nodes
  selects : Selects C
  isRoopSelect : Bool

/-- Lines 95-105 of `Select`: the node for `battle` from the child cache of
`node`, else from `allNodes`, else a new one; returns the heap, the registry
and the pointer found. -/
def resolveNextNode (E : Engine B C R) (heap : Heap B C) (node : Nat) (battle : B)
    (allNodes : Nodes) : Except Fault (Heap B C × Nodes × Nat) :=
  match heap[node]? with
  | none => .error (.panic "nil pointer dereference")
  | some n =>
    match Nodes.Find E heap n.NextNodes battle with
    | .ok nextNode => .ok (heap, allNodes, nextNode)
    | .error (.panic msg) => .error (.panic msg)
    | .error (.err _) =>
      match Nodes.Find E heap allNodes battle with
      | .ok nextNode =>
        .ok (heap.set node { n with NextNodes := n.NextNodes ++ [nextNode] }, allNodes, nextNode)
      | .error (.panic msg) => .error (.panic msg)
      | .error (.err _) =>
        let nextNode := heap.length
        .ok ((heap ++ [NewNodePointer E battle]).set node
              { n with NextNodes := n.NextNodes ++ [nextNode] },
             allNodes ++ [nextNode], nextNode)

/-- One pass through the body of the `for` loop of `Select`: either the next
loop state, or what `Select` leaves behind and returns. -/
def SelectStep (E : Engine B C R) (X : ℚ) (s : SelectState B C R) :
    SelectState B C R ⊕ (Heap B C × R × Except Fault (SelectReturn B C)) :=
  match s.heap[s.node]? with
  | none => .inr (s.heap, s.random, .error (.panic "nil pointer dereference"))
  | some n =>
    if n.IsAllExpansion = false then
      .inr (s.heap, s.random, .ok ⟨s.node, s.battle, s.allNodes, s.selects, false⟩)
    else
      match NextNodeParam.NewMaxUCBBattleCommands E n.NextNodeParam X with
      | .error e => .inr (s.heap, s.random, .error e)
      | .ok maxUCBBattleCommands =>
        match RandomChoice E maxUCBBattleCommands s.random with
        | .error e => .inr (s.heap, s.random, .error e)
        | .ok (selectBattleCommand, random1) =>
          let selects := s.selects ++ [⟨s.node, selectBattleCommand⟩]
          let heap1 := s.heap.set s.node { n with SelectCount := n.SelectCount + 1 }
          match E.Run s.battle selectBattleCommand random1 with
          | (.error e, random2) => .inr (heap1, random2, .error (.err e))
          | (.ok battle, random2) =>
            if E.IsGameEnd battle then
              .inr (heap1, random2, .ok ⟨s.node, battle, s.allNodes, selects, false⟩)
            else
              match resolveNextNode E heap1 s.node battle s.allNodes with
              | .error e => .inr (heap1, random2, .error e)
              | .ok (heap2, allNodes, nextNode) =>
                match heap2[nextNode]? with
                | none => .inr (heap2, random2, .error (.panic "nil pointer dereference"))
                | some next =>
                  if next.SelectCount = 1 then
                    .inr (heap2, random2, .ok ⟨s.node, battle, allNodes, selects, true⟩)
                  else
                    .inl ⟨heap2, nextNode, battle, allNodes, selects, random2⟩

/-- The `for` loop of `Select`, run for at most `fuel` passes. -/
def SelectLoop (E : Engine B C R) (X : ℚ) :
    Nat → SelectState B C R → Option (Heap B C × R × Except Fault (SelectReturn B C))
  | 0, _ => none
  | fuel + 1, s =>
    match SelectStep E X s with
    | .inl s' => SelectLoop E X fuel s'
    | .inr r => some r

/-- Source: `func (node *Node) Select(battle, allNodes, X, random)` -/
def Node.Select (E : Engine B C R) (fuel : Nat) (heap : Heap B C) (node : Nat) (battle : B)
    (allNodes : Nodes) (X : ℚ) (random : R) :
    Option (Heap B C × R × Except Fault (SelectReturn B C)) :=
  SelectLoop E X fuel ⟨heap, node, battle, allNodes, [], random⟩

/-- Source: `func (node *Node) ExpansionWithEvalY(battle, eval, selects, random)` -/
def Node.ExpansionWithEvalY (E : Engine B C R) (eval : Eval B R) (heap : Heap B C) (node : Nat)
    (battle : B) (selects : Selects C) (random : R) :
    Heap B C × R × Except Fault (ℚ × Selects C) :=
  match heap[node]? with
  | none => (heap, random, .error (.panic "nil pointer dereference"))
  | some n =>
    if n.IsAllExpansion then
      (heap, random, .error (.err "展開済みのNodeである"))
    else
      match n.NewNoExpansionBattleCommands with
      | .error e => (heap, random, .error e)
      | .ok noExpansionBattleCommands =>
        match RandomChoice E noExpansionBattleCommands random with
        | .error e => (heap, random, .error e)
        | .ok (noExpansionBattleCommand, random1) =>
          match E.Run battle noExpansionBattleCommand random1 with
          | (.error e, random2) => (heap, random2, .error (.err e))
          | (.ok battle1, random2) =>
            let nextNodeParam := NextNodeParam.set n.NextNodeParam noExpansionBattleCommand ⟨0, 0⟩
            let selects1 := selects ++ [⟨node, noExpansionBattleCommand⟩]
            let heap1 := heap.set node
              { n with
                NextNodeParam := nextNodeParam
                IsAllExpansion :=
                  if nextNodeParam.length = n.AvailableBattleCommands.length then true
                  else n.IsAllExpansion }
            match eval.Func battle1 random2 with
            | (.error e, random3) => (heap1, random3, .error (.err e))
            | (.ok evalY, random3) => (heap1, random3, .ok (evalY, selects1))

/-- The body of the loop of `Backward` for one `Select`. -/
def backwardOne (eval : Eval B R) (evalY : ℚ) (heap : Heap B C) (select : Select C) :
    Except Fault (Heap B C) :=
  match heap[select.Node]? with
  | none => .error (.panic "nil pointer dereference")
  | some n =>
    match NextNodeParam.get n.NextNodeParam select.BattleCommand with
    | none => .error (.panic "nil pointer dereference")
    | some ucbParam =>
      let value := if n.IsP1Node then evalY else eval.ReverseFunc evalY
      .ok (heap.set select.Node
        { n with
          NextNodeParam := NextNodeParam.set n.NextNodeParam select.BattleCommand
            ⟨ucbParam.TotalValue + value, ucbParam.SimuNum + 1⟩
          SelectCount := 0 })

/-- Source: `func (selects Selects) Backward(evalY float64, eval *Eval)` -/
def Selects.Backward (eval : Eval B R) (evalY : ℚ) :
    Selects C → Heap B C → Except Fault (Heap B C)
  | [], heap => .ok heap
  | select :: rest, heap =>
    match backwardOne eval evalY heap select with
    | .error e => .error e
    | .ok heap1 => Selects.Backward eval evalY rest heap1

/-- What `RunMCTS` leaves behind and returns: the heap, the random source, the
returned `Nodes` and the returned error (`none` for `nil`). -/
structure RunResult (B C R : Type) where
  heap : Heap B C
  random : R
  allNodes : Nodes
  fault : Option Fault

/-- The body of the loop of `RunMCTS`: one simulation from the root (pointer 0). -/
def simulation (E : Engine B C R) (eval : Eval B R) (fuel : Nat) (rootBattle : B) (X : ℚ)
    (heap : Heap B C) (allNodes : Nodes) (random : R) :
    Option (Heap B C × R × Except Fault Nodes) :=
  match Node.Select E fuel heap 0 rootBattle allNodes X random with
  | none => none
  | some (heap1, random1, .error e) => some (heap1, random1, .error e)
  | some (heap1, random1, .ok sel) =>
    let evaluated : Heap B C × R × Except Fault (ℚ × Selects C) :=
      if E.IsGameEnd sel.battle || sel.isRoopSelect then
        match eval.Func sel.battle random1 with
        | (.error e, random2) => (heap1, random2, .error (.err e))
        | (.ok evalY, random2) => (heap1, random2, .ok (evalY, sel.selects))
      else
        Node.ExpansionWithEvalY E eval heap1 sel.node sel.battle sel.selects random1
    match evaluated with
    | (heap2, random2, .error e) => some (heap2, random2, .error e)
    | (heap2, random2, .ok (evalY, selects)) =>
      match Selects.Backward eval evalY selects heap2 with
      | .error e => some (heap2, random2, .error e)
      | .ok heap3 => some (heap3, random2, .ok sel.allNodes)

/-- The `for i := 0; i < simuNum; i++` loop of `RunMCTS` with `n` passes left. -/
def RunMCTSLoop (E : Engine B C R) (eval : Eval B R) (fuel : Nat) (rootBattle : B) (X : ℚ) :
    Nat → Heap B C → Nodes → R → Option (RunResult B C R)
  | 0, heap, allNodes, random => some ⟨heap, random, allNodes, none⟩
  | n + 1, heap, allNodes, random =>
    match simulation E eval fuel rootBattle X heap allNodes random with
    | none => none
    | some (heap1, random1, .error e) => some ⟨heap1, random1, [], some e⟩
    | some (heap1, random1, .ok allNodes1) =>
      RunMCTSLoop E eval fuel rootBattle X n heap1 allNodes1 random1

/-- Source: `func RunMCTS(rootBattle, simuNum, X, eval, random) (Nodes, error)` ; the
root node is the first object on the heap. -/
def RunMCTS (E : Engine B C R) (eval : Eval B R) (fuel : Nat) (rootBattle : B) (simuNum : Int)
    (X : ℚ) (random : R) : Option (RunResult B C R) :=
  RunMCTSLoop E eval fuel rootBattle X simuNum.toNat [NewNodePointer E rootBattle] [0] random

/-- The function built by `NewMCTSTrainer(simuNum, X, eval, random)`, applied to
`battle`: the returned command, or the fault. -/
def NewMCTSTrainer (E : Engine B C R) (eval : Eval B R) (fuel : Nat) (simuNum : Int) (X : ℚ)
    (battle : B) (random : R) : Option (R × Except Fault C) :=
  match RunMCTS E eval fuel battle simuNum X random with
  | none => none
  | some ⟨_, random1, _, some e⟩ => some (random1, .error e)
  | some ⟨heap, random1, allNodes, none⟩ =>
    match allNodes with
    | [] => some (random1, .error (.panic "index out of range"))
    | root :: _ =>
      match heap[root]? with
      | none => some (random1, .error (.panic "nil pointer dereference"))
      | some n =>
        match NextNodeParam.NewMaxSimuNumBattleCommands n.NextNodeParam with
        | .error e => some (random1, .error e)
        | .ok maxSimuNumBattleCommands =>
          match RandomChoice E maxSimuNumBattleCommands random1 with
          | .error e => some (random1, .error e)
          | .ok (battleCommand, random2) => some (random2, .ok battleCommand)

/-- The node `ExpansionWithEvalY` writes back after choosing `c`. -/
def expandedNode (n : Node B C) (c : C) : Node B C :=
  { n with
    NextNodeParam := NextNodeParam.set n.NextNodeParam c ⟨0, 0⟩
    IsAllExpansion :=
      if (NextNodeParam.set n.NextNodeParam c ⟨0, 0⟩).length = n.AvailableBattleCommands.length
      then true else n.IsAllExpansion }

/-- Whether a run returned, and returned no error. -/
def succeeded (run : Option (RunResult B C R)) : Bool :=
  match run with
  | some r => r.fault.isNone
  | none => false

end Defs


section Defs2

variable {B C R W : Type} [DecidableEq C]

/-- The loop state of `Select` at the top of pass `k + 1`, when the loop gets
that far (`none` when it has returned before). -/
def SelectIter (E : Engine B C R) (X : ℚ) : Nat → SelectState B C R → Option (SelectState B C R)
  | 0, s => some s
  | k + 1, s =>
    match SelectStep E X s with
    | .inl s' => SelectIter E X k s'
    | .inr _ => none

/-- The legal actions of a state, as `NewNodePointer` reads them: those of the
side to move. -/
def legalActions (E : Engine B C R) (battle : B) : List C :=
  if E.IsP1Phase battle then E.P1Commands battle else E.P2Commands battle

/-- Lines 312-316 of `RunMCTS`: evaluate the state `Select` returned directly
when the game ended or a cycle was found, else expand the node. -/
def evaluatePhase (E : Engine B C R) (eval : Eval B R) (heap1 : Heap B C)
    (sel : SelectReturn B C) (random1 : R) : Heap B C × R × Except Fault (ℚ × Selects C) :=
  if E.IsGameEnd sel.battle || sel.isRoopSelect then
    match eval.Func sel.battle random1 with
    | (.error e, random2) => (heap1, random2, .error (.err e))
    | (.ok evalY, random2) => (heap1, random2, .ok (evalY, sel.selects))
  else
    Node.ExpansionWithEvalY E eval heap1 sel.node sel.battle sel.selects random1

/-- What `NewRandomPlayoutEval` takes from outside this repository:
`battle.Winner()` (a value and an error, as Go returns them),
`trainer.OneGame(trainer, battle, random)` and the table `WINNER_TO_FLOAT64`,
which no source file of the repository declares. -/
structure Playout (B R W : Type) where
  Winner : B → W × Option String
  OneGame : B → R → Except String B × R
  WINNER_TO_FLOAT64 : W → ℚ

/-- The closure `evalFunc` of `NewRandomPlayoutEval`.  In the `else` branch
`gameEndBattle, err := trainer.OneGame(...)` declares a new `err`; the later
`gameWinner, err = gameEndBattle.Winner()` assigns that inner variable, and the
final `return WINNER_TO_FLOAT64[gameWinner], err` reads the outer one, which is
still `nil` there. -/
def evalFunc (E : Engine B C R) (P : Playout B R W) (battle : B) (random : R) :
    Except String ℚ × R :=
  if E.IsGameEnd battle then
    match P.Winner battle with
    | (_, some err) => (.error err, random)
    | (gameWinner, none) => (.ok (P.WINNER_TO_FLOAT64 gameWinner), random)
  else
    match P.OneGame battle random with
    | (.error err, random1) => (.error err, random1)
    | (.ok gameEndBattle, random1) =>
      (.ok (P.WINNER_TO_FLOAT64 (P.Winner gameEndBattle).1), random1)

/-- The closure `reverseFunc` of `NewRandomPlayoutEval`, `1 - evalY`, over the
exact rationals: the rounding of the `float64` subtraction is left out, so
nothing that depends on the subtraction being exact is stated about it. -/
def reverseFunc (evalY : ℚ) : ℚ :=
  1 - evalY

/-- Source: `func NewRandomPlayoutEval(trainer bp.Trainer, random *rand.Rand) Eval` -/
def NewRandomPlayoutEval (E : Engine B C R) (P : Playout B R W) : Eval B R :=
  { Func := evalFunc E P, ReverseFunc := reverseFunc }

end Defs2


/-! ### Specification predicates -/

section Spec

variable {B C R : Type} [DecidableEq C]

/-- The fields of a node that `Select` never writes agree. -/
def sameCore (n n' : Node B C) : Prop :=
  n'.Battle = n.Battle ∧ n'.AvailableBattleCommands = n.AvailableBattleCommands ∧
  n'.NextNodeParam = n.NextNodeParam ∧ n'.IsAllExpansion = n.IsAllExpansion ∧
  n'.IsP1Node = n.IsP1Node

/-- The effect of lines 76-105 of `Select` on the heap and the registry, from
loop state `s` whose current node holds `n`: the current node gets its marker
incremented and at most `nextNode` appended to its child cache, and `nextNode`
is either a registry node with a state `Equal` to `battle1` or a new node for
`battle1`, which no registry node is `Equal` to. -/
structure Advance (E : Engine B C R) (s : SelectState B C R) (n : Node B C) (battle1 : B)
    (heap2 : Heap B C) (allNodes2 : Nodes) (nextNode : Nat) : Prop where
  node_eq : ∃ n2, heap2[s.node]? = some n2 ∧ sameCore n n2 ∧
    n2.SelectCount = n.SelectCount + 1 ∧
    (n2.NextNodes = n.NextNodes ∨ n2.NextNodes = n.NextNodes ++ [nextNode])
  others : ∀ p, p ≠ s.node → p < s.heap.length → heap2[p]? = s.heap[p]?
  next :
    (heap2.length = s.heap.length ∧ allNodes2 = s.allNodes ∧ nextNode ∈ s.allNodes ∧
      ∃ nn, s.heap[nextNode]? = some nn ∧ E.Equal nn.Battle battle1 = true) ∨
    (heap2.length = s.heap.length + 1 ∧ nextNode = s.heap.length ∧
      allNodes2 = s.allNodes ++ [s.heap.length] ∧
      heap2[s.heap.length]? = some (NewNodePointer E battle1) ∧
      ∀ p ∈ s.allNodes, ∃ np, s.heap[p]? = some np ∧ E.Equal np.Battle battle1 = false)

/-- Invariant of the loop of `Select` entered at `node0` with live state
`battle0` and registry `allNodes0`, all of whose markers were 0. -/
structure SelInv (allNodes0 : Nodes) (node0 : Nat) (battle0 : B) (s : SelectState B C R) :
    Prop where
  valid : ∀ p ∈ s.allNodes, p < s.heap.length
  cache : ∀ p ∈ s.allNodes, ∀ n, s.heap[p]? = some n → ∀ q ∈ n.NextNodes, q ∈ s.allNodes
  node_mem : s.node ∈ s.allNodes
  count : ∀ p ∈ s.allNodes, ∀ n, s.heap[p]? = some n →
    n.SelectCount = if p ∈ s.selects.map Select.Node then 1 else 0
  cur : s.node ∉ s.selects.map Select.Node
  nodup : (s.selects.map Select.Node).Nodup
  path : ∀ sel ∈ s.selects, sel.Node ∈ allNodes0 ∧ ∃ n, s.heap[sel.Node]? = some n ∧
    n.IsAllExpansion = true ∧ sel.BattleCommand ∈ n.NextNodeParam.map Prod.fst
  grow : s.allNodes = allNodes0 ∨
    (s.allNodes = allNodes0 ++ [s.node] ∧ ∃ n, s.heap[s.node]? = some n ∧
      n.IsAllExpansion = false)
  start : (s.selects = [] ∧ s.node = node0 ∧ s.battle = battle0) ∨
    ∃ c rest, s.selects = ⟨node0, c⟩ :: rest

/-- What holds when `Select`, entered as in `SelInv`, returns values. -/
structure SelPost (E : Engine B C R) (allNodes0 : Nodes) (node0 : Nat) (battle0 : B)
    (heap : Heap B C) (ret : SelectReturn B C) : Prop where
  valid : ∀ p ∈ ret.allNodes, p < heap.length
  cache : ∀ p ∈ ret.allNodes, ∀ n, heap[p]? = some n → ∀ q ∈ n.NextNodes, q ∈ ret.allNodes
  node_mem : ret.node ∈ ret.allNodes
  count : ∀ p ∈ ret.allNodes, ∀ n, heap[p]? = some n →
    n.SelectCount = if p ∈ ret.selects.map Select.Node then 1 else 0
  nodup : (ret.selects.map Select.Node).Nodup
  path : ∀ sel ∈ ret.selects, sel.Node ∈ allNodes0 ∧ ∃ n, heap[sel.Node]? = some n ∧
    n.IsAllExpansion = true ∧ sel.BattleCommand ∈ n.NextNodeParam.map Prod.fst
  grow : ret.allNodes = allNodes0 ∨
    (ret.allNodes = allNodes0 ++ [ret.node] ∧ ret.isRoopSelect = false)
  start : (ret.selects = [] ∧ ret.node = node0 ∧ ret.battle = battle0 ∧
      ret.isRoopSelect = false) ∨
    ∃ c rest, ret.selects = ⟨node0, c⟩ :: rest
  expand : ret.isRoopSelect = false → E.IsGameEnd ret.battle = false →
    ret.node ∉ ret.selects.map Select.Node ∧
    ∃ n, heap[ret.node]? = some n ∧ n.IsAllExpansion = false
  roop : ret.isRoopSelect = true → E.IsGameEnd ret.battle = false ∧
    ∃ n, heap[ret.node]? = some n ∧ n.IsAllExpansion = true

/-- What `Select` leaves of the heap it found: registry nodes keep their core
fields, and a node added to the registry is as `NewNodePointer` made it. -/
def Frame (E : Engine B C R) (heap0 : Heap B C) (allNodes0 : Nodes) (heap : Heap B C)
    (allNodes : Nodes) : Prop :=
  (∀ p ∈ allNodes0, ∀ n0, heap0[p]? = some n0 → ∃ n, heap[p]? = some n ∧ sameCore n0 n) ∧
  (∀ p ∈ allNodes, p ∉ allNodes0 → ∃ b, heap[p]? = some (NewNodePointer E b))

/-- No two entries at different positions of the registry hold `Equal` states. -/
def Dedup (E : Engine B C R) (heap : Heap B C) (allNodes : Nodes) : Prop :=
  allNodes.Pairwise (fun p q => ∀ np nq : Node B C, heap[p]? = some np → heap[q]? = some nq →
    E.Equal np.Battle nq.Battle = false ∧ E.Equal nq.Battle np.Battle = false)

/-- What a pass of the loop of `Select` that gets past line 67 does to the heap
and the registry. -/
def Effect (E : Engine B C R) (s : SelectState B C R) (heap2 : Heap B C) (allNodes2 : Nodes) :
    Prop :=
  ∃ n, s.heap[s.node]? = some n ∧ n.IsAllExpansion = true ∧
    (∃ n2, heap2[s.node]? = some n2 ∧ sameCore n n2 ∧ n2.SelectCount = n.SelectCount + 1 ∧
      ∀ q ∈ n2.NextNodes, q ∈ allNodes2) ∧
    (∀ p, p ≠ s.node → p < s.heap.length → heap2[p]? = s.heap[p]?) ∧
    ((heap2.length = s.heap.length ∧ allNodes2 = s.allNodes) ∨
      (heap2.length = s.heap.length + 1 ∧ allNodes2 = s.allNodes ++ [s.heap.length] ∧
        ∃ b, heap2[s.heap.length]? = some (NewNodePointer E b) ∧
          ∀ p ∈ s.allNodes, ∃ np, s.heap[p]? = some np ∧ E.Equal np.Battle b = false))

/-- A node's statistics fit its legal actions: the keys are distinct legal
actions, the flag is set exactly when the map is non-empty and as long as the
list of legal actions, every entry has been visited at least once unless it is
`pending` (created in the simulation that is under way) with visit count 0,
and the legal actions and the side are those of the node's state. -/
structure NodeOK (E : Engine B C R) (pending : C → Prop) (n : Node B C) : Prop where
  keys_nodup : (n.NextNodeParam.map Prod.fst).Nodup
  keys_legal : ∀ c ∈ n.NextNodeParam.map Prod.fst, c ∈ n.AvailableBattleCommands
  flag : n.IsAllExpansion = true ↔
    (n.NextNodeParam ≠ [] ∧ n.NextNodeParam.length = n.AvailableBattleCommands.length)
  visited : ∀ e ∈ n.NextNodeParam, 1 ≤ e.2.SimuNum ∨ (e.2.SimuNum = 0 ∧ pending e.1)
  made : n.AvailableBattleCommands = (NewNodePointer E n.Battle).AvailableBattleCommands ∧
    n.IsP1Node = E.IsP1Phase n.Battle

/-- Invariant of the loop of `RunMCTS` after `k` completed simulations. -/
structure RunInv (E : Engine B C R) (rootBattle : B) (k : Nat) (heap : Heap B C)
    (allNodes : Nodes) : Prop where
  valid : ∀ p ∈ allNodes, p < heap.length
  cache : ∀ p ∈ allNodes, ∀ n, heap[p]? = some n → ∀ q ∈ n.NextNodes, q ∈ allNodes
  root : ∃ rest, allNodes = 0 :: rest
  count : ∀ p ∈ allNodes, ∀ n, heap[p]? = some n → n.SelectCount = 0
  nodeOK : ∀ p ∈ allNodes, ∀ n, heap[p]? = some n → NodeOK E (fun _ => False) n
  rootNode : ∃ n, heap[0]? = some n ∧ n.Battle = rootBattle
  visits : E.IsGameEnd rootBattle = false →
    ∃ n, heap[0]? = some n ∧ NextNodeParam.TotalSimuNum n.NextNodeParam = k
  size : allNodes.length ≤ k + 1

/-- What holds between the evaluation and the backpropagation of simulation
`k + 1`, for the path `selects` handed to `Backward`. -/
structure MidInv (E : Engine B C R) (rootBattle : B) (k : Nat) (heap : Heap B C)
    (allNodes : Nodes) (selects : Selects C) : Prop where
  valid : ∀ p ∈ allNodes, p < heap.length
  cache : ∀ p ∈ allNodes, ∀ n, heap[p]? = some n → ∀ q ∈ n.NextNodes, q ∈ allNodes
  root : ∃ rest, allNodes = 0 :: rest
  count : ∀ p ∈ allNodes, p ∉ selects.map Select.Node → ∀ n, heap[p]? = some n →
    n.SelectCount = 0
  nodup : (selects.map Select.Node).Nodup
  path : ∀ sel ∈ selects, sel.Node ∈ allNodes ∧ ∃ n p, heap[sel.Node]? = some n ∧
    NextNodeParam.get n.NextNodeParam sel.BattleCommand = some p
  nodeOK : ∀ p ∈ allNodes, ∀ n, heap[p]? = some n →
    NodeOK E (fun c => Select.mk p c ∈ selects) n
  rootNode : ∃ n, heap[0]? = some n ∧ n.Battle = rootBattle
  visits : E.IsGameEnd rootBattle = false →
    ∃ n c, heap[0]? = some n ∧ NextNodeParam.TotalSimuNum n.NextNodeParam = k ∧
      Select.mk 0 c ∈ selects
  size : allNodes.length ≤ k + 2

end Spec


section Spec2

variable {B C R : Type} [DecidableEq C]

/-- The root after `j` simulations that each expanded it: it is the only
registry node and stores the root state with its legal actions and side; its
statistics have `j` entries with distinct legal actions as keys, each visited
once, with the value that the evaluator gave to the state reached by the
entry's action, seen from the root's side; and it is marked fully expanded
exactly when `j` is the number of listed legal actions. -/
def RootFresh (E : Engine B C R) (eval : Eval B R) (rootBattle : B) (j : Nat)
    (heap : Heap B C) (allNodes : Nodes) : Prop :=
  allNodes = [0] ∧
  ∃ n : Node B C, heap[0]? = some n ∧ n.Battle = rootBattle ∧
    n.AvailableBattleCommands = legalActions E rootBattle ∧
    n.IsP1Node = E.IsP1Phase rootBattle ∧
    n.NextNodeParam.length = j ∧
    (n.NextNodeParam.map Prod.fst).Nodup ∧
    (∀ c ∈ n.NextNodeParam.map Prod.fst, c ∈ legalActions E rootBattle) ∧
    (∀ e ∈ n.NextNodeParam, e.2.SimuNum = 1 ∧
      ∃ (random1 : R) (battle1 : B) (random2 : R) (evalY : ℚ) (random3 : R),
        E.Run rootBattle e.1 random1 = (.ok battle1, random2) ∧
        eval.Func battle1 random2 = (.ok evalY, random3) ∧
        e.2.TotalValue = if E.IsP1Phase rootBattle then evalY else eval.ReverseFunc evalY) ∧
    (n.IsAllExpansion = true ↔ j = (legalActions E rootBattle).length)

end Spec2

section Spec3

variable {B C R : Type} [DecidableEq C]

/-- The action `c` is a key of the map `m` whose UCB1 score is the largest of
the scores `UCBs` gives to the keys of `m`, which is what `MaxUCB` returns. -/
def IsMaxUCB (E : Engine B C R) (X : ℚ) (m : NextNodeParam C) (c : C) : Prop :=
  ∃ (ucbs : List (C × ℚ)) (M : ℚ), NextNodeParam.UCBs E m X = .ok ucbs ∧
    NextNodeParam.MaxUCB E m X = .ok M ∧
    c ∈ m.map Prod.fst ∧ ucbsGet ucbs c = M ∧ ∀ d ∈ m.map Prod.fst, ucbsGet ucbs d ≤ M

end Spec3


/-! ### Small engines used to instantiate the theorems -/

/-- A binary game tree on `Nat`: command `c` leads from `s` to `2 * s + 1 + c`,
states from 3 on are terminal, sides alternate. -/
def treeEngine : Engine Nat Nat Nat where
  Equal := fun a b => a == b
  IsGameEnd := fun s => decide (3 ≤ s)
  IsP1Phase := fun s => s % 2 == 0
  P1Commands := fun _ => [0, 1]
  P2Commands := fun _ => [0, 1]
  Run := fun s c r => (.ok (2 * s + 1 + c), r + 1)
  Intn := fun r _ => (r, r + 1)
  UpperConfidenceBound1 := fun average totalSimuNum simuNum X =>
    .ok (average + X * (totalSimuNum : ℚ) / (simuNum : ℚ))

/-- A game that never ends: one command, which alternates between states 0 and 1. -/
def cycleEngine : Engine Nat Nat Nat where
  Equal := fun a b => a == b
  IsGameEnd := fun _ => false
  IsP1Phase := fun s => s % 2 == 0
  P1Commands := fun _ => [0]
  P2Commands := fun _ => [0]
  Run := fun s _ r => (.ok ((s + 1) % 2), r + 1)
  Intn := fun r _ => (r, r + 1)
  UpperConfidenceBound1 := fun average totalSimuNum simuNum X =>
    .ok (average + X * (totalSimuNum : ℚ) / (simuNum : ℚ))

/-- An evaluator that calls every state a draw. -/
def drawEval : Eval Nat Nat where
  Func := fun _ r => (.ok (1 / 2), r)
  ReverseFunc := fun v => 1 - v

/-- A heap holding one second-party node with one statistics entry. -/
def oneNodeHeap : Heap Nat Nat :=
  [{ Battle := 1, AvailableBattleCommands := [0, 1], NextNodeParam := [(0, ⟨1, 2⟩)],
     NextNodes := [], IsAllExpansion := false, IsP1Node := false, SelectCount := 0 }]

/-- A heap holding one fully expanded first-party node. -/
def fullNodeHeap : Heap Nat Nat :=
  [{ Battle := 0, AvailableBattleCommands := [0], NextNodeParam := [(0, ⟨1, 1⟩)],
     NextNodes := [], IsAllExpansion := true, IsP1Node := true, SelectCount := 0 }]

/-- A game that is over from the start and offers no command. -/
def noMoveEngine : Engine Nat Nat Nat where
  Equal := fun a b => a == b
  IsGameEnd := fun _ => true
  IsP1Phase := fun _ => true
  P1Commands := fun _ => []
  P2Commands := fun _ => []
  Run := fun s _ r => (.ok s, r)
  Intn := fun r _ => (0, r)
  UpperConfidenceBound1 := fun average _ _ _ => .ok average

/-- A game whose engine lists its single command twice; it ends after one move. -/
def twiceEngine : Engine Nat Nat Nat where
  Equal := fun a b => a == b
  IsGameEnd := fun s => decide (1 ≤ s)
  IsP1Phase := fun _ => true
  P1Commands := fun _ => [0, 0]
  P2Commands := fun _ => [0, 0]
  Run := fun s _ r => (.ok (s + 1), r)
  Intn := fun r _ => (0, r)
  UpperConfidenceBound1 := fun average _ _ _ => .ok average

/-- An evaluator that always fails. -/
def failEval : Eval Nat Nat where
  Func := fun _ r => (.error "no winner", r)
  ReverseFunc := fun v => 1 - v

/-- A playout whose games end in state 9 and whose `Winner` always fails. -/
def brokenPlayout : Playout Nat Nat Nat where
  Winner := fun _ => (0, some "winner unknown")
  OneGame := fun _ r => (.ok 9, r + 1)
  WINNER_TO_FLOAT64 := fun _ => 1 / 2

/-- The scenario of the specification: two legal first moves, each leading
directly to a terminal state. -/
def twoMoveEngine : Engine Nat Nat Nat where
  Equal := fun a b => a == b
  IsGameEnd := fun s => decide (1 ≤ s)
  IsP1Phase := fun s => s % 2 == 0
  P1Commands := fun _ => [0, 1]
  P2Commands := fun _ => [0, 1]
  Run := fun s c r => (.ok (2 * s + 1 + c), r + 1)
  Intn := fun r _ => (r, r + 1)
  UpperConfidenceBound1 := fun average totalSimuNum simuNum X =>
    .ok (average + X * (totalSimuNum : ℚ) / (simuNum : ℚ))

/-- A game whose `Equal` is reflexive but also holds between the different
states 1 and 2, which have different legal actions. -/
def coarseEngine : Engine Nat Nat Nat where
  Equal := fun a b => a == b || ((a == 1 || a == 2) && (b == 1 || b == 2))
  IsGameEnd := fun s => decide (3 ≤ s)
  IsP1Phase := fun _ => true
  P1Commands := fun s => if s == 2 then [8, 9] else [0, 1]
  P2Commands := fun _ => []
  Run := fun s c r => (.ok (if s == 0 then 1 + c else 3), r + 1)
  Intn := fun r _ => (r, r + 1)
  UpperConfidenceBound1 := fun average totalSimuNum simuNum X =>
    .ok (average + X * (totalSimuNum : ℚ) / (simuNum : ℚ))

/-- The heap of `treeEngine` with `drawEval` after three simulations from
state 0 with random source 0: the root is fully expanded and the node of
state 1 has one entry. -/
def treeHeap3 : Heap Nat Nat :=
  [{ Battle := 0, AvailableBattleCommands := [0, 1],
     NextNodeParam := [(0, ⟨1, 2⟩), (1, ⟨1 / 2, 1⟩)],
     NextNodes := [1], IsAllExpansion := true, IsP1Node := true, SelectCount := 0 },
   { Battle := 1, AvailableBattleCommands := [0, 1], NextNodeParam := [(0, ⟨1 / 2, 1⟩)],
     NextNodes := [], IsAllExpansion := false, IsP1Node := false, SelectCount := 0 }]

/-- The heap `treeHeap3` after the selection of the fourth simulation, which
takes action 1 at the root and makes the node of state 2. -/
def treeHeap4 : Heap Nat Nat :=
  [{ Battle := 0, AvailableBattleCommands := [0, 1],
     NextNodeParam := [(0, ⟨1, 2⟩), (1, ⟨1 / 2, 1⟩)],
     NextNodes := [1, 2], IsAllExpansion := true, IsP1Node := true, SelectCount := 1 },
   { Battle := 1, AvailableBattleCommands := [0, 1], NextNodeParam := [(0, ⟨1 / 2, 1⟩)],
     NextNodes := [], IsAllExpansion := false, IsP1Node := false, SelectCount := 0 },
   { Battle := 2, AvailableBattleCommands := [0, 1], NextNodeParam := [],
     NextNodes := [], IsAllExpansion := false, IsP1Node := true, SelectCount := 0 }]

/-- A heap holding one node whose single legal action is listed twice and has
an entry: the node is not marked fully expanded and no legal action is left
without an entry. -/
def twiceHeap : Heap Nat Nat :=
  [{ Battle := 0, AvailableBattleCommands := [0, 0], NextNodeParam := [(0, ⟨1 / 2, 1⟩)],
     NextNodes := [], IsAllExpansion := false, IsP1Node := true, SelectCount := 0 }]

/-- The heap `treeHeap4` after the expansion of the fourth simulation, which
gives the node of state 2 an entry for action 0. -/
def treeHeap4e : Heap Nat Nat :=
  [{ Battle := 0, AvailableBattleCommands := [0, 1],
     NextNodeParam := [(0, ⟨1, 2⟩), (1, ⟨1 / 2, 1⟩)],
     NextNodes := [1, 2], IsAllExpansion := true, IsP1Node := true, SelectCount := 1 },
   { Battle := 1, AvailableBattleCommands := [0, 1], NextNodeParam := [(0, ⟨1 / 2, 1⟩)],
     NextNodes := [], IsAllExpansion := false, IsP1Node := false, SelectCount := 0 },
   { Battle := 2, AvailableBattleCommands := [0, 1], NextNodeParam := [(0, ⟨0, 0⟩)],
     NextNodes := [], IsAllExpansion := false, IsP1Node := true, SelectCount := 0 }]

/-- The heap of `cycleEngine` with `drawEval` after two simulations from state
0 with random source 0: both nodes are fully expanded. -/
def cycleHeap2 : Heap Nat Nat :=
  [{ Battle := 0, AvailableBattleCommands := [0], NextNodeParam := [(0, ⟨1, 2⟩)],
     NextNodes := [1], IsAllExpansion := true, IsP1Node := true, SelectCount := 0 },
   { Battle := 1, AvailableBattleCommands := [0], NextNodeParam := [(0, ⟨1 / 2, 1⟩)],
     NextNodes := [], IsAllExpansion := true, IsP1Node := false, SelectCount := 0 }]

/-- The heap `cycleHeap2` after the selection of the third simulation, which
walks from state 0 to state 1 and back and stops at the cycle. -/
def cycleHeap2s : Heap Nat Nat :=
  [{ Battle := 0, AvailableBattleCommands := [0], NextNodeParam := [(0, ⟨1, 2⟩)],
     NextNodes := [1], IsAllExpansion := true, IsP1Node := true, SelectCount := 1 },
   { Battle := 1, AvailableBattleCommands := [0], NextNodeParam := [(0, ⟨1 / 2, 1⟩)],
     NextNodes := [0], IsAllExpansion := true, IsP1Node := false, SelectCount := 1 }]


section MapLemmas
variable {B C R : Type} [DecidableEq C]

theorem NextNodeParam.get_set_same (m : NextNodeParam C) (c : C) (p : UCBParam) :
    NextNodeParam.get (NextNodeParam.set m c p) c = some p := by
  induction m with
  | nil => simp [NextNodeParam.set, NextNodeParam.get]
  | cons e rest ih =>
    obtain ⟨c', p'⟩ := e
    by_cases h : c' = c
    · simp [NextNodeParam.set, NextNodeParam.get, h]
    · simp [NextNodeParam.set, NextNodeParam.get, h, ih]

theorem NextNodeParam.get_set_ne (m : NextNodeParam C) {c c' : C} (p : UCBParam) (hne : c ≠ c') :
    NextNodeParam.get (NextNodeParam.set m c p) c' = NextNodeParam.get m c' := by
  induction m with
  | nil => simp [NextNodeParam.set, NextNodeParam.get, hne]
  | cons e rest ih =>
    obtain ⟨d, q⟩ := e
    by_cases h : d = c
    · subst h
      simp [NextNodeParam.set, NextNodeParam.get, hne]
    · by_cases h' : d = c'
      · subst h'
        simp [NextNodeParam.set, NextNodeParam.get, h]
      · simp [NextNodeParam.set, NextNodeParam.get, h, h', ih]

theorem NextNodeParam.get_eq_none_iff (m : NextNodeParam C) (c : C) :
    NextNodeParam.get m c = none ↔ c ∉ m.map Prod.fst := by
  induction m with
  | nil => simp [NextNodeParam.get]
  | cons e rest ih =>
    obtain ⟨d, q⟩ := e
    by_cases h : d = c
    · simp [NextNodeParam.get, h]
    · simp only [NextNodeParam.get, h, if_false, ih, List.map_cons, List.mem_cons, not_or]
      constructor
      · intro h1; exact ⟨fun h2 => h h2.symm, h1⟩
      · intro h1; exact h1.2

theorem NextNodeParam.mem_of_get (m : NextNodeParam C) (c : C) (p : UCBParam)
    (h : NextNodeParam.get m c = some p) : (c, p) ∈ m := by
  induction m with
  | nil => simp [NextNodeParam.get] at h
  | cons e rest ih =>
    obtain ⟨d, q⟩ := e
    by_cases hd : d = c
    · simp [NextNodeParam.get, hd] at h
      simp [hd, h]
    · simp only [NextNodeParam.get, hd, if_false] at h
      exact List.mem_cons_of_mem _ (ih h)

theorem NextNodeParam.get_of_mem (m : NextNodeParam C) (c : C) (p : UCBParam)
    (hnd : (m.map Prod.fst).Nodup) (h : (c, p) ∈ m) : NextNodeParam.get m c = some p := by
  induction m with
  | nil => simp at h
  | cons e rest ih =>
    obtain ⟨d, q⟩ := e
    simp only [List.map_cons, List.nodup_cons] at hnd
    rcases List.mem_cons.1 h with h1 | h1
    · cases h1
      simp [NextNodeParam.get]
    · have hne : d ≠ c := by
        rintro rfl
        exact hnd.1 (List.mem_map_of_mem Prod.fst h1)
      simp only [NextNodeParam.get, hne, if_false]
      exact ih hnd.2 h1

theorem NextNodeParam.set_of_get_none (m : NextNodeParam C) (c : C) (p : UCBParam)
    (h : NextNodeParam.get m c = none) : NextNodeParam.set m c p = m ++ [(c, p)] := by
  induction m with
  | nil => simp [NextNodeParam.set]
  | cons e rest ih =>
    obtain ⟨d, q⟩ := e
    by_cases hd : d = c
    · simp [NextNodeParam.get, hd] at h
    · simp only [NextNodeParam.get, hd, if_false] at h
      simp [NextNodeParam.set, hd, ih h]

theorem NextNodeParam.keys_set_of_get_some (m : NextNodeParam C) (c : C) (p q : UCBParam)
    (h : NextNodeParam.get m c = some q) :
    (NextNodeParam.set m c p).map Prod.fst = m.map Prod.fst := by
  induction m with
  | nil => simp [NextNodeParam.get] at h
  | cons e rest ih =>
    obtain ⟨d, r⟩ := e
    by_cases hd : d = c
    · simp [NextNodeParam.set, hd]
    · simp only [NextNodeParam.get, hd, if_false] at h
      simp [NextNodeParam.set, hd, ih h]

theorem NextNodeParam.TotalSimuNum_set_of_get_some (m : NextNodeParam C) (c : C) (p q : UCBParam)
    (h : NextNodeParam.get m c = some q) :
    NextNodeParam.TotalSimuNum (NextNodeParam.set m c p)
      = NextNodeParam.TotalSimuNum m - q.SimuNum + p.SimuNum := by
  induction m with
  | nil => simp [NextNodeParam.get] at h
  | cons e rest ih =>
    obtain ⟨d, r⟩ := e
    by_cases hd : d = c
    · simp [NextNodeParam.get, hd] at h
      subst h
      simp [NextNodeParam.set, hd, NextNodeParam.TotalSimuNum]
      ring
    · simp only [NextNodeParam.get, hd, if_false] at h
      have := ih h
      simp only [NextNodeParam.TotalSimuNum] at this
      simp [NextNodeParam.set, hd, NextNodeParam.TotalSimuNum, this]
      ring

end MapLemmas


section BackwardLemmas
variable {B C R : Type} [DecidableEq C]

/-- The statistics cell after one backpropagation step through node `n`. -/
theorem backwardOne_eq (eval : Eval B R) (evalY : ℚ) (heap : Heap B C) (s : Select C)
    (n : Node B C) (p : UCBParam) (hn : heap[s.Node]? = some n)
    (hp : NextNodeParam.get n.NextNodeParam s.BattleCommand = some p) :
    backwardOne eval evalY heap s = .ok (heap.set s.Node
        { n with
          NextNodeParam := NextNodeParam.set n.NextNodeParam s.BattleCommand
            ⟨p.TotalValue + (if n.IsP1Node then evalY else eval.ReverseFunc evalY), p.SimuNum + 1⟩
          SelectCount := 0 }) := by
  simp [backwardOne, hn, hp]

theorem Backward_length (eval : Eval B R) (evalY : ℚ) (selects : Selects C) :
    ∀ (heap heap' : Heap B C), Selects.Backward eval evalY selects heap = .ok heap' →
      heap'.length = heap.length := by
  induction selects with
  | nil => intro heap heap' h; simp [Selects.Backward] at h; simp [h]
  | cons s rest ih =>
    intro heap heap' h
    simp only [Selects.Backward] at h
    cases h1 : backwardOne eval evalY heap s with
    | error e => simp [h1] at h
    | ok heap1 =>
      simp only [h1] at h
      have := ih heap1 heap' h
      rw [this]
      unfold backwardOne at h1
      split at h1
      · simp at h1
      · split at h1
        · simp at h1
        · simp at h1; subst h1; simp

/-- Nodes that are not on the path are left as they are. -/
theorem Backward_frame (eval : Eval B R) (evalY : ℚ) (selects : Selects C) :
    ∀ (heap heap' : Heap B C), Selects.Backward eval evalY selects heap = .ok heap' →
      ∀ i, i ∉ selects.map Select.Node → heap'[i]? = heap[i]? := by
  induction selects with
  | nil => intro heap heap' h; simp [Selects.Backward] at h; simp [h]
  | cons s rest ih =>
    intro heap heap' h i hi
    simp only [Selects.Backward] at h
    simp only [List.map_cons, List.mem_cons, not_or] at hi
    cases h1 : backwardOne eval evalY heap s with
    | error e => simp [h1] at h
    | ok heap1 =>
      simp only [h1] at h
      rw [ih heap1 heap' h i hi.2]
      unfold backwardOne at h1
      split at h1
      · simp at h1
      · split at h1
        · simp at h1
        · simp at h1; subst h1
          rw [List.getElem?_set_ne (Ne.symm hi.1)]

/-- Backpropagation along a path of distinct nodes with entries: it returns, and
each path node is rewritten as `backwardOne` prescribes from its prior value. -/
theorem Backward_spec (eval : Eval B R) (evalY : ℚ) (selects : Selects C) :
    ∀ (heap : Heap B C), (selects.map Select.Node).Nodup →
      (∀ s ∈ selects, ∃ n p, heap[s.Node]? = some n ∧
        NextNodeParam.get n.NextNodeParam s.BattleCommand = some p) →
      ∃ heap', Selects.Backward eval evalY selects heap = .ok heap' ∧
        ∀ s ∈ selects, ∀ n p, heap[s.Node]? = some n →
          NextNodeParam.get n.NextNodeParam s.BattleCommand = some p →
          heap'[s.Node]? = some
            { n with
              NextNodeParam := NextNodeParam.set n.NextNodeParam s.BattleCommand
                ⟨p.TotalValue + (if n.IsP1Node then evalY else eval.ReverseFunc evalY),
                  p.SimuNum + 1⟩
              SelectCount := 0 } := by
  induction selects with
  | nil => intro heap _ _; exact ⟨heap, rfl, by simp⟩
  | cons s rest ih =>
    intro heap hnd hent
    simp only [List.map_cons, List.nodup_cons] at hnd
    obtain ⟨n, p, hn, hp⟩ := hent s (List.mem_cons_self _ _)
    have h1 := backwardOne_eq eval evalY heap s n p hn hp
    have hlt : s.Node < heap.length := by
      rcases List.getElem?_eq_some_iff.1 hn with ⟨hlt, _⟩
      exact hlt
    set heap1 := heap.set s.Node
        { n with
          NextNodeParam := NextNodeParam.set n.NextNodeParam s.BattleCommand
            ⟨p.TotalValue + (if n.IsP1Node then evalY else eval.ReverseFunc evalY), p.SimuNum + 1⟩
          SelectCount := 0 } with hheap1
    have hother : ∀ t ∈ rest, heap1[t.Node]? = heap[t.Node]? := by
      intro t ht
      have hne : s.Node ≠ t.Node := by
        intro heq
        exact hnd.1 (heq ▸ List.mem_map_of_mem Select.Node ht)
      rw [hheap1, List.getElem?_set_ne hne]
    obtain ⟨heap', hb, hpost⟩ := ih heap1 hnd.2 (by
      intro t ht
      obtain ⟨n', p', hn', hp'⟩ := hent t (List.mem_cons_of_mem _ ht)
      exact ⟨n', p', by rw [hother t ht]; exact hn', hp'⟩)
    refine ⟨heap', by simp [Selects.Backward, h1, hb], ?_⟩
    intro t ht n' p' hn' hp'
    rcases List.mem_cons.1 ht with rfl | ht
    · have hfr := Backward_frame eval evalY rest heap1 heap' hb t.Node hnd.1
      rw [hfr, hheap1]
      rw [hn] at hn'
      cases hn'
      rw [hp] at hp'
      cases hp'
      simp [List.getElem?_set_self, hlt]
    · exact hpost t ht n' p' (by rw [hother t ht]; exact hn') hp'

end BackwardLemmas


section ChoiceLemmas
variable {B C R : Type} [DecidableEq C]

theorem RandomChoice_mem (E : Engine B C R) (xs : List C) (random random' : R) (c : C)
    (h : RandomChoice E xs random = .ok (c, random')) : c ∈ xs := by
  unfold RandomChoice at h
  split at h
  · simp at h
  · rename_i c' hc
    simp at h
    rw [← h.1]
    exact List.mem_iff_getElem?.2 ⟨_, hc⟩

theorem RandomChoice_ok (E : Engine B C R) (xs : List C) (random : R) (hne : xs ≠ []) :
    ∃ c random', RandomChoice E xs random = .ok (c, random') := by
  unfold RandomChoice
  have hpos : 0 < xs.length := List.length_pos.2 hne
  have hlt : (E.Intn random xs.length).1 % xs.length < xs.length := Nat.mod_lt _ hpos
  rw [List.getElem?_eq_getElem hlt]
  exact ⟨_, _, rfl⟩

theorem RandomChoice_nil (E : Engine B C R) (random : R) :
    ∃ e, RandomChoice E ([] : List C) random = .error e := by
  simp [RandomChoice]

/-- What `UCBsLoop` returns has the keys of the map, in order, each with its score. -/
theorem UCBsLoop_forall₂ (E : Engine B C R) (N : Int) (X : ℚ) :
    ∀ (m : NextNodeParam C) (ucbs : List (C × ℚ)),
      NextNodeParam.UCBsLoop E N X m = .ok ucbs →
      List.Forall₂ (fun e f => f.1 = e.1 ∧ e.2.SimuNum ≠ 0 ∧
        E.UpperConfidenceBound1 (e.2.TotalValue / (e.2.SimuNum : ℚ)) N e.2.SimuNum X = .ok f.2)
        m ucbs := by
  intro m
  induction m with
  | nil => intro ucbs h; simp [NextNodeParam.UCBsLoop] at h; subst h; exact List.Forall₂.nil
  | cons e rest ih =>
    obtain ⟨c, p⟩ := e
    intro ucbs h
    simp only [NextNodeParam.UCBsLoop] at h
    by_cases hz : p.SimuNum = 0
    · simp [UCBParam.Average, hz] at h
    · simp only [UCBParam.Average, hz, if_false] at h
      cases hu : E.UpperConfidenceBound1 (p.TotalValue / (p.SimuNum : ℚ)) N p.SimuNum X with
      | error e => simp [hu] at h
      | ok u =>
        simp only [hu] at h
        cases hr : NextNodeParam.UCBsLoop E N X rest with
        | error e => simp [hr] at h
        | ok r =>
          simp only [hr] at h
          cases h
          exact List.Forall₂.cons ⟨rfl, hz, hu⟩ (ih r hr)

theorem UCBsLoop_ok (E : Engine B C R) (N : Int) (X : ℚ) :
    ∀ (m : NextNodeParam C),
      (∀ e ∈ m, e.2.SimuNum ≠ 0 ∧ ∃ u,
        E.UpperConfidenceBound1 (e.2.TotalValue / (e.2.SimuNum : ℚ)) N e.2.SimuNum X = .ok u) →
      ∃ ucbs, NextNodeParam.UCBsLoop E N X m = .ok ucbs := by
  intro m
  induction m with
  | nil => intro _; exact ⟨[], rfl⟩
  | cons e rest ih =>
    obtain ⟨c, p⟩ := e
    intro h
    obtain ⟨hz, u, hu⟩ := h (c, p) (List.mem_cons_self _ _)
    obtain ⟨r, hr⟩ := ih (fun e he => h e (List.mem_cons_of_mem _ he))
    refine ⟨(c, u) :: r, ?_⟩
    simp only [] at hz hu
    simp [NextNodeParam.UCBsLoop, UCBParam.Average, hz, hu, hr]

theorem UCBs_keys (E : Engine B C R) (m : NextNodeParam C) (X : ℚ) (ucbs : List (C × ℚ))
    (h : NextNodeParam.UCBs E m X = .ok ucbs) : ucbs.map Prod.fst = m.map Prod.fst := by
  have h2 := UCBsLoop_forall₂ E _ X m ucbs h
  clear h
  generalize NextNodeParam.TotalSimuNum m = N at h2
  induction h2 with
  | nil => rfl
  | cons hab _ ih => simp [hab.1, ih]

theorem ucbsGet_of_mem (ucbs : List (C × ℚ)) (c : C) (u : ℚ)
    (hnd : (ucbs.map Prod.fst).Nodup) (h : (c, u) ∈ ucbs) : ucbsGet ucbs c = u := by
  induction ucbs with
  | nil => simp at h
  | cons e rest ih =>
    obtain ⟨d, v⟩ := e
    simp only [List.map_cons, List.nodup_cons] at hnd
    rcases List.mem_cons.1 h with h1 | h1
    · cases h1
      simp [ucbsGet]
    · have hne : d ≠ c := by
        rintro rfl
        exact hnd.1 (List.mem_map_of_mem Prod.fst h1)
      simp only [ucbsGet, hne, if_false]
      exact ih hnd.2 h1

/-- The running maximum of `MaxUCB`: an upper bound of the start value and of
every score read, and one of them. -/
theorem maxFold_spec (f : C → ℚ) :
    ∀ (cs : List C) (r : ℚ),
      r ≤ cs.foldl (fun mx c => if f c > mx then f c else mx) r ∧
      (∀ c ∈ cs, f c ≤ cs.foldl (fun mx c => if f c > mx then f c else mx) r) ∧
      (cs.foldl (fun mx c => if f c > mx then f c else mx) r = r ∨
        ∃ c ∈ cs, f c = cs.foldl (fun mx c => if f c > mx then f c else mx) r) := by
  intro cs
  induction cs with
  | nil => intro r; simp
  | cons c rest ih =>
    intro r
    simp only [List.foldl_cons]
    obtain ⟨h1, h2, h3⟩ := ih (if f c > r then f c else r)
    have hr : r ≤ (if f c > r then f c else r) := by
      split_ifs with h
      · exact le_of_lt h
      · exact le_refl _
    have hc : f c ≤ (if f c > r then f c else r) := by
      split_ifs with h
      · exact le_refl _
      · exact not_lt.1 h
    refine ⟨le_trans hr h1, ?_, ?_⟩
    · intro d hd
      rcases List.mem_cons.1 hd with rfl | hd
      · exact le_trans hc h1
      · exact h2 d hd
    · rcases h3 with h3 | ⟨d, hd, h3⟩
      · by_cases h : f c > r
        · right
          refine ⟨c, List.mem_cons_self _ _, ?_⟩
          rw [h3]; simp [h]
        · left
          rw [h3]; simp [h]
      · right
        exact ⟨d, List.mem_cons_of_mem _ hd, h3⟩

/-- Source: `MaxUCB` after a successful `UCBs` on a non-empty map. -/
theorem MaxUCB_spec (E : Engine B C R) (m : NextNodeParam C) (X : ℚ) (ucbs : List (C × ℚ))
    (hne : m ≠ []) (h : NextNodeParam.UCBs E m X = .ok ucbs) :
    ∃ M, NextNodeParam.MaxUCB E m X = .ok M ∧
      (∃ c ∈ m.map Prod.fst, ucbsGet ucbs c = M) ∧
      (∀ c ∈ m.map Prod.fst, ucbsGet ucbs c ≤ M) := by
  unfold NextNodeParam.MaxUCB
  simp only [h, NextNodeParam.NewBattleCommands]
  cases hm : m with
  | nil => exact absurd hm hne
  | cons e rest =>
    simp only [List.map_cons]
    obtain ⟨h1, h2, h3⟩ := maxFold_spec (ucbsGet ucbs) (rest.map Prod.fst) (ucbsGet ucbs e.1)
    refine ⟨_, rfl, ?_, ?_⟩
    · rcases h3 with h3 | ⟨c, hc, h3⟩
      · exact ⟨e.1, List.mem_cons_self _ _, h3.symm⟩
      · exact ⟨c, List.mem_cons_of_mem _ hc, h3⟩
    · intro c hc
      rcases List.mem_cons.1 hc with rfl | hc
      · exact h1
      · exact h2 c hc

theorem MaxUCB_error_of_UCBs_error (E : Engine B C R) (m : NextNodeParam C) (X : ℚ) (e : Fault)
    (h : NextNodeParam.UCBs E m X = .error e) : NextNodeParam.MaxUCB E m X = .error e := by
  simp [NextNodeParam.MaxUCB, h]

/-- Whatever `NewMaxUCBBattleCommands` returns is a non-empty list of keys of the map. -/
theorem NewMaxUCBBattleCommands_sound (E : Engine B C R) (m : NextNodeParam C) (X : ℚ)
    (L : List C) (hnd : (m.map Prod.fst).Nodup)
    (h : NextNodeParam.NewMaxUCBBattleCommands E m X = .ok L) :
    L ≠ [] ∧ L.Nodup ∧ ∀ c ∈ L, c ∈ m.map Prod.fst := by
  unfold NextNodeParam.NewMaxUCBBattleCommands at h
  cases hM : NextNodeParam.MaxUCB E m X with
  | error e => simp [hM] at h
  | ok M =>
    simp only [hM] at h
    cases hu : NextNodeParam.UCBs E m X with
    | error e => simp [hu] at h
    | ok ucbs =>
      simp only [hu] at h
      cases h
      have hkeys := UCBs_keys E m X ucbs hu
      have hne : m ≠ [] := by
        rintro rfl
        simp [NextNodeParam.MaxUCB, NextNodeParam.UCBs, NextNodeParam.UCBsLoop,
          NextNodeParam.NewBattleCommands] at hM
      obtain ⟨M', hM', ⟨c, hc, hcM⟩, _⟩ := MaxUCB_spec E m X ucbs hne hu
      rw [hM] at hM'
      cases hM'
      have hnd' : (ucbs.map Prod.fst).Nodup := hkeys ▸ hnd
      refine ⟨?_, ?_, ?_⟩
      · rw [← hkeys] at hc
        obtain ⟨⟨c', u⟩, he, rfl⟩ := List.mem_map.1 hc
        have hu' : ucbsGet ucbs c' = u := ucbsGet_of_mem ucbs c' u hnd' he
        have hmem : c' ∈ (ucbs.filter (fun e => e.2 = M)).map Prod.fst := by
          refine List.mem_map.2 ⟨(c', u), List.mem_filter.2 ⟨he, ?_⟩, rfl⟩
          simp only [] at hcM
          simp [← hu', hcM]
        exact List.ne_nil_of_mem hmem
      · exact (List.Sublist.map Prod.fst (List.filter_sublist _)).nodup hnd'
      · intro c hc
        rw [← hkeys]
        obtain ⟨e, he, rfl⟩ := List.mem_map.1 hc
        exact List.mem_map_of_mem _ (List.mem_of_mem_filter he)

theorem forall₂_exists_of_mem_left {α β : Type} (P : α → β → Prop) :
    ∀ (l₁ : List α) (l₂ : List β), List.Forall₂ P l₁ l₂ → ∀ a ∈ l₁, ∃ b ∈ l₂, P a b := by
  intro l₁ l₂ h
  induction h with
  | nil => intro a ha; simp at ha
  | cons hab _ ih =>
    intro a ha
    rcases List.mem_cons.1 ha with rfl | ha
    · exact ⟨_, List.mem_cons_self _ _, hab⟩
    · obtain ⟨b, hb, hp⟩ := ih a ha
      exact ⟨b, List.mem_cons_of_mem _ hb, hp⟩

end ChoiceLemmas


section ExpansionLemmas
variable {B C R : Type} [DecidableEq C]

/-- Every way `ExpansionWithEvalY` can return a value, taken apart. -/
theorem Expansion_ok_inv (E : Engine B C R) (eval : Eval B R) (heap heap' : Heap B C) (node : Nat)
    (battle : B) (selects selects' : Selects C) (random random' : R) (evalY : ℚ)
    (h : Node.ExpansionWithEvalY E eval heap node battle selects random
      = (heap', random', .ok (evalY, selects'))) :
    ∃ n cmds c random1 battle1 random2,
      heap[node]? = some n ∧ n.IsAllExpansion = false ∧
      n.NewNoExpansionBattleCommands = .ok cmds ∧
      RandomChoice E cmds random = .ok (c, random1) ∧
      E.Run battle c random1 = (.ok battle1, random2) ∧
      eval.Func battle1 random2 = (.ok evalY, random') ∧
      heap' = heap.set node (expandedNode n c) ∧
      selects' = selects ++ [⟨node, c⟩] := by
  unfold Node.ExpansionWithEvalY at h
  cases hn : heap[node]? with
  | none => simp [hn] at h
  | some n =>
    simp only [hn] at h
    cases hf : n.IsAllExpansion with
    | true => simp [hf] at h
    | false =>
      simp only [hf] at h
      cases hc : n.NewNoExpansionBattleCommands with
      | error e => simp [hc] at h
      | ok cmds =>
        simp only [hc] at h
        cases hr : RandomChoice E cmds random with
        | error e => simp [hr] at h
        | ok cr =>
          obtain ⟨c, random1⟩ := cr
          simp only [hr] at h
          rcases hrun : E.Run battle c random1 with ⟨res, random2⟩
          cases res with
          | error e => simp [hrun] at h
          | ok battle1 =>
            simp only [hrun] at h
            rcases hev : eval.Func battle1 random2 with ⟨res2, random3⟩
            cases res2 with
            | error e => simp [hev] at h
            | ok y =>
              rw [hev] at h
              simp only [Bool.false_eq_true, if_false, Prod.mk.injEq, Except.ok.injEq] at h
              obtain ⟨h1, h2, h3, h4⟩ := h
              subst h2 h3
              refine ⟨n, cmds, c, random1, battle1, random2, rfl, hf, hc, hr, hrun, hev, ?_, h4.symm⟩
              rw [← h1]
              simp [expandedNode, hf]

/-- The converse: when the choice, the transition and the evaluator succeed. -/
theorem Expansion_ok_of (E : Engine B C R) (eval : Eval B R) (heap : Heap B C) (node : Nat)
    (battle battle1 : B) (selects : Selects C) (random random1 random2 random3 : R) (evalY : ℚ)
    (n : Node B C) (cmds : List C) (c : C)
    (hn : heap[node]? = some n) (hf : n.IsAllExpansion = false)
    (hc : n.NewNoExpansionBattleCommands = .ok cmds)
    (hr : RandomChoice E cmds random = .ok (c, random1))
    (hrun : E.Run battle c random1 = (.ok battle1, random2))
    (hev : eval.Func battle1 random2 = (.ok evalY, random3)) :
    Node.ExpansionWithEvalY E eval heap node battle selects random
      = (heap.set node (expandedNode n c), random3, .ok (evalY, selects ++ [⟨node, c⟩])) := by
  unfold Node.ExpansionWithEvalY
  simp [hn, hf, hc, hr, hrun, hev, expandedNode]

theorem NewNoExpansionBattleCommands_ok (n : Node B C) (cmds : List C)
    (h : n.NewNoExpansionBattleCommands = .ok cmds) :
    n.NextNodeParam.length ≤ n.AvailableBattleCommands.length ∧
    cmds = n.AvailableBattleCommands.filter
      (fun c => (NextNodeParam.get n.NextNodeParam c).isNone) := by
  unfold Node.NewNoExpansionBattleCommands at h
  split_ifs at h with hlt
  · simp only [Except.ok.injEq] at h
    exact ⟨not_lt.1 hlt, h.symm⟩

end ExpansionLemmas


section StepLemmas
variable {B C R : Type} [DecidableEq C]

theorem Find_ok (E : Engine B C R) (heap : Heap B C) (battle : B) :
    ∀ (nodes : Nodes) (p : Nat), Nodes.Find E heap nodes battle = .ok p →
      p ∈ nodes ∧ ∃ n, heap[p]? = some n ∧ E.Equal n.Battle battle = true := by
  intro nodes
  induction nodes with
  | nil => intro p h; simp [Nodes.Find] at h
  | cons q rest ih =>
    intro p h
    simp only [Nodes.Find] at h
    cases hq : heap[q]? with
    | none => simp [hq] at h
    | some n =>
      simp only [hq] at h
      by_cases he : E.Equal n.Battle battle = true
      · simp only [he, if_true, Except.ok.injEq] at h
        subst h
        exact ⟨List.mem_cons_self _ _, n, hq, he⟩
      · simp only [he] at h
        obtain ⟨h1, h2⟩ := ih p h
        exact ⟨List.mem_cons_of_mem _ h1, h2⟩

theorem Find_err (E : Engine B C R) (heap : Heap B C) (battle : B) :
    ∀ (nodes : Nodes) (msg : String), Nodes.Find E heap nodes battle = .error (.err msg) →
      ∀ p ∈ nodes, ∃ n, heap[p]? = some n ∧ E.Equal n.Battle battle = false := by
  intro nodes
  induction nodes with
  | nil => intro msg _ p hp; simp at hp
  | cons q rest ih =>
    intro msg h p hp
    simp only [Nodes.Find] at h
    cases hq : heap[q]? with
    | none => simp [hq] at h
    | some n =>
      simp only [hq] at h
      by_cases he : E.Equal n.Battle battle = true
      · simp [he] at h
      · simp only [he] at h
        rcases List.mem_cons.1 hp with rfl | hp
        · exact ⟨n, hq, by simpa using he⟩
        · exact ih msg h p hp

theorem Find_no_panic (E : Engine B C R) (heap : Heap B C) (battle : B) :
    ∀ (nodes : Nodes), (∀ p ∈ nodes, p < heap.length) →
      ∀ msg, Nodes.Find E heap nodes battle ≠ .error (.panic msg) := by
  intro nodes
  induction nodes with
  | nil => intro _ msg; simp [Nodes.Find]
  | cons q rest ih =>
    intro hv msg
    simp only [Nodes.Find]
    have hq : q < heap.length := hv q (List.mem_cons_self _ _)
    rw [List.getElem?_eq_getElem hq]
    simp only
    split_ifs
    · simp
    · exact ih (fun p hp => hv p (List.mem_cons_of_mem _ hp)) msg

/-- The three ways `resolveNextNode` returns a node: from the child cache, from
the registry, or newly created. -/
theorem resolveNextNode_ok (E : Engine B C R) (heap heap2 : Heap B C) (node nextNode : Nat)
    (battle : B) (allNodes allNodes2 : Nodes)
    (h : resolveNextNode E heap node battle allNodes = .ok (heap2, allNodes2, nextNode)) :
    ∃ n, heap[node]? = some n ∧
      ((Nodes.Find E heap n.NextNodes battle = .ok nextNode ∧ heap2 = heap ∧
          allNodes2 = allNodes) ∨
       ((∃ msg, Nodes.Find E heap n.NextNodes battle = .error (.err msg)) ∧
          Nodes.Find E heap allNodes battle = .ok nextNode ∧
          heap2 = heap.set node { n with NextNodes := n.NextNodes ++ [nextNode] } ∧
          allNodes2 = allNodes) ∨
       ((∃ msg, Nodes.Find E heap n.NextNodes battle = .error (.err msg)) ∧
          (∃ msg, Nodes.Find E heap allNodes battle = .error (.err msg)) ∧
          nextNode = heap.length ∧
          heap2 = (heap ++ [NewNodePointer E battle]).set node
            { n with NextNodes := n.NextNodes ++ [heap.length] } ∧
          allNodes2 = allNodes ++ [heap.length])) := by
  unfold resolveNextNode at h
  cases hn : heap[node]? with
  | none => simp [hn] at h
  | some n =>
    refine ⟨n, rfl, ?_⟩
    simp only [hn] at h
    cases h1 : Nodes.Find E heap n.NextNodes battle with
    | ok q =>
      simp only [h1, Except.ok.injEq, Prod.mk.injEq] at h
      obtain ⟨rfl, rfl, rfl⟩ := h
      exact Or.inl ⟨rfl, rfl, rfl⟩
    | error e =>
      cases e with
      | panic msg => simp [h1] at h
      | err msg =>
        simp only [h1] at h
        cases h2 : Nodes.Find E heap allNodes battle with
        | ok q =>
          simp only [h2, Except.ok.injEq, Prod.mk.injEq] at h
          obtain ⟨rfl, rfl, rfl⟩ := h
          exact Or.inr (Or.inl ⟨⟨msg, rfl⟩, rfl, rfl, rfl⟩)
        | error e =>
          cases e with
          | panic msg2 => simp [h2] at h
          | err msg2 =>
            simp only [h2, Except.ok.injEq, Prod.mk.injEq] at h
            obtain ⟨rfl, rfl, rfl⟩ := h
            exact Or.inr (Or.inr ⟨⟨msg, rfl⟩, ⟨msg2, rfl⟩, rfl, rfl, rfl⟩)

/-- A pass of the loop of `Select` that goes on to another pass. -/
theorem SelectStep_inl (E : Engine B C R) (X : ℚ) (s s' : SelectState B C R)
    (h : SelectStep E X s = .inl s') :
    ∃ n cmds c random1 next,
      s.heap[s.node]? = some n ∧ n.IsAllExpansion = true ∧
      NextNodeParam.NewMaxUCBBattleCommands E n.NextNodeParam X = .ok cmds ∧
      RandomChoice E cmds s.random = .ok (c, random1) ∧
      E.Run s.battle c random1 = (.ok s'.battle, s'.random) ∧
      E.IsGameEnd s'.battle = false ∧
      resolveNextNode E (s.heap.set s.node { n with SelectCount := n.SelectCount + 1 })
        s.node s'.battle s.allNodes = .ok (s'.heap, s'.allNodes, s'.node) ∧
      s'.heap[s'.node]? = some next ∧ next.SelectCount ≠ 1 ∧
      s'.selects = s.selects ++ [⟨s.node, c⟩] := by
  unfold SelectStep at h
  cases hn : s.heap[s.node]? with
  | none => simp [hn] at h
  | some n =>
    simp only [hn] at h
    by_cases hne : n.IsAllExpansion = false
    · simp [hne] at h
    · have hf : n.IsAllExpansion = true := by simpa using hne
      rw [if_neg hne] at h
      cases hc : NextNodeParam.NewMaxUCBBattleCommands E n.NextNodeParam X with
      | error e => simp [hc] at h
      | ok cmds =>
        simp only [hc] at h
        cases hr : RandomChoice E cmds s.random with
        | error e => simp [hr] at h
        | ok cr =>
          obtain ⟨c, random1⟩ := cr
          simp only [hr] at h
          rcases hrun : E.Run s.battle c random1 with ⟨res, random2⟩
          rw [hrun] at h
          cases res with
          | error e => simp at h
          | ok battle1 =>
            simp only [Bool.true_eq_false, if_false] at h
            cases hg : E.IsGameEnd battle1 with
            | true => simp [hg] at h
            | false =>
              simp only [hg, Bool.false_eq_true, if_false] at h
              cases hres : resolveNextNode E
                  (s.heap.set s.node { n with SelectCount := n.SelectCount + 1 })
                  s.node battle1 s.allNodes with
              | error e => simp [hres] at h
              | ok res =>
                obtain ⟨heap2, allNodes2, nextNode⟩ := res
                simp only [hres] at h
                cases hnx : heap2[nextNode]? with
                | none => simp [hnx] at h
                | some next =>
                  simp only [hnx] at h
                  by_cases hcnt : next.SelectCount = 1
                  · simp [hcnt] at h
                  · simp only [hcnt, if_false, Sum.inl.injEq] at h
                    subst h
                    exact ⟨n, cmds, c, random1, next, rfl, hf, hc, hr, hrun, hg, hres, hnx,
                      hcnt, rfl⟩

/-- A pass of the loop of `Select` after which `Select` returns values: the node
is not fully expanded, or the game ended, or a cycle was detected. -/
theorem SelectStep_inr_ok (E : Engine B C R) (X : ℚ) (s : SelectState B C R)
    (heap' : Heap B C) (random' : R) (ret : SelectReturn B C)
    (h : SelectStep E X s = .inr (heap', random', .ok ret)) :
    ∃ n, s.heap[s.node]? = some n ∧
      ((n.IsAllExpansion = false ∧ heap' = s.heap ∧ random' = s.random ∧
          ret = ⟨s.node, s.battle, s.allNodes, s.selects, false⟩) ∨
       (n.IsAllExpansion = true ∧ ∃ cmds c random1,
          NextNodeParam.NewMaxUCBBattleCommands E n.NextNodeParam X = .ok cmds ∧
          RandomChoice E cmds s.random = .ok (c, random1) ∧
          E.Run s.battle c random1 = (.ok ret.battle, random') ∧
          ret.node = s.node ∧ ret.selects = s.selects ++ [⟨s.node, c⟩] ∧
          ((E.IsGameEnd ret.battle = true ∧ ret.isRoopSelect = false ∧
              heap' = s.heap.set s.node { n with SelectCount := n.SelectCount + 1 } ∧
              ret.allNodes = s.allNodes) ∨
           (E.IsGameEnd ret.battle = false ∧ ret.isRoopSelect = true ∧
              ∃ nextNode next,
                resolveNextNode E (s.heap.set s.node { n with SelectCount := n.SelectCount + 1 })
                  s.node ret.battle s.allNodes = .ok (heap', ret.allNodes, nextNode) ∧
                heap'[nextNode]? = some next ∧ next.SelectCount = 1)))) := by
  unfold SelectStep at h
  cases hn : s.heap[s.node]? with
  | none => simp [hn] at h
  | some n =>
    refine ⟨n, rfl, ?_⟩
    simp only [hn] at h
    by_cases hne : n.IsAllExpansion = false
    · rw [if_pos hne] at h
      simp only [Sum.inr.injEq, Prod.mk.injEq, Except.ok.injEq] at h
      obtain ⟨h1, h2, h3⟩ := h
      exact Or.inl ⟨hne, h1.symm, h2.symm, h3.symm⟩
    · have hf : n.IsAllExpansion = true := by simpa using hne
      right
      refine ⟨hf, ?_⟩
      rw [if_neg hne] at h
      cases hc : NextNodeParam.NewMaxUCBBattleCommands E n.NextNodeParam X with
      | error e => simp [hc] at h
      | ok cmds =>
        simp only [hc] at h
        cases hr : RandomChoice E cmds s.random with
        | error e => simp [hr] at h
        | ok cr =>
          obtain ⟨c, random1⟩ := cr
          simp only [hr] at h
          rcases hrun : E.Run s.battle c random1 with ⟨res, random2⟩
          rw [hrun] at h
          cases res with
          | error e => simp at h
          | ok battle1 =>
            simp only [Bool.true_eq_false, if_false] at h
            cases hg : E.IsGameEnd battle1 with
            | true =>
              simp only [hg, if_true, Sum.inr.injEq, Prod.mk.injEq, Except.ok.injEq] at h
              obtain ⟨h1, h2, h3⟩ := h
              subst h3 h2
              exact ⟨cmds, c, random1, rfl, hr, hrun, rfl, rfl, Or.inl ⟨hg, rfl, h1.symm, rfl⟩⟩
            | false =>
              simp only [hg, Bool.false_eq_true, if_false] at h
              cases hres : resolveNextNode E
                  (s.heap.set s.node { n with SelectCount := n.SelectCount + 1 })
                  s.node battle1 s.allNodes with
              | error e => simp [hres] at h
              | ok res =>
                obtain ⟨heap2, allNodes2, nextNode⟩ := res
                simp only [hres] at h
                cases hnx : heap2[nextNode]? with
                | none => simp [hnx] at h
                | some next =>
                  simp only [hnx] at h
                  by_cases hcnt : next.SelectCount = 1
                  · simp only [hcnt, if_true, Sum.inr.injEq, Prod.mk.injEq,
                      Except.ok.injEq] at h
                    obtain ⟨h1, h2, h3⟩ := h
                    subst h3 h2 h1
                    exact ⟨cmds, c, random1, rfl, hr, hrun, rfl, rfl,
                      Or.inr ⟨hg, rfl, nextNode, next, hres, hnx, hcnt⟩⟩
                  · simp [hcnt] at h

end StepLemmas


section AdvanceLemmas
variable {B C R : Type} [DecidableEq C]

theorem sameCore_refl (n : Node B C) : sameCore n n := ⟨rfl, rfl, rfl, rfl, rfl⟩

theorem sameCore_trans {a b c : Node B C} (h1 : sameCore a b) (h2 : sameCore b c) :
    sameCore a c :=
  ⟨h2.1.trans h1.1, h2.2.1.trans h1.2.1, h2.2.2.1.trans h1.2.2.1,
    h2.2.2.2.1.trans h1.2.2.2.1, h2.2.2.2.2.trans h1.2.2.2.2⟩

/-- Reading a heap after one cell was overwritten. -/
theorem getElem?_set_cases (heap : Heap B C) (i p : Nat) (x : Node B C) (hi : i < heap.length) :
    (p = i ∧ (heap.set i x)[p]? = some x) ∨ (p ≠ i ∧ (heap.set i x)[p]? = heap[p]?) := by
  by_cases h : p = i
  · subst h
    exact Or.inl ⟨rfl, by simp [List.getElem?_set_self, hi]⟩
  · exact Or.inr ⟨h, List.getElem?_set_ne (Ne.symm h)⟩

theorem Advance_of_resolve (E : Engine B C R) (s : SelectState B C R) (n : Node B C)
    (battle1 : B) (heap2 : Heap B C) (allNodes2 : Nodes) (nextNode : Nat)
    (hcache : ∀ q ∈ n.NextNodes, q ∈ s.allNodes)
    (hn : s.heap[s.node]? = some n)
    (hres : resolveNextNode E (s.heap.set s.node { n with SelectCount := n.SelectCount + 1 })
      s.node battle1 s.allNodes = .ok (heap2, allNodes2, nextNode)) :
    Advance E s n battle1 heap2 allNodes2 nextNode := by
  have hlt : s.node < s.heap.length := (List.getElem?_eq_some_iff.1 hn).1
  set n1 : Node B C := { n with SelectCount := n.SelectCount + 1 } with hn1
  set heap1 := s.heap.set s.node n1 with hheap1
  have hlen1 : heap1.length = s.heap.length := by simp [hheap1]
  have hget1 : heap1[s.node]? = some n1 := by simp [hheap1, List.getElem?_set_self, hlt]
  have hbattle : ∀ (p : Nat) (nn1 : Node B C), heap1[p]? = some nn1 →
      ∃ nn : Node B C, s.heap[p]? = some nn ∧ nn.Battle = nn1.Battle := by
    intro p nn1 hp
    rcases getElem?_set_cases s.heap s.node p n1 hlt with ⟨rfl, h⟩ | ⟨_, h⟩
    · rw [← hheap1, hp] at h
      cases h
      exact ⟨n, hn, rfl⟩
    · rw [← hheap1, hp] at h
      exact ⟨nn1, h.symm, rfl⟩
  have hfindok : ∀ (nodes : Nodes) (q : Nat), Nodes.Find E heap1 nodes battle1 = .ok q →
      q ∈ nodes ∧ ∃ nn : Node B C, s.heap[q]? = some nn ∧ E.Equal nn.Battle battle1 = true := by
    intro nodes q hq
    obtain ⟨h1, nn1, h2, h3⟩ := Find_ok E heap1 battle1 nodes q hq
    obtain ⟨nn, h4, h5⟩ := hbattle q nn1 h2
    exact ⟨h1, nn, h4, by rw [h5]; exact h3⟩
  obtain ⟨n', hn', hcases⟩ :=
    resolveNextNode_ok E heap1 heap2 s.node nextNode battle1 s.allNodes allNodes2 hres
  rw [hget1] at hn'
  cases hn'
  rcases hcases with ⟨hf, rfl, rfl⟩ | ⟨_, hf, rfl, rfl⟩ | ⟨_, ⟨msg, hf⟩, rfl, rfl, rfl⟩
  · obtain ⟨hmem, hnn⟩ := hfindok _ _ hf
    refine ⟨⟨n1, hget1, ⟨rfl, rfl, rfl, rfl, rfl⟩, rfl, Or.inl rfl⟩, ?_, Or.inl ⟨hlen1, rfl,
      hcache _ hmem, hnn⟩⟩
    intro p hp _
    rw [hheap1, List.getElem?_set_ne (Ne.symm hp)]
  · obtain ⟨hmem, hnn⟩ := hfindok _ _ hf
    refine ⟨⟨{ n1 with NextNodes := n1.NextNodes ++ [nextNode] }, ?_,
      ⟨rfl, rfl, rfl, rfl, rfl⟩, rfl, Or.inr rfl⟩, ?_, Or.inl ⟨?_, rfl, hmem, hnn⟩⟩
    · simp [List.getElem?_set_self, hlen1, hlt]
    · intro p hp _
      rw [List.getElem?_set_ne (Ne.symm hp), hheap1, List.getElem?_set_ne (Ne.symm hp)]
    · simp [hlen1]
  · have hlt' : s.node < (heap1 ++ [NewNodePointer E battle1]).length := by
      simp [hlen1]; omega
    refine ⟨⟨{ n1 with NextNodes := n1.NextNodes ++ [heap1.length] }, ?_,
      ⟨rfl, rfl, rfl, rfl, rfl⟩, rfl, Or.inr rfl⟩, ?_, Or.inr ⟨?_, hlen1, ?_, ?_, ?_⟩⟩
    · exact List.getElem?_set_self hlt'
    · intro p hp hpl
      rw [List.getElem?_set_ne (Ne.symm hp), List.getElem?_append_left (by omega), hheap1,
        List.getElem?_set_ne (Ne.symm hp)]
    · simp [hlen1]
    · rw [hlen1]
    · have hne : s.node ≠ s.heap.length := by omega
      rw [List.getElem?_set_ne hne, ← hlen1]
      simp
    · intro p hp
      obtain ⟨nn1, h1, h2⟩ := Find_err E heap1 battle1 s.allNodes msg hf p hp
      obtain ⟨nn, h3, h4⟩ := hbattle p nn1 h1
      exact ⟨nn, h3, by rw [h4]; exact h2⟩

end AdvanceLemmas


section SelInvLemmas
variable {B C R : Type} [DecidableEq C]

theorem NewMaxUCBBattleCommands_mem (E : Engine B C R) (m : NextNodeParam C) (X : ℚ)
    (L : List C) (h : NextNodeParam.NewMaxUCBBattleCommands E m X = .ok L) :
    ∀ c ∈ L, c ∈ m.map Prod.fst := by
  unfold NextNodeParam.NewMaxUCBBattleCommands at h
  cases hM : NextNodeParam.MaxUCB E m X with
  | error e => simp [hM] at h
  | ok M =>
    simp only [hM] at h
    cases hu : NextNodeParam.UCBs E m X with
    | error e => simp [hu] at h
    | ok ucbs =>
      simp only [hu] at h
      cases h
      intro c hc
      rw [← UCBs_keys E m X ucbs hu]
      obtain ⟨e, he, rfl⟩ := List.mem_map.1 hc
      exact List.mem_map_of_mem _ (List.mem_of_mem_filter he)

/-- What one pass of lines 76-105 establishes, from the loop invariant and a
description of the heap and registry it leaves. -/
theorem SelInv_touch (E : Engine B C R) (allNodes0 : Nodes) (node0 : Nat) (battle0 : B)
    (s : SelectState B C R) (n : Node B C) (c : C) (heap2 : Heap B C) (allNodes2 : Nodes)
    (inv : SelInv allNodes0 node0 battle0 s)
    (hn : s.heap[s.node]? = some n) (hflag : n.IsAllExpansion = true)
    (hc : c ∈ n.NextNodeParam.map Prod.fst)
    (h1 : ∃ n2, heap2[s.node]? = some n2 ∧ sameCore n n2 ∧
      n2.SelectCount = n.SelectCount + 1 ∧ ∀ q ∈ n2.NextNodes, q ∈ allNodes2)
    (h2 : ∀ p, p ≠ s.node → p < s.heap.length → heap2[p]? = s.heap[p]?)
    (h3 : (heap2.length = s.heap.length ∧ allNodes2 = s.allNodes) ∨
      (heap2.length = s.heap.length + 1 ∧ allNodes2 = s.allNodes ++ [s.heap.length] ∧
        ∃ b, heap2[s.heap.length]? = some (NewNodePointer E b))) :
    s.allNodes = allNodes0 ∧
    (∀ p ∈ allNodes2, p < heap2.length) ∧
    (∀ p ∈ allNodes2, ∀ n, heap2[p]? = some n → ∀ q ∈ n.NextNodes, q ∈ allNodes2) ∧
    (∀ p ∈ allNodes2, ∀ n, heap2[p]? = some n →
      n.SelectCount = if p ∈ (s.selects ++ [Select.mk s.node c]).map Select.Node then 1 else 0) ∧
    ((s.selects ++ [Select.mk s.node c]).map Select.Node).Nodup ∧
    (∀ sel ∈ s.selects ++ [Select.mk s.node c], sel.Node ∈ allNodes0 ∧ ∃ n, heap2[sel.Node]? = some n ∧
      n.IsAllExpansion = true ∧ sel.BattleCommand ∈ n.NextNodeParam.map Prod.fst) ∧
    s.node ∈ allNodes2 ∧
    (∃ c' rest, s.selects ++ [Select.mk s.node c] = Select.mk node0 c' :: rest) := by
  have hall : s.allNodes = allNodes0 := by
    rcases inv.grow with h | ⟨_, n', hn', hf'⟩
    · exact h
    · rw [hn] at hn'
      cases hn'
      rw [hflag] at hf'
      cases hf'
  have hsub : ∀ p ∈ s.allNodes, p ∈ allNodes2 := by
    intro p hp
    rcases h3 with ⟨_, h⟩ | ⟨_, h, _⟩
    · rw [h]; exact hp
    · rw [h]; exact List.mem_append_left _ hp
  have hmem2 : ∀ p ∈ allNodes2, p ∈ s.allNodes ∨
      (p = s.heap.length ∧ ∃ b, heap2[s.heap.length]? = some (NewNodePointer E b)) := by
    intro p hp
    rcases h3 with ⟨_, h⟩ | ⟨_, h, hb⟩
    · rw [h] at hp; exact Or.inl hp
    · rw [h] at hp
      rcases List.mem_append.1 hp with hp | hp
      · exact Or.inl hp
      · exact Or.inr ⟨List.mem_singleton.1 hp, hb⟩
  have hlen : s.heap.length ≤ heap2.length := by
    rcases h3 with ⟨h, _⟩ | ⟨h, _⟩ <;> omega
  have hcount0 : n.SelectCount = 0 := by
    have := inv.count s.node inv.node_mem n hn
    rw [this, if_neg inv.cur]
  obtain ⟨n2, hn2, hcore, hcnt2, hnext2⟩ := h1
  have hnodes : (s.selects ++ [Select.mk s.node c]).map Select.Node
      = s.selects.map Select.Node ++ [s.node] := by simp
  refine ⟨hall, ?_, ?_, ?_, ?_, ?_, hsub _ inv.node_mem, ?_⟩
  · intro p hp
    rcases hmem2 p hp with hp | ⟨rfl, _⟩
    · exact lt_of_lt_of_le (inv.valid p hp) hlen
    · rcases h3 with ⟨_, h⟩ | ⟨h, _, _⟩
      · rw [h] at hp; exact absurd (inv.valid _ hp) (lt_irrefl _)
      · omega
  · intro p hp m hm q hq
    rcases hmem2 p hp with hp' | ⟨rfl, b, hb⟩
    · by_cases hps : p = s.node
      · subst hps
        rw [hn2] at hm
        cases hm
        exact hnext2 q hq
      · rw [h2 p hps (inv.valid p hp')] at hm
        exact hsub q (inv.cache p hp' m hm q hq)
    · rw [hb] at hm
      cases hm
      simp [NewNodePointer] at hq
  · intro p hp m hm
    rw [hnodes]
    rcases hmem2 p hp with hp' | ⟨rfl, b, hb⟩
    · by_cases hps : p = s.node
      · subst hps
        rw [hn2] at hm
        cases hm
        rw [hcnt2, hcount0]
        simp
      · rw [h2 p hps (inv.valid p hp')] at hm
        rw [inv.count p hp' m hm]
        simp [hps]
    · rw [hb] at hm
      cases hm
      have hnot : s.heap.length ∉ s.selects.map Select.Node ++ [s.node] := by
        intro hin
        rcases List.mem_append.1 hin with hin | hin
        · obtain ⟨sel, hsel, hselnode⟩ := List.mem_map.1 hin
          have := (inv.path sel hsel).1
          rw [← hall] at this
          have := inv.valid _ this
          omega
        · have := inv.valid _ inv.node_mem
          rw [List.mem_singleton] at hin
          omega
      rw [if_neg hnot]
      rfl
  · rw [hnodes]
    exact List.Nodup.append inv.nodup (List.nodup_singleton _)
      (by
        intro x hx1 hx2
        rw [List.mem_singleton] at hx2
        subst hx2
        exact inv.cur hx1)
  · intro sel hsel
    rcases List.mem_append.1 hsel with hsel | hsel
    · obtain ⟨hsel0, m, hm, hmf, hmc⟩ := inv.path sel hsel
      refine ⟨hsel0, m, ?_, hmf, hmc⟩
      have hne : sel.Node ≠ s.node := by
        intro heq
        exact inv.cur (heq ▸ List.mem_map_of_mem Select.Node hsel)
      rw [h2 sel.Node hne (inv.valid _ (hall ▸ hsel0))]
      exact hm
    · rw [List.mem_singleton] at hsel
      subst hsel
      refine ⟨hall ▸ inv.node_mem, n2, hn2, ?_, ?_⟩
      · rw [hcore.2.2.2.1]; exact hflag
      · rw [hcore.2.2.1]; exact hc
  · rcases inv.start with ⟨h, hnode, _⟩ | ⟨c', rest, h⟩
    · exact ⟨c, [], by rw [h, hnode]; rfl⟩
    · exact ⟨c', rest ++ [⟨s.node, c⟩], by rw [h]; rfl⟩

end SelInvLemmas


section SelStepInv
variable {B C R : Type} [DecidableEq C]

/-- The hypotheses of `SelInv_touch` from an `Advance`. -/
theorem Advance_touch (E : Engine B C R) (allNodes0 : Nodes) (node0 : Nat) (battle0 : B)
    (s : SelectState B C R) (n : Node B C) (battle1 : B) (heap2 : Heap B C) (allNodes2 : Nodes)
    (nextNode : Nat) (inv : SelInv allNodes0 node0 battle0 s) (hn : s.heap[s.node]? = some n)
    (adv : Advance E s n battle1 heap2 allNodes2 nextNode) :
    (∃ n2, heap2[s.node]? = some n2 ∧ sameCore n n2 ∧
      n2.SelectCount = n.SelectCount + 1 ∧ ∀ q ∈ n2.NextNodes, q ∈ allNodes2) ∧
    ((heap2.length = s.heap.length ∧ allNodes2 = s.allNodes) ∨
      (heap2.length = s.heap.length + 1 ∧ allNodes2 = s.allNodes ++ [s.heap.length] ∧
        ∃ b, heap2[s.heap.length]? = some (NewNodePointer E b))) ∧
    nextNode ∈ allNodes2 := by
  have hnext : nextNode ∈ allNodes2 := by
    rcases adv.next with ⟨_, h, hm, _⟩ | ⟨_, h1, h, _⟩
    · rw [h]; exact hm
    · rw [h, h1]; simp
  have hsub : ∀ p ∈ s.allNodes, p ∈ allNodes2 := by
    intro p hp
    rcases adv.next with ⟨_, h, _⟩ | ⟨_, _, h, _⟩
    · rw [h]; exact hp
    · rw [h]; exact List.mem_append_left _ hp
  obtain ⟨n2, hn2, hcore, hcnt, hnn⟩ := adv.node_eq
  refine ⟨⟨n2, hn2, hcore, hcnt, ?_⟩, ?_, hnext⟩
  · intro q hq
    rcases hnn with h | h
    · rw [h] at hq
      exact hsub q (inv.cache s.node inv.node_mem n hn q hq)
    · rw [h] at hq
      rcases List.mem_append.1 hq with hq | hq
      · exact hsub q (inv.cache s.node inv.node_mem n hn q hq)
      · rw [List.mem_singleton.1 hq]; exact hnext
  · rcases adv.next with ⟨h1, h2, _⟩ | ⟨h1, _, h2, h3, _⟩
    · exact Or.inl ⟨h1, h2⟩
    · exact Or.inr ⟨h1, h2, _, h3⟩

/-- The loop invariant of `Select` is kept by a pass that goes on. -/
theorem SelInv_step (E : Engine B C R) (X : ℚ) (allNodes0 : Nodes) (node0 : Nat) (battle0 : B)
    (s s' : SelectState B C R) (inv : SelInv allNodes0 node0 battle0 s)
    (h : SelectStep E X s = .inl s') : SelInv allNodes0 node0 battle0 s' := by
  obtain ⟨n, cmds, c, random1, next, hn, hflag, hcmds, hr, _, _, hres, hnext, hcnt, hsel⟩ :=
    SelectStep_inl E X s s' h
  have hc : c ∈ n.NextNodeParam.map Prod.fst :=
    NewMaxUCBBattleCommands_mem E _ X cmds hcmds c (RandomChoice_mem E _ _ _ _ hr)
  have adv := Advance_of_resolve E s n s'.battle s'.heap s'.allNodes s'.node
    (inv.cache s.node inv.node_mem n hn) hn hres
  obtain ⟨h1, h3, hmem⟩ := Advance_touch E allNodes0 node0 battle0 s n _ _ _ _ inv hn adv
  obtain ⟨hall, hv, hca, hco, hnd, hpa, _, hst⟩ :=
    SelInv_touch E allNodes0 node0 battle0 s n c s'.heap s'.allNodes inv hn hflag hc h1
      adv.others h3
  rw [← hsel] at hco hnd hpa hst
  refine ⟨hv, hca, hmem, hco, ?_, hnd, hpa, ?_, Or.inr hst⟩
  · intro hin
    have := hco s'.node hmem next hnext
    rw [if_pos hin] at this
    exact hcnt this
  · rcases adv.next with ⟨_, h2, _⟩ | ⟨_, h1', h2, h4, _⟩
    · exact Or.inl (h2.trans hall)
    · refine Or.inr ⟨by rw [h2, hall, h1'], NewNodePointer E s'.battle, ?_, rfl⟩
      rw [h1']; exact h4

/-- When a pass makes `Select` return values, they satisfy `SelPost`. -/
theorem SelPost_step (E : Engine B C R) (X : ℚ) (allNodes0 : Nodes) (node0 : Nat) (battle0 : B)
    (s : SelectState B C R) (heap' : Heap B C) (random' : R) (ret : SelectReturn B C)
    (inv : SelInv allNodes0 node0 battle0 s)
    (h : SelectStep E X s = .inr (heap', random', .ok ret)) :
    SelPost E allNodes0 node0 battle0 heap' ret := by
  obtain ⟨n, hn, hcases⟩ := SelectStep_inr_ok E X s heap' random' ret h
  have hlt : s.node < s.heap.length := (List.getElem?_eq_some_iff.1 hn).1
  rcases hcases with ⟨hflag, rfl, _, rfl⟩ | ⟨hflag, cmds, c, random1, hcmds, hr, _, hnode, hsel,
    hcases⟩
  · refine ⟨inv.valid, inv.cache, inv.node_mem, inv.count, inv.nodup, inv.path, ?_, ?_, ?_, ?_⟩
    · rcases inv.grow with h | ⟨h, _⟩
      · exact Or.inl h
      · exact Or.inr ⟨h, rfl⟩
    · rcases inv.start with ⟨h1, h2, h3⟩ | h
      · exact Or.inl ⟨h1, h2, h3, rfl⟩
      · exact Or.inr h
    · intro _ _
      exact ⟨inv.cur, n, hn, hflag⟩
    · intro hr
      cases hr
  · have hc : c ∈ n.NextNodeParam.map Prod.fst :=
      NewMaxUCBBattleCommands_mem E _ X cmds hcmds c (RandomChoice_mem E _ _ _ _ hr)
    rcases hcases with ⟨hge, hroop, rfl, hall2⟩ | ⟨hge, hroop, nextNode, next, hres, hnext, hcnt⟩
    · obtain ⟨hall, hv, hca, hco, hnd, hpa, hmem, hst⟩ :=
        SelInv_touch E allNodes0 node0 battle0 s n c
          (s.heap.set s.node { n with SelectCount := n.SelectCount + 1 }) s.allNodes inv hn hflag hc
          ⟨_, List.getElem?_set_self hlt, ⟨rfl, rfl, rfl, rfl, rfl⟩, rfl,
            inv.cache s.node inv.node_mem n hn⟩
          (fun p hp _ => List.getElem?_set_ne (Ne.symm hp))
          (Or.inl ⟨by simp, rfl⟩)
      rw [← hsel] at hco hnd hpa hst
      rw [← hall2] at hv hca hco hmem
      refine ⟨hv, hca, hnode ▸ hmem, hco, hnd, hpa, Or.inl (hall2.trans hall), Or.inr hst,
        ?_, ?_⟩
      · intro _ hg
        rw [hge] at hg
        cases hg
      · intro hr'
        rw [hroop] at hr'
        cases hr'
    · have adv := Advance_of_resolve E s n ret.battle heap' ret.allNodes nextNode
        (inv.cache s.node inv.node_mem n hn) hn hres
      obtain ⟨h1, h3, hmemn⟩ := Advance_touch E allNodes0 node0 battle0 s n _ _ _ _ inv hn adv
      obtain ⟨hall, hv, hca, hco, hnd, hpa, hmem, hst⟩ :=
        SelInv_touch E allNodes0 node0 battle0 s n c heap' ret.allNodes inv hn hflag hc h1
          adv.others h3
      rw [← hsel] at hco hnd hpa hst
      refine ⟨hv, hca, hnode ▸ hmem, hco, hnd, hpa, ?_, Or.inr hst, ?_, ?_⟩
      · rcases adv.next with ⟨_, h2, _⟩ | ⟨_, h1', _, h4, _⟩
        · exact Or.inl (h2.trans hall)
        · rw [h1', h4] at hnext
          cases hnext
          simp [NewNodePointer] at hcnt
      · intro hr'
        rw [hroop] at hr'
        cases hr'
      · intro _
        obtain ⟨n2, hn2, hcore, _⟩ := h1
        exact ⟨hge, n2, hnode ▸ hn2, by rw [hcore.2.2.2.1]; exact hflag⟩

end SelStepInv


section LoopLemmas
variable {B C R : Type} [DecidableEq C]

/-- Induction along the passes of the loop of `Select`. -/
theorem SelectLoop_induct (E : Engine B C R) (X : ℚ) (allNodes0 : Nodes) (node0 : Nat)
    (battle0 : B) (P : SelectState B C R → Prop)
    (Q : Heap B C × R × Except Fault (SelectReturn B C) → Prop)
    (hstep : ∀ s s', SelInv allNodes0 node0 battle0 s → P s → SelectStep E X s = .inl s' → P s')
    (hret : ∀ s r, SelInv allNodes0 node0 battle0 s → P s → SelectStep E X s = .inr r → Q r) :
    ∀ (fuel : Nat) (s : SelectState B C R) (r : Heap B C × R × Except Fault (SelectReturn B C)),
      SelInv allNodes0 node0 battle0 s → P s → SelectLoop E X fuel s = some r → Q r := by
  intro fuel
  induction fuel with
  | zero => intro s r _ _ h; simp [SelectLoop] at h
  | succ f ih =>
    intro s r inv hP h
    simp only [SelectLoop] at h
    cases hs : SelectStep E X s with
    | inl s' =>
      rw [hs] at h
      exact ih s' r (SelInv_step E X allNodes0 node0 battle0 s s' inv hs) (hstep s s' inv hP hs) h
    | inr r' =>
      rw [hs] at h
      simp only [Option.some.injEq] at h
      subst h
      exact hret s r' inv hP hs

theorem SelectLoop_post (E : Engine B C R) (X : ℚ) (allNodes0 : Nodes) (node0 : Nat)
    (battle0 : B) (fuel : Nat) (s : SelectState B C R) (heap' : Heap B C) (random' : R)
    (ret : SelectReturn B C) (inv : SelInv allNodes0 node0 battle0 s)
    (h : SelectLoop E X fuel s = some (heap', random', .ok ret)) :
    SelPost E allNodes0 node0 battle0 heap' ret := by
  have := SelectLoop_induct E X allNodes0 node0 battle0 (fun _ => True)
    (fun r => ∀ ret, r.2.2 = .ok ret → SelPost E allNodes0 node0 battle0 r.1 ret)
    (fun _ _ _ _ _ => trivial)
    (by
      intro s r inv _ hs ret hret
      obtain ⟨heap1, random1, res⟩ := r
      simp only at hret
      subst hret
      exact SelPost_step E X allNodes0 node0 battle0 s heap1 random1 ret inv hs)
    fuel s _ inv trivial h
  exact this ret rfl

/-- A path of distinct registry nodes is no longer than the registry. -/
theorem path_length_le (allNodes0 : Nodes) (selects : Selects C)
    (hnd : (selects.map Select.Node).Nodup) (hmem : ∀ sel ∈ selects, sel.Node ∈ allNodes0) :
    selects.length ≤ allNodes0.length := by
  have hsub : selects.map Select.Node ⊆ allNodes0 := by
    intro p hp
    obtain ⟨sel, hsel, rfl⟩ := List.mem_map.1 hp
    exact hmem sel hsel
  have := (List.subperm_of_subset hnd hsub).length_le
  simpa using this

theorem SelectLoop_terminates (E : Engine B C R) (X : ℚ) (allNodes0 : Nodes) (node0 : Nat)
    (battle0 : B) :
    ∀ (fuel : Nat) (s : SelectState B C R), SelInv allNodes0 node0 battle0 s →
      allNodes0.length - s.selects.length < fuel → ∃ r, SelectLoop E X fuel s = some r := by
  intro fuel
  induction fuel with
  | zero => intro s _ h; omega
  | succ f ih =>
    intro s inv hfuel
    simp only [SelectLoop]
    cases hs : SelectStep E X s with
    | inr r => exact ⟨r, rfl⟩
    | inl s' =>
      have inv' := SelInv_step E X allNodes0 node0 battle0 s s' inv hs
      obtain ⟨_, _, c, _, _, _, _, _, _, _, _, _, _, _, hsel⟩ := SelectStep_inl E X s s' hs
      have hle := path_length_le allNodes0 s'.selects inv'.nodup
        (fun sel hsel => (inv'.path sel hsel).1)
      have hlen : s'.selects.length = s.selects.length + 1 := by rw [hsel]; simp
      exact ih s' inv' (by omega)

theorem SelectLoop_mono (E : Engine B C R) (X : ℚ) :
    ∀ (fuel fuel' : Nat) (s : SelectState B C R)
      (r : Heap B C × R × Except Fault (SelectReturn B C)),
      SelectLoop E X fuel s = some r → fuel ≤ fuel' → SelectLoop E X fuel' s = some r := by
  intro fuel
  induction fuel with
  | zero => intro _ s r h; simp [SelectLoop] at h
  | succ f ih =>
    intro fuel' s r h hle
    cases fuel' with
    | zero => omega
    | succ f' =>
      simp only [SelectLoop] at h ⊢
      cases hs : SelectStep E X s with
      | inr r' => rw [hs] at h; exact h
      | inl s' =>
        rw [hs] at h
        exact ih f' s' r h (by omega)

theorem SelInv_init (heap : Heap B C) (node : Nat) (battle : B) (allNodes : Nodes) (random : R)
    (hvalid : ∀ p ∈ allNodes, p < heap.length)
    (hcache : ∀ p ∈ allNodes, ∀ n, heap[p]? = some n → ∀ q ∈ n.NextNodes, q ∈ allNodes)
    (hnode : node ∈ allNodes)
    (hcount : ∀ p ∈ allNodes, ∀ n, heap[p]? = some n → n.SelectCount = 0) :
    SelInv allNodes node battle (⟨heap, node, battle, allNodes, [], random⟩ : SelectState B C R) :=
  ⟨hvalid, hcache, hnode, by simpa using hcount, by simp, by simp, by simp, Or.inl rfl,
    Or.inl ⟨rfl, rfl, rfl⟩⟩

end LoopLemmas


section EffectLemmas
variable {B C R : Type} [DecidableEq C]

theorem Effect_of_Advance (E : Engine B C R) (allNodes0 : Nodes) (node0 : Nat) (battle0 : B)
    (s : SelectState B C R) (n : Node B C) (battle1 : B) (heap2 : Heap B C) (allNodes2 : Nodes)
    (nextNode : Nat) (inv : SelInv allNodes0 node0 battle0 s) (hn : s.heap[s.node]? = some n)
    (hflag : n.IsAllExpansion = true)
    (adv : Advance E s n battle1 heap2 allNodes2 nextNode) : Effect E s heap2 allNodes2 := by
  obtain ⟨h1, _, _⟩ := Advance_touch E allNodes0 node0 battle0 s n _ _ _ _ inv hn adv
  refine ⟨n, hn, hflag, h1, adv.others, ?_⟩
  rcases adv.next with ⟨h1, h2, _⟩ | ⟨h1, _, h2, h3, h4⟩
  · exact Or.inl ⟨h1, h2⟩
  · exact Or.inr ⟨h1, h2, battle1, h3, h4⟩

theorem Effect_of_inl (E : Engine B C R) (X : ℚ) (allNodes0 : Nodes) (node0 : Nat) (battle0 : B)
    (s s' : SelectState B C R) (inv : SelInv allNodes0 node0 battle0 s)
    (h : SelectStep E X s = .inl s') : Effect E s s'.heap s'.allNodes := by
  obtain ⟨n, _, _, _, _, hn, hflag, _, _, _, _, hres, _, _, _⟩ := SelectStep_inl E X s s' h
  exact Effect_of_Advance E allNodes0 node0 battle0 s n s'.battle _ _ s'.node inv hn hflag
    (Advance_of_resolve E s n s'.battle s'.heap s'.allNodes s'.node
      (inv.cache s.node inv.node_mem n hn) hn hres)

theorem Effect_of_inr (E : Engine B C R) (X : ℚ) (allNodes0 : Nodes) (node0 : Nat) (battle0 : B)
    (s : SelectState B C R) (heap' : Heap B C) (random' : R) (ret : SelectReturn B C)
    (inv : SelInv allNodes0 node0 battle0 s)
    (h : SelectStep E X s = .inr (heap', random', .ok ret)) :
    (heap' = s.heap ∧ ret.allNodes = s.allNodes) ∨ Effect E s heap' ret.allNodes := by
  obtain ⟨n, hn, hcases⟩ := SelectStep_inr_ok E X s heap' random' ret h
  have hlt : s.node < s.heap.length := (List.getElem?_eq_some_iff.1 hn).1
  rcases hcases with ⟨_, rfl, _, rfl⟩ | ⟨hflag, _, _, _, _, _, _, _, _, hcases⟩
  · exact Or.inl ⟨rfl, rfl⟩
  · right
    rcases hcases with ⟨_, _, rfl, hall2⟩ | ⟨_, _, nextNode, _, hres, _, _⟩
    · exact ⟨n, hn, hflag,
        ⟨_, List.getElem?_set_self hlt, ⟨rfl, rfl, rfl, rfl, rfl⟩, rfl,
          fun q hq => hall2 ▸ inv.cache s.node inv.node_mem n hn q hq⟩,
        fun p hp _ => List.getElem?_set_ne (Ne.symm hp),
        Or.inl ⟨by simp, hall2⟩⟩
    · exact Effect_of_Advance E allNodes0 node0 battle0 s n ret.battle _ _ nextNode inv hn hflag
        (Advance_of_resolve E s n ret.battle heap' ret.allNodes nextNode
          (inv.cache s.node inv.node_mem n hn) hn hres)

/-- In a pass that gets past line 67 the registry is still the one at entry. -/
theorem SelInv_allNodes_of_flag (allNodes0 : Nodes) (node0 : Nat) (battle0 : B)
    (s : SelectState B C R) (n : Node B C) (inv : SelInv allNodes0 node0 battle0 s)
    (hn : s.heap[s.node]? = some n) (hflag : n.IsAllExpansion = true) :
    s.allNodes = allNodes0 := by
  rcases inv.grow with h | ⟨_, n', hn', hf'⟩
  · exact h
  · rw [hn] at hn'
    cases hn'
    rw [hflag] at hf'
    cases hf'

theorem Frame_effect (E : Engine B C R) (heap0 : Heap B C) (allNodes0 : Nodes) (node0 : Nat)
    (battle0 : B) (s : SelectState B C R) (heap2 : Heap B C) (allNodes2 : Nodes)
    (inv : SelInv allNodes0 node0 battle0 s)
    (hfr : Frame E heap0 allNodes0 s.heap s.allNodes) (eff : Effect E s heap2 allNodes2) :
    Frame E heap0 allNodes0 heap2 allNodes2 := by
  obtain ⟨n, hn, hflag, ⟨n2, hn2, hcore, _, _⟩, h2, h3⟩ := eff
  have hall := SelInv_allNodes_of_flag allNodes0 node0 battle0 s n inv hn hflag
  constructor
  · intro p hp n0 hn0
    obtain ⟨m, hm, hcm⟩ := hfr.1 p hp n0 hn0
    by_cases hps : p = s.node
    · subst hps
      rw [hn] at hm
      cases hm
      exact ⟨n2, hn2, sameCore_trans hcm hcore⟩
    · exact ⟨m, by rw [h2 p hps (inv.valid p (hall ▸ hp))]; exact hm, hcm⟩
  · intro p hp hnot
    rcases h3 with ⟨_, h⟩ | ⟨_, h, b, hb, _⟩
    · rw [h, hall] at hp
      exact absurd hp hnot
    · rw [h, hall] at hp
      rcases List.mem_append.1 hp with hp | hp
      · exact absurd hp hnot
      · rw [List.mem_singleton.1 hp]
        exact ⟨b, hb⟩

theorem Dedup_effect (E : Engine B C R) (allNodes0 : Nodes) (node0 : Nat)
    (battle0 : B) (s : SelectState B C R) (heap2 : Heap B C) (allNodes2 : Nodes)
    (hsymm : ∀ a b, E.Equal a b = E.Equal b a)
    (inv : SelInv allNodes0 node0 battle0 s)
    (hdd : Dedup E s.heap s.allNodes) (eff : Effect E s heap2 allNodes2) :
    Dedup E heap2 allNodes2 := by
  obtain ⟨n, hn, hflag, ⟨n2, hn2, hcore, _, _⟩, h2, h3⟩ := eff
  have hold : ∀ p ∈ s.allNodes, ∀ nq : Node B C, heap2[p]? = some nq →
      ∃ np : Node B C, s.heap[p]? = some np ∧ np.Battle = nq.Battle := by
    intro p hp nq hq
    by_cases hps : p = s.node
    · subst hps
      rw [hn2] at hq
      cases hq
      exact ⟨n, hn, hcore.1.symm⟩
    · rw [h2 p hps (inv.valid p hp)] at hq
      exact ⟨nq, hq, rfl⟩
  have hkeep : Dedup E heap2 s.allNodes := by
    unfold Dedup at hdd ⊢
    refine List.Pairwise.imp_of_mem ?_ hdd
    intro p q hp hq hr np nq hnp hnq
    obtain ⟨np', h1, h1'⟩ := hold p hp np hnp
    obtain ⟨nq', h2', h2''⟩ := hold q hq nq hnq
    rw [← h1', ← h2'']
    exact hr np' nq' h1 h2'
  rcases h3 with ⟨_, h⟩ | ⟨_, h, b, hb, hne⟩
  · rw [h]; exact hkeep
  · rw [h]
    unfold Dedup at hkeep ⊢
    rw [List.pairwise_append]
    refine ⟨hkeep, List.pairwise_singleton _ _, ?_⟩
    intro p hp q hq np nq hnp hnq
    rw [List.mem_singleton] at hq
    subst hq
    rw [hb] at hnq
    cases hnq
    obtain ⟨np', h1, h1'⟩ := hold p hp np hnp
    obtain ⟨np'', h3', h4⟩ := hne p hp
    rw [h1] at h3'
    cases h3'
    have hbat : (NewNodePointer E b).Battle = b := rfl
    rw [hbat, ← h1']
    exact ⟨h4, by rw [hsymm]; exact h4⟩

theorem SelectLoop_frame (E : Engine B C R) (X : ℚ) (heap0 : Heap B C) (allNodes0 : Nodes)
    (node0 : Nat) (battle0 : B) (fuel : Nat) (s : SelectState B C R) (heap' : Heap B C)
    (random' : R) (ret : SelectReturn B C) (inv : SelInv allNodes0 node0 battle0 s)
    (hfr : Frame E heap0 allNodes0 s.heap s.allNodes)
    (h : SelectLoop E X fuel s = some (heap', random', .ok ret)) :
    Frame E heap0 allNodes0 heap' ret.allNodes := by
  have := SelectLoop_induct E X allNodes0 node0 battle0
    (fun s => Frame E heap0 allNodes0 s.heap s.allNodes)
    (fun r => ∀ ret, r.2.2 = .ok ret → Frame E heap0 allNodes0 r.1 ret.allNodes)
    (fun s s' inv hP hs => Frame_effect E heap0 allNodes0 node0 battle0 s _ _ inv hP
      (Effect_of_inl E X allNodes0 node0 battle0 s s' inv hs))
    (by
      intro s r inv hP hs ret hret
      obtain ⟨heap1, random1, res⟩ := r
      simp only at hret
      subst hret
      rcases Effect_of_inr E X allNodes0 node0 battle0 s heap1 random1 ret inv hs with
        ⟨h1, h2⟩ | eff
      · simp only; rw [h1, h2]; exact hP
      · exact Frame_effect E heap0 allNodes0 node0 battle0 s _ _ inv hP eff)
    fuel s _ inv hfr h
  exact this ret rfl

theorem SelectLoop_dedup (E : Engine B C R) (X : ℚ) (allNodes0 : Nodes)
    (node0 : Nat) (battle0 : B) (fuel : Nat) (s : SelectState B C R) (heap' : Heap B C)
    (random' : R) (ret : SelectReturn B C) (hsymm : ∀ a b, E.Equal a b = E.Equal b a)
    (inv : SelInv allNodes0 node0 battle0 s)
    (hdd : Dedup E s.heap s.allNodes)
    (h : SelectLoop E X fuel s = some (heap', random', .ok ret)) :
    Dedup E heap' ret.allNodes := by
  have := SelectLoop_induct E X allNodes0 node0 battle0
    (fun s => Dedup E s.heap s.allNodes)
    (fun r => ∀ ret, r.2.2 = .ok ret → Dedup E r.1 ret.allNodes)
    (fun s s' inv hP hs => Dedup_effect E allNodes0 node0 battle0 s _ _ hsymm inv hP
      (Effect_of_inl E X allNodes0 node0 battle0 s s' inv hs))
    (by
      intro s r inv hP hs ret hret
      obtain ⟨heap1, random1, res⟩ := r
      simp only at hret
      subst hret
      rcases Effect_of_inr E X allNodes0 node0 battle0 s heap1 random1 ret inv hs with
        ⟨h1, h2⟩ | eff
      · simp only; rw [h1, h2]; exact hP
      · exact Dedup_effect E allNodes0 node0 battle0 s _ _ hsymm inv hP eff)
    fuel s _ inv hdd h
  exact this ret rfl

end EffectLemmas


section NodeOKLemmas
variable {B C R : Type} [DecidableEq C]

theorem NodeOK_of_sameCore (E : Engine B C R) (pending : C → Prop) (n n' : Node B C)
    (hc : sameCore n n') (h : NodeOK E pending n) : NodeOK E pending n' := by
  obtain ⟨h1, h2, h3, h4, h5⟩ := hc
  refine ⟨?_, ?_, ?_, ?_, ?_⟩
  · rw [h3]; exact h.keys_nodup
  · rw [h3, h2]; exact h.keys_legal
  · rw [h3, h2, h4]; exact h.flag
  · rw [h3]; exact h.visited
  · rw [h1, h2, h5]; exact h.made

theorem NodeOK_new (E : Engine B C R) (pending : C → Prop) (b : B) :
    NodeOK E pending (NewNodePointer E b) := by
  refine ⟨?_, ?_, ?_, ?_, ?_⟩ <;> simp [NewNodePointer]

theorem NodeOK_mono (E : Engine B C R) (pending pending' : C → Prop) (n : Node B C)
    (hp : ∀ c, pending c → pending' c) (h : NodeOK E pending n) : NodeOK E pending' n :=
  ⟨h.keys_nodup, h.keys_legal, h.flag,
    fun e he => (h.visited e he).imp id (fun h' => ⟨h'.1, hp _ h'.2⟩), h.made⟩

theorem NodeOK_expanded (E : Engine B C R) (n : Node B C) (c : C)
    (h : NodeOK E (fun _ => False) n) (hflag : n.IsAllExpansion = false)
    (hc : c ∈ n.AvailableBattleCommands) (hnone : NextNodeParam.get n.NextNodeParam c = none) :
    NodeOK E (fun d => d = c) (expandedNode n c) := by
  have hset := NextNodeParam.set_of_get_none n.NextNodeParam c ⟨0, 0⟩ hnone
  have hnotin := (NextNodeParam.get_eq_none_iff n.NextNodeParam c).1 hnone
  refine ⟨?_, ?_, ?_, ?_, ?_⟩
  · simp only [expandedNode, hset, List.map_append, List.map_cons, List.map_nil]
    exact List.Nodup.append h.keys_nodup (List.nodup_singleton _)
      (by
        intro x hx1 hx2
        rw [List.mem_singleton] at hx2
        subst hx2
        exact hnotin hx1)
  · intro d hd
    simp only [expandedNode, hset, List.map_append, List.map_cons, List.map_nil,
      List.mem_append, List.mem_singleton] at hd
    rcases hd with hd | rfl
    · exact h.keys_legal d hd
    · exact hc
  · simp only [expandedNode, hset, hflag]
    constructor
    · intro hf
      split_ifs at hf with hlen
      exact ⟨by simp, hlen⟩
    · rintro ⟨_, hlen⟩
      rw [if_pos hlen]
  · intro e he
    simp only [expandedNode, hset, List.mem_append, List.mem_singleton] at he
    rcases he with he | rfl
    · rcases h.visited e he with h1 | ⟨_, h2⟩
      · exact Or.inl h1
      · exact absurd h2 id
    · exact Or.inr ⟨rfl, rfl⟩
  · exact h.made

theorem NodeOK_backward (E : Engine B C R) (pending : C → Prop) (n : Node B C) (c : C)
    (p : UCBParam) (v : ℚ) (h : NodeOK E pending n)
    (hget : NextNodeParam.get n.NextNodeParam c = some p) (hpend : ∀ d, pending d → d = c) :
    NodeOK E (fun _ => False)
      { n with
        NextNodeParam := NextNodeParam.set n.NextNodeParam c ⟨p.TotalValue + v, p.SimuNum + 1⟩
        SelectCount := 0 } := by
  have hkeys := NextNodeParam.keys_set_of_get_some n.NextNodeParam c
    ⟨p.TotalValue + v, p.SimuNum + 1⟩ p hget
  have hlen : (NextNodeParam.set n.NextNodeParam c ⟨p.TotalValue + v, p.SimuNum + 1⟩).length
      = n.NextNodeParam.length := by
    have := congrArg List.length hkeys
    simpa using this
  have hpmem := NextNodeParam.mem_of_get _ _ _ hget
  have hp0 : 0 ≤ p.SimuNum := by
    rcases h.visited _ hpmem with h1 | ⟨h1, _⟩
    · exact le_trans (by norm_num) h1
    · exact le_of_eq h1.symm
  refine ⟨?_, ?_, ?_, ?_, h.made⟩
  · simp only [hkeys]; exact h.keys_nodup
  · simp only [hkeys]; exact h.keys_legal
  · simp only [hlen]
    rw [h.flag]
    constructor
    · rintro ⟨h1, h2⟩
      refine ⟨?_, h2⟩
      intro h0
      rw [h0] at hlen
      exact h1 (List.length_eq_zero.1 hlen.symm)
    · rintro ⟨h1, h2⟩
      refine ⟨?_, h2⟩
      intro h0
      rw [h0] at hget
      simp [NextNodeParam.get] at hget
  · intro e he
    left
    simp only at he
    have hnd' : ((NextNodeParam.set n.NextNodeParam c
        ⟨p.TotalValue + v, p.SimuNum + 1⟩).map Prod.fst).Nodup := by
      rw [hkeys]; exact h.keys_nodup
    have hge := NextNodeParam.get_of_mem _ e.1 e.2 hnd' he
    by_cases hec : e.1 = c
    · rw [hec, NextNodeParam.get_set_same] at hge
      have h2 : e.2 = ⟨p.TotalValue + v, p.SimuNum + 1⟩ := (Option.some.inj hge).symm
      rw [h2]
      simp only
      omega
    · rw [NextNodeParam.get_set_ne _ _ (Ne.symm hec)] at hge
      have hmem := NextNodeParam.mem_of_get _ _ _ hge
      rcases h.visited _ hmem with h1 | ⟨_, h2⟩
      · exact h1
      · exact absurd (hpend _ h2) hec

end NodeOKLemmas


section SimLemmas
variable {B C R : Type} [DecidableEq C]

/-- A simulation that completes, taken apart into its three phases. -/
theorem simulation_ok_inv (E : Engine B C R) (eval : Eval B R) (fuel : Nat) (rootBattle : B)
    (X : ℚ) (heap heap' : Heap B C) (allNodes allNodes' : Nodes) (random random' : R)
    (h : simulation E eval fuel rootBattle X heap allNodes random
      = some (heap', random', .ok allNodes')) :
    ∃ heap1 random1 sel heap2 evalY selects,
      Node.Select E fuel heap 0 rootBattle allNodes X random = some (heap1, random1, .ok sel) ∧
      (((E.IsGameEnd sel.battle || sel.isRoopSelect) = true ∧ heap2 = heap1 ∧
          selects = sel.selects ∧ eval.Func sel.battle random1 = (.ok evalY, random')) ∨
       ((E.IsGameEnd sel.battle || sel.isRoopSelect) = false ∧
          Node.ExpansionWithEvalY E eval heap1 sel.node sel.battle sel.selects random1
            = (heap2, random', .ok (evalY, selects)))) ∧
      Selects.Backward eval evalY selects heap2 = .ok heap' ∧ allNodes' = sel.allNodes := by
  unfold simulation at h
  cases hs : Node.Select E fuel heap 0 rootBattle allNodes X random with
  | none => simp [hs] at h
  | some r =>
    obtain ⟨heap1, random1, res⟩ := r
    cases res with
    | error e => simp [hs] at h
    | ok sel =>
      simp only [hs] at h
      by_cases hcond : (E.IsGameEnd sel.battle || sel.isRoopSelect) = true
      · rw [if_pos hcond] at h
        rcases hev : eval.Func sel.battle random1 with ⟨res, random2⟩
        rw [hev] at h
        cases res with
        | error e => simp at h
        | ok evalY =>
          simp only at h
          cases hb : Selects.Backward eval evalY sel.selects heap1 with
          | error e => simp [hb] at h
          | ok heap3 =>
            simp only [hb, Option.some.injEq, Prod.mk.injEq, Except.ok.injEq] at h
            obtain ⟨rfl, rfl, rfl⟩ := h
            exact ⟨heap1, random1, sel, heap1, evalY, sel.selects, rfl,
              Or.inl ⟨hcond, rfl, rfl, hev⟩, hb, rfl⟩
      · rw [if_neg hcond] at h
        rcases hex : Node.ExpansionWithEvalY E eval heap1 sel.node sel.battle sel.selects random1
          with ⟨heap2, random2, res⟩
        rw [hex] at h
        cases res with
        | error e => simp at h
        | ok ys =>
          obtain ⟨evalY, selects⟩ := ys
          simp only at h
          cases hb : Selects.Backward eval evalY selects heap2 with
          | error e => simp [hb] at h
          | ok heap3 =>
            simp only [hb, Option.some.injEq, Prod.mk.injEq, Except.ok.injEq] at h
            obtain ⟨rfl, rfl, rfl⟩ := h
            exact ⟨heap1, random1, sel, heap2, evalY, selects, rfl,
              Or.inr ⟨by simpa using hcond, hex⟩, hb, rfl⟩

end SimLemmas


section SimLemmas2
variable {B C R : Type} [DecidableEq C]

theorem Frame_refl (E : Engine B C R) (heap : Heap B C) (allNodes : Nodes) :
    Frame E heap allNodes heap allNodes :=
  ⟨fun _ _ n0 hn0 => ⟨n0, hn0, sameCore_refl n0⟩, fun _ hp hnot => absurd hp hnot⟩

theorem RunInv_SelInv (E : Engine B C R) (rootBattle : B) (k : Nat) (heap : Heap B C)
    (allNodes : Nodes) (random : R) (inv : RunInv E rootBattle k heap allNodes) :
    SelInv allNodes 0 rootBattle
      (⟨heap, 0, rootBattle, allNodes, [], random⟩ : SelectState B C R) := by
  obtain ⟨rest, hrest⟩ := inv.root
  exact SelInv_init heap 0 rootBattle allNodes random inv.valid inv.cache
    (by rw [hrest]; exact List.mem_cons_self _ _) inv.count

/-- What `RunMCTS` knows when `Select` has returned values. -/
theorem Select_from_RunInv (E : Engine B C R) (rootBattle : B) (k : Nat) (heap heap1 : Heap B C)
    (allNodes : Nodes) (fuel : Nat) (X : ℚ) (random random1 : R) (sel : SelectReturn B C)
    (inv : RunInv E rootBattle k heap allNodes)
    (h : Node.Select E fuel heap 0 rootBattle allNodes X random = some (heap1, random1, .ok sel)) :
    SelPost E allNodes 0 rootBattle heap1 sel ∧
    (∀ p ∈ sel.allNodes, ∀ n, heap1[p]? = some n → NodeOK E (fun _ => False) n) ∧
    (∃ rest, sel.allNodes = 0 :: rest) ∧
    (∃ n, heap1[0]? = some n ∧ n.Battle = rootBattle) ∧
    (E.IsGameEnd rootBattle = false →
      ∃ n, heap1[0]? = some n ∧ NextNodeParam.TotalSimuNum n.NextNodeParam = k) ∧
    sel.allNodes.length ≤ k + 2 := by
  have sinv := RunInv_SelInv E rootBattle k heap allNodes random inv
  have post := SelectLoop_post E X allNodes 0 rootBattle fuel _ heap1 random1 sel sinv h
  have fr := SelectLoop_frame E X heap allNodes 0 rootBattle fuel _ heap1 random1 sel sinv
    (Frame_refl E heap allNodes) h
  obtain ⟨rest, hrest⟩ := inv.root
  have h0 : (0 : Nat) ∈ allNodes := by rw [hrest]; exact List.mem_cons_self _ _
  have hroot : ∀ n0, heap[0]? = some n0 → ∃ n, heap1[0]? = some n ∧ sameCore n0 n :=
    fun n0 hn0 => fr.1 0 h0 n0 hn0
  refine ⟨post, ?_, ?_, ?_, ?_, ?_⟩
  · intro p hp n hn
    by_cases hpo : p ∈ allNodes
    · have hlt := inv.valid p hpo
      obtain ⟨n', hn', hcore⟩ := fr.1 p hpo heap[p] (List.getElem?_eq_getElem hlt)
      rw [hn] at hn'
      cases hn'
      exact NodeOK_of_sameCore E _ _ _ hcore
        (inv.nodeOK p hpo _ (List.getElem?_eq_getElem hlt))
    · obtain ⟨b, hb⟩ := fr.2 p hp hpo
      rw [hn] at hb
      cases hb
      exact NodeOK_new E _ b
  · rcases post.grow with h | ⟨h, _⟩
    · rw [h]; exact ⟨rest, hrest⟩
    · rw [h, hrest]; exact ⟨rest ++ [sel.node], rfl⟩
  · obtain ⟨n0, hn0, hb⟩ := inv.rootNode
    obtain ⟨n, hn, hcore⟩ := hroot n0 hn0
    exact ⟨n, hn, hcore.1.trans hb⟩
  · intro hlive
    obtain ⟨n0, hn0, hk⟩ := inv.visits hlive
    obtain ⟨n, hn, hcore⟩ := hroot n0 hn0
    exact ⟨n, hn, by rw [hcore.2.2.1]; exact hk⟩
  · have := inv.size
    rcases post.grow with h | ⟨h, _⟩
    · rw [h]; omega
    · rw [h]; simp; omega

/-- The invariant before backpropagation when the state was evaluated directly. -/
theorem MidInv_direct (E : Engine B C R) (rootBattle : B) (k : Nat) (heap heap1 : Heap B C)
    (allNodes : Nodes) (fuel : Nat) (X : ℚ) (random random1 : R) (sel : SelectReturn B C)
    (inv : RunInv E rootBattle k heap allNodes)
    (h : Node.Select E fuel heap 0 rootBattle allNodes X random = some (heap1, random1, .ok sel))
    (hcond : (E.IsGameEnd sel.battle || sel.isRoopSelect) = true) :
    MidInv E rootBattle k heap1 sel.allNodes sel.selects := by
  obtain ⟨post, hok, hroot, hrn, hvis, hsize⟩ :=
    Select_from_RunInv E rootBattle k heap heap1 allNodes fuel X random random1 sel inv h
  have hsub : ∀ p ∈ allNodes, p ∈ sel.allNodes := by
    intro p hp
    rcases post.grow with h | ⟨h, _⟩
    · rw [h]; exact hp
    · rw [h]; exact List.mem_append_left _ hp
  refine ⟨post.valid, post.cache, hroot, ?_, post.nodup, ?_, ?_, hrn, ?_, hsize⟩
  · intro p hp hnot n hn
    rw [post.count p hp n hn, if_neg hnot]
  · intro s hs
    obtain ⟨hs0, n, hn, _, hc⟩ := post.path s hs
    refine ⟨hsub _ hs0, n, ?_⟩
    cases hg : NextNodeParam.get n.NextNodeParam s.BattleCommand with
    | none => exact absurd hc ((NextNodeParam.get_eq_none_iff _ _).1 hg)
    | some p => exact ⟨p, hn, rfl⟩
  · intro p hp n hn
    exact NodeOK_mono E _ _ n (fun _ hf => absurd hf id) (hok p hp n hn)
  · intro hlive
    obtain ⟨n, hn, hk⟩ := hvis hlive
    rcases post.start with ⟨_, _, hb, hr⟩ | ⟨c, rest, hsel⟩
    · rw [hb, hr, hlive] at hcond
      simp at hcond
    · exact ⟨n, c, hn, hk, by rw [hsel]; exact List.mem_cons_self _ _⟩

end SimLemmas2


section SimLemmas3
variable {B C R : Type} [DecidableEq C]

theorem TotalSimuNum_append (m : NextNodeParam C) (c : C) (p : UCBParam) :
    NextNodeParam.TotalSimuNum (m ++ [(c, p)]) = NextNodeParam.TotalSimuNum m + p.SimuNum := by
  simp [NextNodeParam.TotalSimuNum]

/-- The invariant before backpropagation when a node was expanded. -/
theorem MidInv_expansion (E : Engine B C R) (eval : Eval B R) (rootBattle : B) (k : Nat)
    (heap heap1 heap2 : Heap B C) (allNodes : Nodes) (fuel : Nat) (X : ℚ)
    (random random1 random' : R) (sel : SelectReturn B C) (evalY : ℚ) (selects : Selects C)
    (inv : RunInv E rootBattle k heap allNodes)
    (h : Node.Select E fuel heap 0 rootBattle allNodes X random = some (heap1, random1, .ok sel))
    (hcond : (E.IsGameEnd sel.battle || sel.isRoopSelect) = false)
    (hex : Node.ExpansionWithEvalY E eval heap1 sel.node sel.battle sel.selects random1
      = (heap2, random', .ok (evalY, selects))) :
    MidInv E rootBattle k heap2 sel.allNodes selects := by
  obtain ⟨post, hok, hroot, hrn, hvis, hsize⟩ :=
    Select_from_RunInv E rootBattle k heap heap1 allNodes fuel X random random1 sel inv h
  have hsub : ∀ p ∈ allNodes, p ∈ sel.allNodes := by
    intro p hp
    rcases post.grow with h | ⟨h, _⟩
    · rw [h]; exact hp
    · rw [h]; exact List.mem_append_left _ hp
  simp only [Bool.or_eq_false_iff] at hcond
  obtain ⟨hcur, n, hn, hflag⟩ := post.expand hcond.2 hcond.1
  obtain ⟨n0, cmds, c, _, _, _, hn0, _, hcmds, hr, _, _, hheap, hsel⟩ :=
    Expansion_ok_inv E eval heap1 heap2 sel.node sel.battle sel.selects selects random1 random'
      evalY hex
  rw [hn] at hn0
  cases hn0
  obtain ⟨_, hfilter⟩ := NewNoExpansionBattleCommands_ok n cmds hcmds
  have hcmem := RandomChoice_mem E _ _ _ _ hr
  rw [hfilter] at hcmem
  obtain ⟨hc1, hc2⟩ := List.mem_filter.1 hcmem
  have hnone : NextNodeParam.get n.NextNodeParam c = none := by simpa using hc2
  have hlt : sel.node < heap1.length := (List.getElem?_eq_some_iff.1 hn).1
  have hnew : heap2[sel.node]? = some (expandedNode n c) := by
    rw [hheap]; exact List.getElem?_set_self hlt
  have hother : ∀ p, p ≠ sel.node → heap2[p]? = heap1[p]? := by
    intro p hp
    rw [hheap]; exact List.getElem?_set_ne (Ne.symm hp)
  have hnodes : selects.map Select.Node = sel.selects.map Select.Node ++ [sel.node] := by
    rw [hsel]; simp
  refine ⟨?_, ?_, hroot, ?_, ?_, ?_, ?_, ?_, ?_, hsize⟩
  · intro p hp
    rw [hheap, List.length_set]
    exact post.valid p hp
  · intro p hp m hm q hq
    by_cases hps : p = sel.node
    · subst hps
      rw [hnew] at hm
      cases hm
      exact post.cache _ hp n hn q hq
    · rw [hother p hps] at hm
      exact post.cache p hp m hm q hq
  · intro p hp hnot m hm
    rw [hnodes, List.mem_append, List.mem_singleton, not_or] at hnot
    rw [hother p hnot.2] at hm
    rw [post.count p hp m hm, if_neg hnot.1]
  · rw [hnodes]
    exact List.Nodup.append post.nodup (List.nodup_singleton _)
      (by
        intro x hx1 hx2
        rw [List.mem_singleton] at hx2
        subst hx2
        exact hcur hx1)
  · intro s hs
    rw [hsel] at hs
    rcases List.mem_append.1 hs with hs | hs
    · obtain ⟨hs0, m, hm, _, hc⟩ := post.path s hs
      have hne : s.Node ≠ sel.node := by
        intro heq
        exact hcur (heq ▸ List.mem_map_of_mem Select.Node hs)
      refine ⟨hsub _ hs0, m, ?_⟩
      cases hg : NextNodeParam.get m.NextNodeParam s.BattleCommand with
      | none => exact absurd hc ((NextNodeParam.get_eq_none_iff _ _).1 hg)
      | some p => exact ⟨p, by rw [hother _ hne]; exact hm, rfl⟩
    · rw [List.mem_singleton] at hs
      subst hs
      exact ⟨post.node_mem, expandedNode n c, ⟨0, 0⟩, hnew,
        by simp [expandedNode, NextNodeParam.get_set_same]⟩
  · intro p hp m hm
    by_cases hps : p = sel.node
    · subst hps
      rw [hnew] at hm
      cases hm
      refine NodeOK_mono E _ _ _ ?_ (NodeOK_expanded E n c (hok _ hp n hn) hflag hc1 hnone)
      intro d hd
      rw [hd, hsel]
      exact List.mem_append_right _ (List.mem_singleton.2 rfl)
    · rw [hother p hps] at hm
      exact NodeOK_mono E _ _ m (fun _ hf => absurd hf id) (hok p hp m hm)
  · obtain ⟨m, hm, hb⟩ := hrn
    by_cases hps : 0 = sel.node
    · rw [← hps] at hnew hn
      rw [hn] at hm
      cases hm
      exact ⟨_, hnew, hb⟩
    · exact ⟨m, by rw [hother 0 hps]; exact hm, hb⟩
  · intro hlive
    obtain ⟨m, hm, hk⟩ := hvis hlive
    rcases post.start with ⟨_, hnode, _, _⟩ | ⟨c', rest, hsel'⟩
    · rw [hnode] at hnew hn
      rw [hn] at hm
      cases hm
      refine ⟨_, c, hnew, ?_, ?_⟩
      · simp only [expandedNode, NextNodeParam.set_of_get_none _ _ _ hnone, TotalSimuNum_append]
        rw [hk]; simp
      · rw [hsel, hnode]
        exact List.mem_append_right _ (List.mem_singleton.2 rfl)
    · have h0 : (0 : Nat) ∈ sel.selects.map Select.Node := by
        rw [hsel']; simp
      have hne : (0 : Nat) ≠ sel.node := by
        intro heq
        exact hcur (heq ▸ h0)
      refine ⟨m, c', by rw [hother 0 hne]; exact hm, hk, ?_⟩
      rw [hsel, hsel']
      exact List.mem_append_left _ (List.mem_cons_self _ _)

/-- Backpropagation of a path that satisfies `MidInv` returns. -/
theorem MidInv_Backward_ok (E : Engine B C R) (eval : Eval B R) (rootBattle : B) (k : Nat)
    (heap2 : Heap B C) (allNodes : Nodes) (selects : Selects C) (evalY : ℚ)
    (mid : MidInv E rootBattle k heap2 allNodes selects) :
    ∃ heap', Selects.Backward eval evalY selects heap2 = .ok heap' := by
  obtain ⟨heap', h, _⟩ := Backward_spec eval evalY selects heap2 mid.nodup
    (fun s hs => (mid.path s hs).2)
  exact ⟨heap', h⟩

/-- Backpropagation completes simulation `k + 1` and restores the invariant. -/
theorem RunInv_Backward (E : Engine B C R) (eval : Eval B R) (rootBattle : B) (k : Nat)
    (heap2 heap' : Heap B C) (allNodes : Nodes) (selects : Selects C) (evalY : ℚ)
    (mid : MidInv E rootBattle k heap2 allNodes selects)
    (hb : Selects.Backward eval evalY selects heap2 = .ok heap') :
    RunInv E rootBattle (k + 1) heap' allNodes := by
  obtain ⟨heap'', hb', hpost⟩ := Backward_spec eval evalY selects heap2 mid.nodup
    (fun s hs => (mid.path s hs).2)
  rw [hb] at hb'
  cases hb'
  have hlen := Backward_length eval evalY selects heap2 heap' hb
  have hframe := Backward_frame eval evalY selects heap2 heap' hb
  have hinj : ∀ s1 ∈ selects, ∀ s2 ∈ selects, s1.Node = s2.Node → s1 = s2 :=
    fun s1 h1 s2 h2 heq => List.inj_on_of_nodup_map mid.nodup h1 h2 heq
  -- every registry node after backpropagation, described from its value before
  have hdesc : ∀ p ∈ allNodes, ∀ m, heap'[p]? = some m →
      (p ∉ selects.map Select.Node ∧ heap2[p]? = some m) ∨
      (∃ s ∈ selects, s.Node = p ∧ ∃ n q, heap2[p]? = some n ∧
        NextNodeParam.get n.NextNodeParam s.BattleCommand = some q ∧
        m = { n with
              NextNodeParam := NextNodeParam.set n.NextNodeParam s.BattleCommand
                ⟨q.TotalValue + (if n.IsP1Node then evalY else eval.ReverseFunc evalY),
                  q.SimuNum + 1⟩
              SelectCount := 0 }) := by
    intro p _ m hm
    by_cases hin : p ∈ selects.map Select.Node
    · right
      obtain ⟨s, hs, rfl⟩ := List.mem_map.1 hin
      obtain ⟨_, n, q, hn, hq⟩ := mid.path s hs
      have := hpost s hs n q hn hq
      rw [hm] at this
      exact ⟨s, hs, rfl, n, q, hn, hq, Option.some.inj this⟩
    · left
      rw [hframe p hin] at hm
      exact ⟨hin, hm⟩
  refine ⟨?_, ?_, mid.root, ?_, ?_, ?_, ?_, mid.size⟩
  · intro p hp
    rw [hlen]; exact mid.valid p hp
  · intro p hp m hm r hr
    rcases hdesc p hp m hm with ⟨_, h2⟩ | ⟨s, _, _, n, q, hn, _, rfl⟩
    · exact mid.cache p hp m h2 r hr
    · exact mid.cache p hp n hn r hr
  · intro p hp m hm
    rcases hdesc p hp m hm with ⟨hnot, h2⟩ | ⟨s, _, _, n, q, _, _, rfl⟩
    · exact mid.count p hp hnot m h2
    · rfl
  · intro p hp m hm
    rcases hdesc p hp m hm with ⟨hnot, h2⟩ | ⟨s, hs, hsp, n, q, hn, hq, rfl⟩
    · refine NodeOK_mono E _ _ m ?_ (mid.nodeOK p hp m h2)
      intro c hc
      exact hnot (List.mem_map.2 ⟨_, hc, rfl⟩)
    · refine NodeOK_backward E _ n s.BattleCommand q _ (mid.nodeOK p hp n hn) hq ?_
      intro d hd
      have := hinj _ hd s hs hsp.symm
      rw [← this]
  · obtain ⟨n, hn, hbat⟩ := mid.rootNode
    obtain ⟨rest, hrest⟩ := mid.root
    have h0 : (0 : Nat) ∈ allNodes := by rw [hrest]; exact List.mem_cons_self _ _
    have hlt : 0 < heap'.length := by rw [hlen]; exact mid.valid 0 h0
    rcases hdesc 0 h0 heap'[0] (List.getElem?_eq_getElem hlt) with ⟨_, h2⟩ |
      ⟨s, _, _, n', q, hn', _, hm⟩
    · rw [hn] at h2
      exact ⟨n, by rw [List.getElem?_eq_getElem hlt, ← Option.some.inj h2], hbat⟩
    · rw [hn] at hn'
      cases hn'
      exact ⟨_, List.getElem?_eq_getElem hlt, by rw [hm]; exact hbat⟩
  · intro hlive
    obtain ⟨n, c, hn, hk, hc⟩ := mid.visits hlive
    obtain ⟨_, n', q, hn', hq⟩ := mid.path _ hc
    simp only at hn' hq
    rw [hn] at hn'
    cases hn'
    refine ⟨_, hpost _ hc n q hn hq, ?_⟩
    simp only
    rw [NextNodeParam.TotalSimuNum_set_of_get_some _ _ _ q hq, hk]
    push_cast
    ring

end SimLemmas3


section RunLemmas
variable {B C R : Type} [DecidableEq C]

theorem simulation_RunInv (E : Engine B C R) (eval : Eval B R) (fuel : Nat) (rootBattle : B)
    (X : ℚ) (k : Nat) (heap heap' : Heap B C) (allNodes allNodes' : Nodes) (random random' : R)
    (inv : RunInv E rootBattle k heap allNodes)
    (h : simulation E eval fuel rootBattle X heap allNodes random
      = some (heap', random', .ok allNodes')) :
    RunInv E rootBattle (k + 1) heap' allNodes' := by
  obtain ⟨heap1, random1, sel, heap2, evalY, selects, hsel, hev, hb, rfl⟩ :=
    simulation_ok_inv E eval fuel rootBattle X heap heap' allNodes allNodes' random random' h
  rcases hev with ⟨hcond, rfl, rfl, _⟩ | ⟨hcond, hex⟩
  · exact RunInv_Backward E eval rootBattle k _ heap' _ _ evalY
      (MidInv_direct E rootBattle k heap _ allNodes fuel X random random1 sel inv hsel hcond) hb
  · exact RunInv_Backward E eval rootBattle k _ heap' _ _ evalY
      (MidInv_expansion E eval rootBattle k heap heap1 heap2 allNodes fuel X random random1
        random' sel evalY selects inv hsel hcond hex) hb

/-- Backpropagation leaves the state stored in every node as it was. -/
theorem Backward_battle (eval : Eval B R) (evalY : ℚ) (selects : Selects C) :
    ∀ (heap heap' : Heap B C), Selects.Backward eval evalY selects heap = .ok heap' →
      ∀ (p : Nat) (m : Node B C), heap'[p]? = some m →
        ∃ n : Node B C, heap[p]? = some n ∧ n.Battle = m.Battle := by
  induction selects with
  | nil =>
    intro heap heap' h p m hm
    simp only [Selects.Backward, Except.ok.injEq] at h
    subst h
    exact ⟨m, hm, rfl⟩
  | cons s rest ih =>
    intro heap heap' h p m hm
    simp only [Selects.Backward] at h
    cases h1 : backwardOne eval evalY heap s with
    | error e => simp [h1] at h
    | ok heap1 =>
      simp only [h1] at h
      obtain ⟨n1, hn1, hb1⟩ := ih heap1 heap' h p m hm
      unfold backwardOne at h1
      cases hn : heap[s.Node]? with
      | none => simp [hn] at h1
      | some n =>
        simp only [hn] at h1
        cases hq : NextNodeParam.get n.NextNodeParam s.BattleCommand with
        | none => simp [hq] at h1
        | some q =>
          simp only [hq, Except.ok.injEq] at h1
          have hlt : s.Node < heap.length := (List.getElem?_eq_some_iff.1 hn).1
          rw [← h1] at hn1
          rcases getElem?_set_cases heap s.Node p _ hlt with ⟨rfl, hx⟩ | ⟨_, hx⟩
          · rw [hn1] at hx
            cases hx
            exact ⟨n, hn, hb1⟩
          · rw [hn1] at hx
            exact ⟨n1, hx.symm, hb1⟩

theorem Dedup_of_battles (E : Engine B C R) (heap heap' : Heap B C) (allNodes : Nodes)
    (hbat : ∀ p ∈ allNodes, ∀ m : Node B C, heap'[p]? = some m →
      ∃ n : Node B C, heap[p]? = some n ∧ n.Battle = m.Battle)
    (hdd : Dedup E heap allNodes) : Dedup E heap' allNodes := by
  unfold Dedup at hdd ⊢
  refine List.Pairwise.imp_of_mem ?_ hdd
  intro p q hp hq hr np nq hnp hnq
  obtain ⟨np', h1, h1'⟩ := hbat p hp np hnp
  obtain ⟨nq', h2, h2'⟩ := hbat q hq nq hnq
  rw [← h1', ← h2']
  exact hr np' nq' h1 h2

theorem simulation_Dedup (E : Engine B C R) (eval : Eval B R) (fuel : Nat) (rootBattle : B)
    (X : ℚ) (k : Nat) (heap heap' : Heap B C) (allNodes allNodes' : Nodes) (random random' : R)
    (hsymm : ∀ a b, E.Equal a b = E.Equal b a)
    (inv : RunInv E rootBattle k heap allNodes) (hdd : Dedup E heap allNodes)
    (h : simulation E eval fuel rootBattle X heap allNodes random
      = some (heap', random', .ok allNodes')) :
    Dedup E heap' allNodes' := by
  obtain ⟨heap1, random1, sel, heap2, evalY, selects, hsel, hev, hb, rfl⟩ :=
    simulation_ok_inv E eval fuel rootBattle X heap heap' allNodes allNodes' random random' h
  have sinv := RunInv_SelInv E rootBattle k heap allNodes random inv
  have hdd1 : Dedup E heap1 sel.allNodes :=
    SelectLoop_dedup E X allNodes 0 rootBattle fuel _ heap1 random1 sel hsymm sinv hdd hsel
  have hdd2 : Dedup E heap2 sel.allNodes := by
    rcases hev with ⟨_, rfl, _, _⟩ | ⟨_, hex⟩
    · exact hdd1
    · obtain ⟨n, _, c, _, _, _, hn, _, _, _, _, _, hheap, _⟩ :=
        Expansion_ok_inv E eval heap1 heap2 sel.node sel.battle sel.selects selects random1
          random' evalY hex
      have hlt : sel.node < heap1.length := (List.getElem?_eq_some_iff.1 hn).1
      refine Dedup_of_battles E heap1 heap2 _ ?_ hdd1
      intro p _ m hm
      rw [hheap] at hm
      rcases getElem?_set_cases heap1 sel.node p _ hlt with ⟨rfl, hx⟩ | ⟨_, hx⟩
      · rw [hm] at hx
        cases hx
        exact ⟨n, hn, rfl⟩
      · rw [hm] at hx
        exact ⟨m, hx.symm, rfl⟩
  exact Dedup_of_battles E heap2 heap' _
    (fun p _ m hm => Backward_battle eval evalY selects heap2 heap' hb p m hm) hdd2

theorem simulation_terminates (E : Engine B C R) (eval : Eval B R) (fuel : Nat) (rootBattle : B)
    (X : ℚ) (k : Nat) (heap : Heap B C) (allNodes : Nodes) (random : R)
    (inv : RunInv E rootBattle k heap allNodes) (hfuel : allNodes.length < fuel) :
    ∃ r, simulation E eval fuel rootBattle X heap allNodes random = some r := by
  obtain ⟨r, hr⟩ := SelectLoop_terminates E X allNodes 0 rootBattle fuel _
    (RunInv_SelInv E rootBattle k heap allNodes random inv) (by simpa using hfuel)
  unfold simulation Node.Select
  rw [hr]
  obtain ⟨heap1, random1, res⟩ := r
  cases res with
  | error e => exact ⟨_, rfl⟩
  | ok sel =>
    simp only
    split
    · exact ⟨_, rfl⟩
    · split
      · exact ⟨_, rfl⟩
      · exact ⟨_, rfl⟩

theorem RunMCTSLoop_RunInv (E : Engine B C R) (eval : Eval B R) (fuel : Nat) (rootBattle : B)
    (X : ℚ) :
    ∀ (n k : Nat) (heap : Heap B C) (allNodes : Nodes) (random : R) (r : RunResult B C R),
      RunInv E rootBattle k heap allNodes →
      RunMCTSLoop E eval fuel rootBattle X n heap allNodes random = some r → r.fault = none →
      RunInv E rootBattle (k + n) r.heap r.allNodes := by
  intro n
  induction n with
  | zero =>
    intro k heap allNodes random r inv h _
    simp only [RunMCTSLoop, Option.some.injEq] at h
    subst h
    exact inv
  | succ n ih =>
    intro k heap allNodes random r inv h hok
    simp only [RunMCTSLoop] at h
    cases hs : simulation E eval fuel rootBattle X heap allNodes random with
    | none => simp [hs] at h
    | some res =>
      obtain ⟨heap1, random1, out⟩ := res
      cases out with
      | error e =>
        simp only [hs, Option.some.injEq] at h
        subst h
        simp at hok
      | ok allNodes1 =>
        simp only [hs] at h
        have := ih (k + 1) heap1 allNodes1 random1 r
          (simulation_RunInv E eval fuel rootBattle X k heap heap1 allNodes allNodes1 random
            random1 inv hs) h hok
        rw [show k + (n + 1) = k + 1 + n by omega]
        exact this

theorem RunMCTSLoop_Dedup (E : Engine B C R) (eval : Eval B R) (fuel : Nat) (rootBattle : B)
    (X : ℚ) (hsymm : ∀ a b, E.Equal a b = E.Equal b a) :
    ∀ (n k : Nat) (heap : Heap B C) (allNodes : Nodes) (random : R) (r : RunResult B C R),
      RunInv E rootBattle k heap allNodes → Dedup E heap allNodes →
      RunMCTSLoop E eval fuel rootBattle X n heap allNodes random = some r → r.fault = none →
      Dedup E r.heap r.allNodes := by
  intro n
  induction n with
  | zero =>
    intro k heap allNodes random r _ hdd h _
    simp only [RunMCTSLoop, Option.some.injEq] at h
    subst h
    exact hdd
  | succ n ih =>
    intro k heap allNodes random r inv hdd h hok
    simp only [RunMCTSLoop] at h
    cases hs : simulation E eval fuel rootBattle X heap allNodes random with
    | none => simp [hs] at h
    | some res =>
      obtain ⟨heap1, random1, out⟩ := res
      cases out with
      | error e =>
        simp only [hs, Option.some.injEq] at h
        subst h
        simp at hok
      | ok allNodes1 =>
        simp only [hs] at h
        exact ih (k + 1) heap1 allNodes1 random1 r
          (simulation_RunInv E eval fuel rootBattle X k heap heap1 allNodes allNodes1 random
            random1 inv hs)
          (simulation_Dedup E eval fuel rootBattle X k heap heap1 allNodes allNodes1 random
            random1 hsymm inv hdd hs) h hok

theorem RunMCTSLoop_terminates (E : Engine B C R) (eval : Eval B R) (fuel : Nat)
    (rootBattle : B) (X : ℚ) :
    ∀ (n k : Nat) (heap : Heap B C) (allNodes : Nodes) (random : R),
      RunInv E rootBattle k heap allNodes → k + n < fuel →
      ∃ r, RunMCTSLoop E eval fuel rootBattle X n heap allNodes random = some r := by
  intro n
  induction n with
  | zero => intro k heap allNodes random _ _; exact ⟨_, rfl⟩
  | succ n ih =>
    intro k heap allNodes random inv hfuel
    have hsz := inv.size
    obtain ⟨res, hs⟩ := simulation_terminates E eval fuel rootBattle X k heap allNodes random inv
      (by omega)
    simp only [RunMCTSLoop, hs]
    obtain ⟨heap1, random1, out⟩ := res
    cases out with
    | error e => exact ⟨_, rfl⟩
    | ok allNodes1 =>
      exact ih (k + 1) heap1 allNodes1 random1
        (simulation_RunInv E eval fuel rootBattle X k heap heap1 allNodes allNodes1 random
          random1 inv hs) (by omega)

theorem RunInv_init (E : Engine B C R) (rootBattle : B) :
    RunInv E rootBattle 0 [NewNodePointer E rootBattle] [0] := by
  refine ⟨?_, ?_, ⟨[], rfl⟩, ?_, ?_, ⟨_, rfl, rfl⟩, fun _ => ⟨_, rfl, rfl⟩, by simp⟩
  · intro p hp
    rw [List.mem_singleton] at hp
    subst hp
    simp
  · intro p hp n hn q hq
    rw [List.mem_singleton] at hp
    subst hp
    simp only [List.getElem?_cons_zero, Option.some.injEq] at hn
    subst hn
    simp [NewNodePointer] at hq
  · intro p hp n hn
    rw [List.mem_singleton] at hp
    subst hp
    simp only [List.getElem?_cons_zero, Option.some.injEq] at hn
    subst hn
    rfl
  · intro p hp n hn
    rw [List.mem_singleton] at hp
    subst hp
    simp only [List.getElem?_cons_zero, Option.some.injEq] at hn
    subst hn
    exact NodeOK_new E _ rootBattle

theorem RunMCTS_RunInv (E : Engine B C R) (eval : Eval B R) (fuel : Nat) (rootBattle : B)
    (simuNum : Int) (X : ℚ) (random : R) (r : RunResult B C R)
    (h : RunMCTS E eval fuel rootBattle simuNum X random = some r) (hok : r.fault = none) :
    RunInv E rootBattle simuNum.toNat r.heap r.allNodes := by
  have := RunMCTSLoop_RunInv E eval fuel rootBattle X simuNum.toNat 0 _ _ random r
    (RunInv_init E rootBattle) h hok
  simpa using this

theorem RunMCTS_Dedup (E : Engine B C R) (eval : Eval B R) (fuel : Nat) (rootBattle : B)
    (simuNum : Int) (X : ℚ) (random : R) (r : RunResult B C R)
    (hsymm : ∀ a b, E.Equal a b = E.Equal b a)
    (h : RunMCTS E eval fuel rootBattle simuNum X random = some r) (hok : r.fault = none) :
    Dedup E r.heap r.allNodes :=
  RunMCTSLoop_Dedup E eval fuel rootBattle X hsymm simuNum.toNat 0 _ _ random r
    (RunInv_init E rootBattle) (by simp [Dedup]) h hok

theorem RunMCTS_terminates (E : Engine B C R) (eval : Eval B R) (fuel : Nat) (rootBattle : B)
    (simuNum : Int) (X : ℚ) (random : R) (hfuel : simuNum.toNat < fuel) :
    ∃ r, RunMCTS E eval fuel rootBattle simuNum X random = some r :=
  RunMCTSLoop_terminates E eval fuel rootBattle X simuNum.toNat 0 _ _ random
    (RunInv_init E rootBattle) (by omega)

end RunLemmas


section MonoLemmas
variable {B C R : Type} [DecidableEq C]

theorem simulation_mono (E : Engine B C R) (eval : Eval B R) (fuel fuel' : Nat) (rootBattle : B)
    (X : ℚ) (heap : Heap B C) (allNodes : Nodes) (random : R)
    (r : Heap B C × R × Except Fault Nodes)
    (h : simulation E eval fuel rootBattle X heap allNodes random = some r) (hle : fuel ≤ fuel') :
    simulation E eval fuel' rootBattle X heap allNodes random = some r := by
  cases hs : Node.Select E fuel heap 0 rootBattle allNodes X random with
  | none => simp [simulation, hs] at h
  | some x =>
    have hs' : Node.Select E fuel' heap 0 rootBattle allNodes X random = some x :=
      SelectLoop_mono E X fuel fuel' _ x hs hle
    unfold simulation at h ⊢
    rw [hs'] 
    rw [hs] at h
    exact h

theorem RunMCTSLoop_mono (E : Engine B C R) (eval : Eval B R) (fuel fuel' : Nat) (rootBattle : B)
    (X : ℚ) (hle : fuel ≤ fuel') :
    ∀ (n : Nat) (heap : Heap B C) (allNodes : Nodes) (random : R) (r : RunResult B C R),
      RunMCTSLoop E eval fuel rootBattle X n heap allNodes random = some r →
      RunMCTSLoop E eval fuel' rootBattle X n heap allNodes random = some r := by
  intro n
  induction n with
  | zero => intro heap allNodes random r h; exact h
  | succ n ih =>
    intro heap allNodes random r h
    simp only [RunMCTSLoop] at h ⊢
    cases hs : simulation E eval fuel rootBattle X heap allNodes random with
    | none => simp [hs] at h
    | some res =>
      rw [simulation_mono E eval fuel fuel' rootBattle X heap allNodes random res hs hle]
      rw [hs] at h
      obtain ⟨heap1, random1, out⟩ := res
      cases out with
      | error e => exact h
      | ok allNodes1 => exact ih heap1 allNodes1 random1 r h

/-- With more fuel than simulations `RunMCTS` returns, and the same for every
such amount of fuel. -/
theorem RunMCTS_total (E : Engine B C R) (eval : Eval B R) (rootBattle : B)
    (simuNum : Int) (X : ℚ) (random : R) :
    ∃ r, ∀ fuel, simuNum.toNat < fuel →
      RunMCTS E eval fuel rootBattle simuNum X random = some r := by
  obtain ⟨r, hr⟩ := RunMCTS_terminates E eval (simuNum.toNat + 1) rootBattle simuNum X random
    (Nat.lt_succ_self _)
  exact ⟨r, fun fuel hfuel =>
    RunMCTSLoop_mono E eval _ fuel rootBattle X (by omega) _ _ _ _ r hr⟩

/-- From a registry as `SelInv_init` asks for, `Select` returns, the same for
every amount of fuel above the size of the registry. -/
theorem Select_total (E : Engine B C R) (X : ℚ) (heap : Heap B C) (node : Nat) (battle : B)
    (allNodes : Nodes) (random : R)
    (hvalid : ∀ p ∈ allNodes, p < heap.length)
    (hcache : ∀ p ∈ allNodes, ∀ n, heap[p]? = some n → ∀ q ∈ n.NextNodes, q ∈ allNodes)
    (hnode : node ∈ allNodes)
    (hcount : ∀ p ∈ allNodes, ∀ n, heap[p]? = some n → n.SelectCount = 0) :
    ∃ r, ∀ fuel, allNodes.length < fuel →
      Node.Select E fuel heap node battle allNodes X random = some r := by
  have inv := SelInv_init heap node battle allNodes random hvalid hcache hnode hcount
  obtain ⟨r, hr⟩ := SelectLoop_terminates E X allNodes node battle (allNodes.length + 1) _ inv
    (by simp)
  exact ⟨r, fun fuel hfuel => SelectLoop_mono E X _ fuel _ r hr (by omega)⟩

theorem succeeded_iff (run : Option (RunResult B C R)) (h : succeeded run = true) :
    ∃ r, run = some r ∧ r.fault = none := by
  cases run with
  | none => simp [succeeded] at h
  | some r => exact ⟨r, rfl, by simpa [succeeded] using h⟩

end MonoLemmas


section MaxSimuNumLemmas
variable {B C R : Type} [DecidableEq C]

/-- The loop of `MaxSimuNum` over keys that all have an entry. -/
theorem MaxSimuNumLoop_spec (m : NextNodeParam C) :
    ∀ (cs : List C) (r : Int), (∀ c ∈ cs, ∃ p, NextNodeParam.get m c = some p) →
      ∃ M, NextNodeParam.MaxSimuNumLoop m cs r = .ok M ∧ r ≤ M ∧
        (∀ c ∈ cs, ∀ p, NextNodeParam.get m c = some p → p.SimuNum ≤ M) ∧
        (M = r ∨ ∃ c ∈ cs, ∃ p, NextNodeParam.get m c = some p ∧ p.SimuNum = M) := by
  intro cs
  induction cs with
  | nil => intro r _; exact ⟨r, rfl, le_refl _, by simp, Or.inl rfl⟩
  | cons c rest ih =>
    intro r hall
    obtain ⟨p, hp⟩ := hall c (List.mem_cons_self _ _)
    obtain ⟨M, hM, h1, h2, h3⟩ := ih (if p.SimuNum > r then p.SimuNum else r)
      (fun d hd => hall d (List.mem_cons_of_mem _ hd))
    have hr : r ≤ (if p.SimuNum > r then p.SimuNum else r) := by
      split_ifs with h
      · exact le_of_lt h
      · exact le_refl _
    have hc : p.SimuNum ≤ (if p.SimuNum > r then p.SimuNum else r) := by
      split_ifs with h
      · exact le_refl _
      · exact not_lt.1 h
    refine ⟨M, ?_, le_trans hr h1, ?_, ?_⟩
    · simp [NextNodeParam.MaxSimuNumLoop, NextNodeParam.simuNumAt, hp, hM]
    · intro d hd q hq
      rcases List.mem_cons.1 hd with rfl | hd
      · rw [hp] at hq
        cases hq
        exact le_trans hc h1
      · exact h2 d hd q hq
    · rcases h3 with h3 | ⟨d, hd, q, hq, hqM⟩
      · by_cases h : p.SimuNum > r
        · right
          exact ⟨c, List.mem_cons_self _ _, p, hp, by rw [h3]; simp [h]⟩
        · left
          rw [h3]; simp [h]
      · right
        exact ⟨d, List.mem_cons_of_mem _ hd, q, hq, hqM⟩

/-- Source: `MaxSimuNum` and `NewMaxSimuNumBattleCommands` on a non-empty map. -/
theorem NewMaxSimuNumBattleCommands_spec (m : NextNodeParam C) (hne : m ≠ [])
    (hnd : (m.map Prod.fst).Nodup) :
    ∃ M L, NextNodeParam.MaxSimuNum m = .ok M ∧
      (∃ e ∈ m, e.2.SimuNum = M) ∧ (∀ e ∈ m, e.2.SimuNum ≤ M) ∧
      NextNodeParam.NewMaxSimuNumBattleCommands m = .ok L ∧
      L ≠ [] ∧ L.Nodup ∧
      (∀ c, c ∈ L ↔ ∃ p, NextNodeParam.get m c = some p ∧ p.SimuNum = M) := by
  have hget : ∀ e ∈ m, NextNodeParam.get m e.1 = some e.2 :=
    fun e he => NextNodeParam.get_of_mem m e.1 e.2 hnd he
  have hkeys : ∀ c ∈ m.map Prod.fst, ∃ p, NextNodeParam.get m c = some p := by
    intro c hc
    obtain ⟨e, he, rfl⟩ := List.mem_map.1 hc
    exact ⟨e.2, hget e he⟩
  cases hm : m with
  | nil => exact absurd hm hne
  | cons e0 rest =>
    have he0 : e0 ∈ m := by rw [hm]; exact List.mem_cons_self _ _
    obtain ⟨M, hM, h1, h2, h3⟩ := MaxSimuNumLoop_spec m (rest.map Prod.fst) e0.2.SimuNum
      (fun c hc => hkeys c (by rw [hm]; exact List.mem_cons_of_mem _ hc))
    have hMax : NextNodeParam.MaxSimuNum m = .ok M := by
      unfold NextNodeParam.MaxSimuNum NextNodeParam.NewBattleCommands
      rw [hm]
      simp only [List.map_cons]
      rw [← hm]
      simp only [NextNodeParam.simuNumAt, hget e0 he0, hM]
    have hatt : ∃ e ∈ m, e.2.SimuNum = M := by
      rcases h3 with h3 | ⟨c, _, p, hp, hpM⟩
      · exact ⟨e0, he0, h3.symm⟩
      · exact ⟨(c, p), NextNodeParam.mem_of_get m c p hp, hpM⟩
    have hle : ∀ e ∈ m, e.2.SimuNum ≤ M := by
      intro e he
      rw [hm] at he
      rcases List.mem_cons.1 he with rfl | he
      · exact h1
      · exact h2 e.1 (List.mem_map_of_mem Prod.fst he) e.2
          (hget e (by rw [hm]; exact List.mem_cons_of_mem _ he))
    have hL : NextNodeParam.NewMaxSimuNumBattleCommands m
        = .ok ((m.filter (fun e => e.2.SimuNum = M)).map Prod.fst) := by
      simp [NextNodeParam.NewMaxSimuNumBattleCommands, hMax]
    have hmem : ∀ c, c ∈ (m.filter (fun e => e.2.SimuNum = M)).map Prod.fst ↔
        ∃ p, NextNodeParam.get m c = some p ∧ p.SimuNum = M := by
      intro c
      constructor
      · intro hc
        obtain ⟨e, he, rfl⟩ := List.mem_map.1 hc
        obtain ⟨he1, he2⟩ := List.mem_filter.1 he
        exact ⟨e.2, hget e he1, by simpa using he2⟩
      · rintro ⟨p, hp, hpM⟩
        exact List.mem_map.2 ⟨(c, p), List.mem_filter.2
          ⟨NextNodeParam.mem_of_get m c p hp, by simpa using hpM⟩, rfl⟩
    rw [← hm]
    refine ⟨M, _, hMax, hatt, hle, hL, ?_, ?_, hmem⟩
    · obtain ⟨e, he, heM⟩ := hatt
      exact List.ne_nil_of_mem ((hmem e.1).2 ⟨e.2, hget e he, heM⟩)
    · exact (List.Sublist.map Prod.fst (List.filter_sublist _)).nodup hnd

end MaxSimuNumLemmas


section IterLemmas
variable {B C R : Type} [DecidableEq C]

/-- Induction along the passes of the loop of `Select`, from any entry state. -/
theorem SelectLoop_induct0 (E : Engine B C R) (X : ℚ) (P : SelectState B C R → Prop)
    (Q : Heap B C × R × Except Fault (SelectReturn B C) → Prop)
    (hstep : ∀ s s', P s → SelectStep E X s = .inl s' → P s')
    (hret : ∀ s r, P s → SelectStep E X s = .inr r → Q r) :
    ∀ (fuel : Nat) (s : SelectState B C R) (r : Heap B C × R × Except Fault (SelectReturn B C)),
      P s → SelectLoop E X fuel s = some r → Q r := by
  intro fuel
  induction fuel with
  | zero => intro s r _ h; simp [SelectLoop] at h
  | succ f ih =>
    intro s r hP h
    simp only [SelectLoop] at h
    cases hs : SelectStep E X s with
    | inl s' =>
      rw [hs] at h
      exact ih s' r (hstep s s' hP hs) h
    | inr r' =>
      rw [hs] at h
      simp only [Option.some.injEq] at h
      subst h
      exact hret s r' hP hs

/-- A property kept by every pass holds at the top of every pass. -/
theorem SelectIter_induct0 (E : Engine B C R) (X : ℚ) (P : SelectState B C R → Prop)
    (hstep : ∀ s s', P s → SelectStep E X s = .inl s' → P s') :
    ∀ (k : Nat) (s s' : SelectState B C R), P s → SelectIter E X k s = some s' → P s' := by
  intro k
  induction k with
  | zero =>
    intro s s' hP h
    simp only [SelectIter, Option.some.injEq] at h
    subst h
    exact hP
  | succ k ih =>
    intro s s' hP h
    simp only [SelectIter] at h
    cases hs : SelectStep E X s with
    | inl s1 =>
      rw [hs] at h
      exact ih s1 s' (hstep s s1 hP hs) h
    | inr r => rw [hs] at h; simp at h

theorem SelectIter_SelInv (E : Engine B C R) (X : ℚ) (allNodes0 : Nodes) (node0 : Nat)
    (battle0 : B) (k : Nat) (s s' : SelectState B C R) (inv : SelInv allNodes0 node0 battle0 s)
    (h : SelectIter E X k s = some s') : SelInv allNodes0 node0 battle0 s' :=
  SelectIter_induct0 E X (SelInv allNodes0 node0 battle0)
    (fun s s' inv hs => SelInv_step E X allNodes0 node0 battle0 s s' inv hs) k s s' inv h

theorem SelectIter_Frame (E : Engine B C R) (X : ℚ) (heap0 : Heap B C) (allNodes0 : Nodes)
    (node0 : Nat) (battle0 : B) (k : Nat) (s s' : SelectState B C R)
    (inv : SelInv allNodes0 node0 battle0 s)
    (hfr : Frame E heap0 allNodes0 s.heap s.allNodes)
    (h : SelectIter E X k s = some s') : Frame E heap0 allNodes0 s'.heap s'.allNodes := by
  have := SelectIter_induct0 E X
    (fun s => SelInv allNodes0 node0 battle0 s ∧ Frame E heap0 allNodes0 s.heap s.allNodes)
    (fun s s' hP hs => ⟨SelInv_step E X allNodes0 node0 battle0 s s' hP.1 hs,
      Frame_effect E heap0 allNodes0 node0 battle0 s _ _ hP.1 hP.2
        (Effect_of_inl E X allNodes0 node0 battle0 s s' hP.1 hs)⟩)
    k s s' ⟨inv, hfr⟩ h
  exact this.2

/-- What lines 95-105 leave, from any heap: cells keep their core fields, and
the node returned is either one found, whose state is `Equal` to the reached
state, or a new last cell made for the reached state and appended to the
registry. -/
theorem resolveNextNode_shape (E : Engine B C R) (heap heap2 : Heap B C) (node nextNode : Nat)
    (battle : B) (allNodes allNodes2 : Nodes)
    (h : resolveNextNode E heap node battle allNodes = .ok (heap2, allNodes2, nextNode)) :
    heap.length ≤ heap2.length ∧
    (∀ (p : Nat) (m : Node B C), heap[p]? = some m →
      ∃ m' : Node B C, heap2[p]? = some m' ∧ sameCore m m' ∧ m'.SelectCount = m.SelectCount) ∧
    ((allNodes2 = allNodes ∧ ∃ nn : Node B C, heap2[nextNode]? = some nn ∧
        E.Equal nn.Battle battle = true) ∨
     (allNodes2 = allNodes ++ [nextNode] ∧ nextNode = heap.length ∧
        heap2[nextNode]? = some (NewNodePointer E battle))) := by
  obtain ⟨n, hn, hcases⟩ := resolveNextNode_ok E heap heap2 node nextNode battle allNodes
    allNodes2 h
  have hlt : node < heap.length := (List.getElem?_eq_some_iff.1 hn).1
  rcases hcases with ⟨hf, e1, e2⟩ | ⟨_, hf, e1, e2⟩ | ⟨_, _, e0, e1, e2⟩
  · subst e1 e2
    obtain ⟨_, nn, hnn, heq⟩ := Find_ok E heap2 battle _ _ hf
    exact ⟨le_refl _, fun p m hm => ⟨m, hm, sameCore_refl m, rfl⟩, Or.inl ⟨rfl, nn, hnn, heq⟩⟩
  · subst e1 e2
    obtain ⟨_, nn, hnn, heq⟩ := Find_ok E heap battle _ _ hf
    have hcell : ∀ (p : Nat) (m : Node B C), heap[p]? = some m →
        ∃ m' : Node B C, (heap.set node { n with NextNodes := n.NextNodes ++ [nextNode] })[p]?
          = some m' ∧ sameCore m m' ∧ m'.SelectCount = m.SelectCount ∧ m'.Battle = m.Battle := by
      intro p m hm
      rcases getElem?_set_cases heap node p { n with NextNodes := n.NextNodes ++ [nextNode] }
        hlt with ⟨rfl, hx⟩ | ⟨_, hx⟩
      · rw [hn] at hm
        cases hm
        exact ⟨_, hx, ⟨rfl, rfl, rfl, rfl, rfl⟩, rfl, rfl⟩
      · exact ⟨m, by rw [hx]; exact hm, sameCore_refl m, rfl, rfl⟩
    refine ⟨by simp, fun p m hm => ?_, Or.inl ⟨rfl, ?_⟩⟩
    · obtain ⟨m', h1, h2, h3, _⟩ := hcell p m hm
      exact ⟨m', h1, h2, h3⟩
    · obtain ⟨m', h1, _, _, h4⟩ := hcell nextNode nn hnn
      exact ⟨m', h1, by rw [h4]; exact heq⟩
  · subst e0 e1 e2
    refine ⟨by simp, fun p m hm => ?_, Or.inr ⟨rfl, rfl, ?_⟩⟩
    · have hpl : p < heap.length := (List.getElem?_eq_some_iff.1 hm).1
      by_cases hp : p = node
      · subst hp
        rw [hn] at hm
        cases hm
        exact ⟨_, List.getElem?_set_self (by simp; omega), ⟨rfl, rfl, rfl, rfl, rfl⟩, rfl⟩
      · refine ⟨m, ?_, sameCore_refl m, rfl⟩
        rw [List.getElem?_set_ne (Ne.symm hp), List.getElem?_append_left hpl]
        exact hm
    · rw [List.getElem?_set_ne (by omega)]
      simp

/-- What a pass of `Select` that goes on leaves, from any loop state. -/
theorem SelectStep_inl_shape (E : Engine B C R) (X : ℚ) (s s' : SelectState B C R)
    (h : SelectStep E X s = .inl s') :
    (∃ n, s.heap[s.node]? = some n ∧ n.IsAllExpansion = true) ∧
    E.IsGameEnd s'.battle = false ∧
    s.heap.length ≤ s'.heap.length ∧
    (∀ (p : Nat) (m : Node B C), s.heap[p]? = some m →
      ∃ m' : Node B C, s'.heap[p]? = some m' ∧ sameCore m m') ∧
    ((s'.allNodes = s.allNodes ∧ ∃ nn : Node B C, s'.heap[s'.node]? = some nn ∧
        E.Equal nn.Battle s'.battle = true) ∨
     (s'.allNodes = s.allNodes ++ [s'.node] ∧ s'.node = s.heap.length ∧
        s'.heap[s'.node]? = some (NewNodePointer E s'.battle))) := by
  obtain ⟨n, _, _, _, _, hn, hflag, _, _, _, hge, hres, _, _, _⟩ := SelectStep_inl E X s s' h
  have hlt : s.node < s.heap.length := (List.getElem?_eq_some_iff.1 hn).1
  obtain ⟨h1, h2, h3⟩ := resolveNextNode_shape E _ s'.heap s.node s'.node s'.battle s.allNodes
    s'.allNodes hres
  refine ⟨⟨n, hn, hflag⟩, hge, by simpa using h1, ?_, ?_⟩
  · intro p m hm
    rcases getElem?_set_cases s.heap s.node p { n with SelectCount := n.SelectCount + 1 } hlt
      with ⟨rfl, hx⟩ | ⟨_, hx⟩
    · rw [hn] at hm
      cases hm
      obtain ⟨m', hm', hcore, _⟩ := h2 _ _ hx
      exact ⟨m', hm', sameCore_trans ⟨rfl, rfl, rfl, rfl, rfl⟩ hcore⟩
    · obtain ⟨m', hm', hcore, _⟩ := h2 p m (by rw [hx]; exact hm)
      exact ⟨m', hm', hcore⟩
  · rcases h3 with h3 | ⟨h3, h4, h5⟩
    · exact Or.inl h3
    · exact Or.inr ⟨h3, by simpa using h4, h5⟩

end IterLemmas


section GrowthLemmas
variable {B C R : Type} [DecidableEq C]

/-- A cell that was overwritten with a copy differing in `SelectCount` keeps its core. -/
theorem sameCore_set_count (heap : Heap B C) (i : Nat) (n : Node B C) (k : Int)
    (hn : heap[i]? = some n) (p : Nat) (m : Node B C) (hm : heap[p]? = some m) :
    ∃ m' : Node B C, (heap.set i { n with SelectCount := k })[p]? = some m' ∧ sameCore m m' := by
  have hlt : i < heap.length := (List.getElem?_eq_some_iff.1 hn).1
  rcases getElem?_set_cases heap i p { n with SelectCount := k } hlt with ⟨rfl, hx⟩ | ⟨_, hx⟩
  · rw [hn] at hm
    cases hm
    exact ⟨_, hx, ⟨rfl, rfl, rfl, rfl, rfl⟩⟩
  · exact ⟨m, by rw [hx]; exact hm, sameCore_refl m⟩

/-- The registry and the heap along the loop of `Select`, from any entry
state: a node is created at most once, and the pass after its creation
returns it. -/
theorem SelectLoop_growth (E : Engine B C R) (X : ℚ) (heap0 : Heap B C) (allNodes0 : Nodes)
    (fuel : Nat) (s : SelectState B C R) (heap' : Heap B C) (random' : R)
    (ret : SelectReturn B C)
    (hs : s.heap = heap0 ∧ s.allNodes = allNodes0)
    (h : SelectLoop E X fuel s = some (heap', random', .ok ret)) :
    heap0.length ≤ heap'.length ∧
    (∀ (p : Nat) (m : Node B C), heap0[p]? = some m →
      ∃ m' : Node B C, heap'[p]? = some m' ∧ sameCore m m') ∧
    (ret.allNodes = allNodes0 ∨
      (ret.allNodes = allNodes0 ++ [ret.node] ∧ ret.isRoopSelect = false ∧
        heap0.length ≤ ret.node ∧ heap'[ret.node]? = some (NewNodePointer E ret.battle))) := by
  have key := SelectLoop_induct0 E X
    (fun s => heap0.length ≤ s.heap.length ∧
      (∀ (p : Nat) (m : Node B C), heap0[p]? = some m →
        ∃ m' : Node B C, s.heap[p]? = some m' ∧ sameCore m m') ∧
      (s.allNodes = allNodes0 ∨
        (s.allNodes = allNodes0 ++ [s.node] ∧ heap0.length ≤ s.node ∧
          s.heap[s.node]? = some (NewNodePointer E s.battle))))
    (fun r => ∀ (heap' : Heap B C) (random' : R) (ret : SelectReturn B C),
      r = (heap', random', .ok ret) →
      heap0.length ≤ heap'.length ∧
      (∀ (p : Nat) (m : Node B C), heap0[p]? = some m →
        ∃ m' : Node B C, heap'[p]? = some m' ∧ sameCore m m') ∧
      (ret.allNodes = allNodes0 ∨
        (ret.allNodes = allNodes0 ++ [ret.node] ∧ ret.isRoopSelect = false ∧
          heap0.length ≤ ret.node ∧ heap'[ret.node]? = some (NewNodePointer E ret.battle))))
    ?_ ?_ fuel s _ ?_ h heap' random' ret rfl
  · exact key
  · intro s s' hP hstep
    obtain ⟨hlen, hcore, hreg⟩ := hP
    obtain ⟨⟨n, hn, hflag⟩, _, hlen', hcore', hreg'⟩ := SelectStep_inl_shape E X s s' hstep
    have hsame : s.allNodes = allNodes0 := by
      rcases hreg with hreg | ⟨_, _, hcell⟩
      · exact hreg
      · rw [hn] at hcell
        cases hcell
        simp [NewNodePointer] at hflag
    refine ⟨le_trans hlen hlen', ?_, ?_⟩
    · intro p m hm
      obtain ⟨m1, hm1, hc1⟩ := hcore p m hm
      obtain ⟨m2, hm2, hc2⟩ := hcore' p m1 hm1
      exact ⟨m2, hm2, sameCore_trans hc1 hc2⟩
    · rcases hreg' with ⟨h1, _⟩ | ⟨h1, h2, h3⟩
      · exact Or.inl (h1.trans hsame)
      · exact Or.inr ⟨by rw [h1, hsame], by omega, h3⟩
  · intro s r hP hstep heap' random' ret hr
    subst hr
    obtain ⟨hlen, hcore, hreg⟩ := hP
    obtain ⟨n, hn, hcases⟩ := SelectStep_inr_ok E X s heap' random' ret hstep
    rcases hcases with ⟨_, rfl, _, rfl⟩ | ⟨hflag, cmds, c, random1, _, _, _, hnode, _, hrest⟩
    · refine ⟨hlen, hcore, ?_⟩
      rcases hreg with hreg | ⟨h1, h2, h3⟩
      · exact Or.inl hreg
      · exact Or.inr ⟨h1, rfl, h2, h3⟩
    · have hsame : s.allNodes = allNodes0 := by
        rcases hreg with hreg | ⟨_, _, hcell⟩
        · exact hreg
        · rw [hn] at hcell
          cases hcell
          simp [NewNodePointer] at hflag
      rcases hrest with ⟨_, _, hheap, hall⟩ | ⟨_, _, nextNode, next, hres, hnext, hcount⟩
      · subst hheap
        refine ⟨by simpa using hlen, ?_, Or.inl (hall.trans hsame)⟩
        intro p m hm
        obtain ⟨m1, hm1, hc1⟩ := hcore p m hm
        obtain ⟨m2, hm2, hc2⟩ := sameCore_set_count s.heap s.node n (n.SelectCount + 1) hn p m1 hm1
        exact ⟨m2, hm2, sameCore_trans hc1 hc2⟩
      · obtain ⟨h1, h2, h3⟩ := resolveNextNode_shape E _ heap' s.node nextNode ret.battle
          s.allNodes ret.allNodes hres
        refine ⟨le_trans hlen (by simpa using h1), ?_, ?_⟩
        · intro p m hm
          obtain ⟨m1, hm1, hc1⟩ := hcore p m hm
          obtain ⟨m2, hm2, hc2⟩ :=
            sameCore_set_count s.heap s.node n (n.SelectCount + 1) hn p m1 hm1
          obtain ⟨m3, hm3, hc3, _⟩ := h2 p m2 hm2
          exact ⟨m3, hm3, sameCore_trans hc1 (sameCore_trans hc2 hc3)⟩
        · rcases h3 with ⟨h3, _⟩ | ⟨_, _, h5⟩
          · exact Or.inl (h3.trans hsame)
          · rw [hnext] at h5
            cases h5
            simp [NewNodePointer] at hcount
  · exact ⟨by rw [hs.1], fun p m hm => ⟨m, by rw [hs.1]; exact hm, sameCore_refl m⟩,
      Or.inl hs.2⟩

end GrowthLemmas


section CellLemmas
variable {B C R : Type} [DecidableEq C]

/-- Every cell that lines 95-105 leave is a cell found, with its core fields,
or the new node. -/
theorem resolveNextNode_cells (E : Engine B C R) (heap heap2 : Heap B C) (node nextNode : Nat)
    (battle : B) (allNodes allNodes2 : Nodes)
    (h : resolveNextNode E heap node battle allNodes = .ok (heap2, allNodes2, nextNode)) :
    ∀ (p : Nat) (m' : Node B C), heap2[p]? = some m' →
      (∃ m : Node B C, heap[p]? = some m ∧ sameCore m m') ∨ m' = NewNodePointer E battle := by
  obtain ⟨n, hn, hcases⟩ := resolveNextNode_ok E heap heap2 node nextNode battle allNodes
    allNodes2 h
  have hlt : node < heap.length := (List.getElem?_eq_some_iff.1 hn).1
  intro p m' hm'
  rcases hcases with ⟨_, e1, _⟩ | ⟨_, _, e1, _⟩ | ⟨_, _, _, e1, _⟩
  · subst e1
    exact Or.inl ⟨m', hm', sameCore_refl m'⟩
  · subst e1
    rcases getElem?_set_cases heap node p { n with NextNodes := n.NextNodes ++ [nextNode] }
      hlt with ⟨rfl, hx⟩ | ⟨_, hx⟩
    · rw [hx] at hm'
      cases hm'
      exact Or.inl ⟨n, hn, ⟨rfl, rfl, rfl, rfl, rfl⟩⟩
    · rw [hx] at hm'
      exact Or.inl ⟨m', hm', sameCore_refl m'⟩
  · subst e1
    by_cases hp : p = node
    · subst hp
      rw [List.getElem?_set_self (by simp; omega)] at hm'
      cases hm'
      exact Or.inl ⟨n, hn, ⟨rfl, rfl, rfl, rfl, rfl⟩⟩
    · rw [List.getElem?_set_ne (Ne.symm hp)] at hm'
      by_cases hpl : p < heap.length
      · rw [List.getElem?_append_left hpl] at hm'
        exact Or.inl ⟨m', hm', sameCore_refl m'⟩
      · have hpl2 : p < (heap ++ [NewNodePointer E battle]).length :=
          (List.getElem?_eq_some_iff.1 hm').1
        have hpe : p = heap.length := by simp at hpl2; omega
        subst hpe
        simp at hm'
        exact Or.inr hm'.symm

/-- Every cell that a pass of `Select` which goes on leaves is a cell found,
with its core fields, or a new node. -/
theorem SelectStep_inl_cells (E : Engine B C R) (X : ℚ) (s s' : SelectState B C R)
    (h : SelectStep E X s = .inl s') :
    ∀ (p : Nat) (m' : Node B C), s'.heap[p]? = some m' →
      (∃ m : Node B C, s.heap[p]? = some m ∧ sameCore m m') ∨
        m' = NewNodePointer E s'.battle := by
  obtain ⟨n, _, _, _, _, hn, _, _, _, _, _, hres, _, _, _⟩ := SelectStep_inl E X s s' h
  have hlt : s.node < s.heap.length := (List.getElem?_eq_some_iff.1 hn).1
  intro p m' hm'
  rcases resolveNextNode_cells E _ s'.heap s.node s'.node s'.battle s.allNodes s'.allNodes hres
    p m' hm' with ⟨m, hm, hc⟩ | hnew
  · rcases getElem?_set_cases s.heap s.node p { n with SelectCount := n.SelectCount + 1 } hlt
      with ⟨rfl, hx⟩ | ⟨_, hx⟩
    · rw [hx] at hm
      cases hm
      exact Or.inl ⟨n, hn, sameCore_trans ⟨rfl, rfl, rfl, rfl, rfl⟩ hc⟩
    · rw [hx] at hm
      exact Or.inl ⟨m, hm, hc⟩
  · exact Or.inr hnew

/-- Along the loop of `Select`, with a reflexive `Equal`: every node keeps the
legal actions of its own state, and the current node's state is `Equal` to
the live state. -/
theorem SelectStep_inl_matches (E : Engine B C R) (X : ℚ) (s s' : SelectState B C R)
    (hrefl : ∀ b, E.Equal b b = true)
    (hP : (∀ (p : Nat) (m : Node B C), s.heap[p]? = some m →
        m.AvailableBattleCommands = legalActions E m.Battle) ∧
      ∃ n : Node B C, s.heap[s.node]? = some n ∧ E.Equal n.Battle s.battle = true)
    (h : SelectStep E X s = .inl s') :
    (∀ (p : Nat) (m : Node B C), s'.heap[p]? = some m →
        m.AvailableBattleCommands = legalActions E m.Battle) ∧
      ∃ n : Node B C, s'.heap[s'.node]? = some n ∧ E.Equal n.Battle s'.battle = true := by
  refine ⟨?_, ?_⟩
  · intro p m' hm'
    rcases SelectStep_inl_cells E X s s' h p m' hm' with ⟨m, hm, hc⟩ | hnew
    · rw [hc.1, hc.2.1]
      exact hP.1 p m hm
    · rw [hnew]
      rfl
  · obtain ⟨_, _, _, _, hreg⟩ := SelectStep_inl_shape E X s s' h
    rcases hreg with ⟨_, nn, h1, h2⟩ | ⟨_, _, h3⟩
    · exact ⟨nn, h1, h2⟩
    · exact ⟨_, h3, hrefl _⟩

end CellLemmas


section AbortLemmas
variable {B C R : Type} [DecidableEq C]

/-- A simulation is a selection followed by the evaluation phase and `Backward`. -/
theorem simulation_eq (E : Engine B C R) (eval : Eval B R) (fuel : Nat) (rootBattle : B) (X : ℚ)
    (heap : Heap B C) (allNodes : Nodes) (random : R) :
    simulation E eval fuel rootBattle X heap allNodes random =
      match Node.Select E fuel heap 0 rootBattle allNodes X random with
      | none => none
      | some (heap1, random1, .error e) => some (heap1, random1, .error e)
      | some (heap1, random1, .ok sel) =>
        match evaluatePhase E eval heap1 sel random1 with
        | (heap2, random2, .error e) => some (heap2, random2, .error e)
        | (heap2, random2, .ok (evalY, selects)) =>
          match Selects.Backward eval evalY selects heap2 with
          | .error e => some (heap2, random2, .error e)
          | .ok heap3 => some (heap3, random2, .ok sel.allNodes) := rfl

/-- Simulations run one after the other: `j + m` passes are `j` passes
followed by `m` passes from the state these leave. -/
theorem RunMCTSLoop_add (E : Engine B C R) (eval : Eval B R) (fuel : Nat) (rootBattle : B)
    (X : ℚ) (m : Nat) :
    ∀ (j : Nat) (heap : Heap B C) (allNodes : Nodes) (random : R) (r : RunResult B C R),
      RunMCTSLoop E eval fuel rootBattle X j heap allNodes random = some r → r.fault = none →
      RunMCTSLoop E eval fuel rootBattle X (j + m) heap allNodes random
        = RunMCTSLoop E eval fuel rootBattle X m r.heap r.allNodes r.random := by
  intro j
  induction j with
  | zero =>
    intro heap allNodes random r h _
    simp only [RunMCTSLoop, Option.some.injEq] at h
    subst h
    simp
  | succ j ih =>
    intro heap allNodes random r h hok
    have hjm : j + 1 + m = (j + m) + 1 := by omega
    rw [hjm]
    simp only [RunMCTSLoop] at h ⊢
    cases hs : simulation E eval fuel rootBattle X heap allNodes random with
    | none => rw [hs] at h; simp at h
    | some res =>
      obtain ⟨heap1, random1, out⟩ := res
      cases out with
      | error e =>
        rw [hs] at h
        simp only [Option.some.injEq] at h
        subst h
        simp at hok
      | ok allNodes1 =>
        rw [hs] at h
        simp only
        exact ih heap1 allNodes1 random1 r h hok

/-- A run that returns an error returns the empty registry. -/
theorem RunMCTSLoop_fault_nil (E : Engine B C R) (eval : Eval B R) (fuel : Nat) (rootBattle : B)
    (X : ℚ) :
    ∀ (n : Nat) (heap : Heap B C) (allNodes : Nodes) (random : R) (r : RunResult B C R),
      RunMCTSLoop E eval fuel rootBattle X n heap allNodes random = some r → r.fault ≠ none →
      r.allNodes = [] := by
  intro n
  induction n with
  | zero =>
    intro heap allNodes random r h hf
    simp only [RunMCTSLoop, Option.some.injEq] at h
    subst h
    simp at hf
  | succ n ih =>
    intro heap allNodes random r h hf
    simp only [RunMCTSLoop] at h
    cases hs : simulation E eval fuel rootBattle X heap allNodes random with
    | none => rw [hs] at h; simp at h
    | some res =>
      obtain ⟨heap1, random1, out⟩ := res
      cases out with
      | error e =>
        rw [hs] at h
        simp only [Option.some.injEq] at h
        subst h
        rfl
      | ok allNodes1 =>
        rw [hs] at h
        exact ih heap1 allNodes1 random1 r h hf

/-- A pass that returns, reached after `k` passes, is what the loop returns
with any fuel above `k`. -/
theorem SelectLoop_of_iter (E : Engine B C R) (X : ℚ)
    (r : Heap B C × R × Except Fault (SelectReturn B C)) :
    ∀ (k : Nat) (s0 s : SelectState B C R), SelectIter E X k s0 = some s →
      SelectStep E X s = .inr r → ∀ fuel, k < fuel → SelectLoop E X fuel s0 = some r := by
  intro k
  induction k with
  | zero =>
    intro s0 s h hs fuel hf
    simp only [SelectIter, Option.some.injEq] at h
    subst h
    obtain ⟨f, rfl⟩ : ∃ f, fuel = f + 1 := ⟨fuel - 1, by omega⟩
    simp [SelectLoop, hs]
  | succ k ih =>
    intro s0 s h hs fuel hf
    obtain ⟨f, rfl⟩ : ∃ f, fuel = f + 1 := ⟨fuel - 1, by omega⟩
    simp only [SelectIter] at h
    simp only [SelectLoop]
    cases h0 : SelectStep E X s0 with
    | inl s1 =>
      rw [h0] at h
      simp only
      exact ih s1 s h hs f (by omega)
    | inr r0 => rw [h0] at h; simp at h

end AbortLemmas


section RunContext
variable {B C R : Type} [DecidableEq C]

/-- The two ways the evaluation phase returns a value. -/
theorem evaluatePhase_ok_cases (E : Engine B C R) (eval : Eval B R) (heap1 heap2 : Heap B C)
    (sel : SelectReturn B C) (random1 random2 : R) (evalY : ℚ) (selects : Selects C)
    (h : evaluatePhase E eval heap1 sel random1 = (heap2, random2, .ok (evalY, selects))) :
    ((E.IsGameEnd sel.battle || sel.isRoopSelect) = true ∧ heap2 = heap1 ∧
      selects = sel.selects ∧ eval.Func sel.battle random1 = (.ok evalY, random2)) ∨
    ((E.IsGameEnd sel.battle || sel.isRoopSelect) = false ∧
      Node.ExpansionWithEvalY E eval heap1 sel.node sel.battle sel.selects random1
        = (heap2, random2, .ok (evalY, selects))) := by
  unfold evaluatePhase at h
  by_cases hcond : (E.IsGameEnd sel.battle || sel.isRoopSelect) = true
  · rw [if_pos hcond] at h
    rcases hev : eval.Func sel.battle random1 with ⟨res, random'⟩
    rw [hev] at h
    cases res with
    | error e => simp at h
    | ok v =>
      simp only [Prod.mk.injEq, Except.ok.injEq] at h
      obtain ⟨h1, h2, h3, h4⟩ := h
      subst h1 h2 h3 h4
      exact Or.inl ⟨hcond, rfl, rfl, rfl⟩
  · rw [if_neg hcond] at h
    exact Or.inr ⟨by simpa using hcond, h⟩

/-- The invariant before backpropagation, whichever way the evaluation went. -/
theorem MidInv_of_evaluatePhase (E : Engine B C R) (eval : Eval B R) (rootBattle : B) (k : Nat)
    (heap heap1 heap2 : Heap B C) (allNodes : Nodes) (fuel : Nat) (X : ℚ)
    (random random1 random2 : R) (sel : SelectReturn B C) (evalY : ℚ) (selects : Selects C)
    (inv : RunInv E rootBattle k heap allNodes)
    (hsel : Node.Select E fuel heap 0 rootBattle allNodes X random
      = some (heap1, random1, .ok sel))
    (hev : evaluatePhase E eval heap1 sel random1 = (heap2, random2, .ok (evalY, selects))) :
    MidInv E rootBattle k heap2 sel.allNodes selects := by
  rcases evaluatePhase_ok_cases E eval heap1 heap2 sel random1 random2 evalY selects hev with
    ⟨hcond, rfl, rfl, _⟩ | ⟨hcond, hex⟩
  · exact MidInv_direct E rootBattle k heap heap2 allNodes fuel X random random1 sel inv hsel hcond
  · exact MidInv_expansion E eval rootBattle k heap heap1 heap2 allNodes fuel X random random1
      random2 sel evalY selects inv hsel hcond hex

/-- At the top of every pass of a selection that starts between two
simulations, the loop invariant holds and every registry node is a cell whose
statistics fit its legal actions. -/
theorem SelectIter_from_RunInv (E : Engine B C R) (rootBattle : B) (j : Nat) (heap : Heap B C)
    (allNodes : Nodes) (X : ℚ) (random : R) (k : Nat) (s : SelectState B C R)
    (inv : RunInv E rootBattle j heap allNodes)
    (h : SelectIter E X k ⟨heap, 0, rootBattle, allNodes, [], random⟩ = some s) :
    SelInv allNodes 0 rootBattle s ∧
    ∀ p ∈ s.allNodes, ∃ n : Node B C, s.heap[p]? = some n ∧ NodeOK E (fun _ => False) n := by
  have sinv0 := RunInv_SelInv E rootBattle j heap allNodes random inv
  have sinv := SelectIter_SelInv E X allNodes 0 rootBattle k _ s sinv0 h
  have hfr := SelectIter_Frame E X heap allNodes 0 rootBattle k _ s sinv0
    (Frame_refl E heap allNodes) h
  refine ⟨sinv, ?_⟩
  intro p hp
  by_cases hp0 : p ∈ allNodes
  · obtain ⟨n0, hn0⟩ : ∃ n0, heap[p]? = some n0 :=
      ⟨_, List.getElem?_eq_getElem (inv.valid p hp0)⟩
    obtain ⟨n, hn, hc⟩ := hfr.1 p hp0 n0 hn0
    exact ⟨n, hn, NodeOK_of_sameCore E _ n0 n hc (inv.nodeOK p hp0 n0 hn0)⟩
  · obtain ⟨b, hb⟩ := hfr.2 p hp hp0
    exact ⟨_, hb, NodeOK_new E _ b⟩

end RunContext


section UCBErrors
variable {B C R : Type} [DecidableEq C]

theorem Average_ok (p : UCBParam) (h : p.SimuNum ≠ 0) :
    p.Average = .ok (p.TotalValue / (p.SimuNum : ℚ)) := by
  simp [UCBParam.Average, h]

/-- When every entry has been visited, an error of the loop of `UCBs` is an
error returned by `UpperConfidenceBound1`. -/
theorem UCBsLoop_error (E : Engine B C R) (N : Int) (X : ℚ) (f : Fault) :
    ∀ (m : NextNodeParam C), (∀ e ∈ m, e.2.SimuNum ≠ 0) →
      NextNodeParam.UCBsLoop E N X m = .error f →
      ∃ e ∈ m, ∃ msg,
        E.UpperConfidenceBound1 (e.2.TotalValue / (e.2.SimuNum : ℚ)) N e.2.SimuNum X
          = .error msg ∧ f = .err msg := by
  intro m
  induction m with
  | nil => intro _ h; simp [NextNodeParam.UCBsLoop] at h
  | cons e rest ih =>
    obtain ⟨c, p⟩ := e
    intro hv h
    have hp : p.SimuNum ≠ 0 := hv (c, p) (List.mem_cons_self _ _)
    simp only [NextNodeParam.UCBsLoop, Average_ok p hp] at h
    cases hu : E.UpperConfidenceBound1 (p.TotalValue / (p.SimuNum : ℚ)) N p.SimuNum X with
    | error msg =>
      rw [hu] at h
      simp only [Except.error.injEq] at h
      exact ⟨(c, p), List.mem_cons_self _ _, msg, hu, h.symm⟩
    | ok u =>
      rw [hu] at h
      simp only at h
      cases hr : NextNodeParam.UCBsLoop E N X rest with
      | error g =>
        rw [hr] at h
        simp only [Except.error.injEq] at h
        subst h
        obtain ⟨e, he, msg, h1, h2⟩ := ih (fun e he => hv e (List.mem_cons_of_mem _ he)) hr
        exact ⟨e, List.mem_cons_of_mem _ he, msg, h1, h2⟩
      | ok res => rw [hr] at h; simp at h

/-- On a non-empty map whose entries have all been visited, `MaxUCB` does not panic. -/
theorem MaxUCB_no_panic (E : Engine B C R) (m : NextNodeParam C) (X : ℚ) (hne : m ≠ [])
    (hv : ∀ e ∈ m, e.2.SimuNum ≠ 0) (msg : String) :
    NextNodeParam.MaxUCB E m X ≠ .error (.panic msg) := by
  intro hM
  cases hu : NextNodeParam.UCBs E m X with
  | error f =>
    rw [MaxUCB_error_of_UCBs_error E m X f hu] at hM
    obtain ⟨_, _, msg', _, h2⟩ := UCBsLoop_error E _ X f m hv hu
    rw [h2] at hM
    simp at hM
  | ok ucbs =>
    obtain ⟨M, h1, _⟩ := MaxUCB_spec E m X ucbs hne hu
    rw [h1] at hM
    simp at hM

end UCBErrors


section Untried
variable {B C R : Type} [DecidableEq C]

/-- A node that is not fully expanded, whose list of legal actions is
non-empty and without repetition, has an untried legal action, and
`NewNoExpansionBattleCommands` returns the non-empty list of these. -/
theorem NodeOK_untried (E : Engine B C R) (n : Node B C) (ok : NodeOK E (fun _ => False) n)
    (hflag : n.IsAllExpansion = false) (hne : n.AvailableBattleCommands ≠ [])
    (hnd : n.AvailableBattleCommands.Nodup) :
    ∃ cmds, n.NewNoExpansionBattleCommands = .ok cmds ∧ cmds ≠ [] ∧
      ∀ c ∈ cmds, c ∈ n.AvailableBattleCommands ∧ NextNodeParam.get n.NextNodeParam c = none := by
  have hlen : n.NextNodeParam.length ≤ n.AvailableBattleCommands.length := by
    have := (List.subperm_of_subset ok.keys_nodup ok.keys_legal).length_le
    simpa using this
  refine ⟨n.AvailableBattleCommands.filter
      (fun battleCommand => (NextNodeParam.get n.NextNodeParam battleCommand).isNone),
    by simp [Node.NewNoExpansionBattleCommands, not_lt.2 hlen], ?_, ?_⟩
  · intro hnil
    have hall : ∀ c ∈ n.AvailableBattleCommands, c ∈ n.NextNodeParam.map Prod.fst := by
      intro c hc
      by_contra hnot
      have hget := (NextNodeParam.get_eq_none_iff n.NextNodeParam c).2 hnot
      have hmem : c ∈ n.AvailableBattleCommands.filter
          (fun battleCommand => (NextNodeParam.get n.NextNodeParam battleCommand).isNone) :=
        List.mem_filter.2 ⟨hc, by simp [hget]⟩
      rw [hnil] at hmem
      simp at hmem
    have hge : n.AvailableBattleCommands.length ≤ n.NextNodeParam.length := by
      have := (List.subperm_of_subset hnd hall).length_le
      simpa using this
    have heq : n.NextNodeParam.length = n.AvailableBattleCommands.length := le_antisymm hlen hge
    have hstat : n.NextNodeParam ≠ [] := by
      intro h0
      rw [h0] at heq
      exact hne (List.length_eq_zero.1 heq.symm)
    have := ok.flag.2 ⟨hstat, heq⟩
    rw [hflag] at this
    cases this
  · intro c hc
    obtain ⟨h1, h2⟩ := List.mem_filter.1 hc
    refine ⟨h1, ?_⟩
    cases hg : NextNodeParam.get n.NextNodeParam c with
    | none => rfl
    | some p => rw [hg] at h2; simp at h2

end Untried

section Actionable
variable {B C R : Type} [DecidableEq C]

/-- When `Select`, called on the state a successful `RunMCTS`
left, returns values, the returned node is a cell that stores the legal
actions of its own state. If the cycle flag is true the node is fully
expanded and the live state is not terminal. If the live state is not
terminal and the cycle flag is false the node is not fully expanded, so the
guard of `ExpansionWithEvalY` is not taken; and if moreover the node's list
of legal actions is non-empty and without repetition, at least one legal
action has no statistics entry: `NewNoExpansionBattleCommands` returns a
non-empty list of such actions and `RandomChoice` picks one. -/
theorem Select_returns_actionable_node (E : Engine B C R) (eval : Eval B R) (fuel : Nat)
    (rootBattle : B) (simuNum : Int) (X : ℚ) (random : R) (r : RunResult B C R)
    (fuel1 : Nat) (heap1 : Heap B C) (random1 : R) (ret : SelectReturn B C)
    (h : RunMCTS E eval fuel rootBattle simuNum X random = some r) (hok : r.fault = none)
    (hsel : Node.Select E fuel1 r.heap 0 rootBattle r.allNodes X r.random
      = some (heap1, random1, .ok ret)) :
    ∃ n : Node B C, heap1[ret.node]? = some n ∧
      n.AvailableBattleCommands = legalActions E n.Battle ∧
      (ret.isRoopSelect = true → n.IsAllExpansion = true ∧ E.IsGameEnd ret.battle = false) ∧
      (E.IsGameEnd ret.battle = false → ret.isRoopSelect = false →
        n.IsAllExpansion = false ∧
        (legalActions E n.Battle ≠ [] → (legalActions E n.Battle).Nodup →
          ∃ cmds, n.NewNoExpansionBattleCommands = .ok cmds ∧ cmds ≠ [] ∧
            (∀ c ∈ cmds, c ∈ legalActions E n.Battle ∧
              NextNodeParam.get n.NextNodeParam c = none) ∧
            ∃ c random2, RandomChoice E cmds random1 = .ok (c, random2) ∧ c ∈ cmds)) := by
  have inv := RunMCTS_RunInv E eval fuel rootBattle simuNum X random r h hok
  obtain ⟨post, hall, _⟩ := Select_from_RunInv E rootBattle _ r.heap heap1 r.allNodes fuel1 X
    r.random random1 ret inv hsel
  obtain ⟨n, hn⟩ : ∃ n : Node B C, heap1[ret.node]? = some n :=
    ⟨_, List.getElem?_eq_getElem (post.valid ret.node post.node_mem)⟩
  have ok := hall ret.node post.node_mem n hn
  have hmade : n.AvailableBattleCommands = legalActions E n.Battle := ok.made.1
  refine ⟨n, hn, hmade, ?_, ?_⟩
  · intro hroop
    obtain ⟨hge, n', hn', hf⟩ := post.roop hroop
    rw [hn] at hn'
    cases hn'
    exact ⟨hf, hge⟩
  · intro hge hroop
    obtain ⟨_, n', hn', hf⟩ := post.expand hroop hge
    rw [hn] at hn'
    cases hn'
    refine ⟨hf, ?_⟩
    intro hne hnd
    rw [← hmade] at hne hnd
    obtain ⟨cmds, h1, h2, h3⟩ := NodeOK_untried E n ok hf hne hnd
    obtain ⟨c, random2, hc⟩ := RandomChoice_ok E cmds random1 h2
    refine ⟨cmds, h1, h2, ?_, c, random2, hc, RandomChoice_mem E cmds random1 random2 c hc⟩
    intro c hc
    rw [← hmade]
    exact h3 c hc

end Actionable


section RootLemmas
variable {B C R : Type} [DecidableEq C]

theorem NextNodeParam.set_set (m : NextNodeParam C) (c : C) (q p : UCBParam) :
    NextNodeParam.set (NextNodeParam.set m c q) c p = NextNodeParam.set m c p := by
  induction m with
  | nil => simp [NextNodeParam.set]
  | cons e rest ih =>
    obtain ⟨d, u⟩ := e
    by_cases hd : d = c
    · simp [NextNodeParam.set, hd]
    · simp [NextNodeParam.set, hd, ih]

/-- Entered at a node that is not fully expanded, `Select` returns at once. -/
theorem Select_unflagged (E : Engine B C R) (X : ℚ) (fuel : Nat) (heap : Heap B C) (node : Nat)
    (battle : B) (allNodes : Nodes) (random : R) (n : Node B C)
    (r : Heap B C × R × Except Fault (SelectReturn B C))
    (hn : heap[node]? = some n) (hflag : n.IsAllExpansion = false)
    (h : Node.Select E fuel heap node battle allNodes X random = some r) :
    r = (heap, random, .ok ⟨node, battle, allNodes, [], false⟩) := by
  cases fuel with
  | zero => simp [Node.Select, SelectLoop] at h
  | succ f =>
    have hs : SelectStep E X ⟨heap, node, battle, allNodes, [], random⟩
        = .inr (heap, random, .ok ⟨node, battle, allNodes, [], false⟩) := by
      simp [SelectStep, hn, hflag]
    simp only [Node.Select, SelectLoop, hs, Option.some.injEq] at h
    exact h.symm

/-- One more simulation from a root with fewer entries than listed legal
actions adds one entry to the root. -/
theorem simulation_RootFresh (E : Engine B C R) (eval : Eval B R) (fuel : Nat) (rootBattle : B)
    (X : ℚ) (j : Nat) (heap heap' : Heap B C) (allNodes allNodes' : Nodes) (random random' : R)
    (hend : E.IsGameEnd rootBattle = false)
    (hj : j < (legalActions E rootBattle).length)
    (inv : RootFresh E eval rootBattle j heap allNodes)
    (h : simulation E eval fuel rootBattle X heap allNodes random
      = some (heap', random', .ok allNodes')) :
    RootFresh E eval rootBattle (j + 1) heap' allNodes' := by
  obtain ⟨hall, n, hn, hbattle, havail, hside, hlen, hnd, hlegal, hentries, hflag⟩ := inv
  have hunflag : n.IsAllExpansion = false := by
    cases hf : n.IsAllExpansion with
    | false => rfl
    | true => have := hflag.1 hf; omega
  obtain ⟨heap1, random1, sel, heap2, evalY, selects, hsel, hphase, hback, hall'⟩ :=
    simulation_ok_inv E eval fuel rootBattle X heap heap' allNodes allNodes' random random' h
  have hr := Select_unflagged E X fuel heap 0 rootBattle allNodes random n _ hn hunflag hsel
  simp only [Prod.mk.injEq, Except.ok.injEq] at hr
  obtain ⟨rfl, rfl, rfl⟩ := hr
  simp only [hend, Bool.or_false] at hphase
  rcases hphase with ⟨hc, _⟩ | ⟨_, hex⟩
  · cases hc
  obtain ⟨n', cmds, c, ra, battle1, rb, hn', _, hcmds, hch, hrun, hev, hheap2, hselects⟩ :=
    Expansion_ok_inv E eval heap1 heap2 0 rootBattle [] selects random1 random' evalY hex
  rw [hn] at hn'
  cases hn'
  have hlt : 0 < heap1.length := (List.getElem?_eq_some_iff.1 hn).1
  have hcmem := RandomChoice_mem E cmds random1 ra c hch
  rw [(NewNoExpansionBattleCommands_ok n cmds hcmds).2] at hcmem
  obtain ⟨hcavail, hcnone⟩ := List.mem_filter.1 hcmem
  have hget : NextNodeParam.get n.NextNodeParam c = none := by
    cases hg : NextNodeParam.get n.NextNodeParam c with
    | none => rfl
    | some p => rw [hg] at hcnone; simp at hcnone
  have hnotin := (NextNodeParam.get_eq_none_iff n.NextNodeParam c).1 hget
  have h2 : heap2[0]? = some (expandedNode n c) := by
    rw [hheap2]
    exact List.getElem?_set_self hlt
  have hget2 : NextNodeParam.get (expandedNode n c).NextNodeParam c = some ⟨0, 0⟩ :=
    NextNodeParam.get_set_same _ _ _
  have hnd1 : (List.map Select.Node [Select.mk 0 c]).Nodup := by simp
  have hpath : ∀ s ∈ [Select.mk 0 c], ∃ (m : Node B C) (p : UCBParam), heap2[s.Node]? = some m ∧
      NextNodeParam.get m.NextNodeParam s.BattleCommand = some p := by
    intro s hs
    rw [List.mem_singleton] at hs
    subst hs
    exact ⟨_, _, h2, hget2⟩
  rw [hselects] at hback
  obtain ⟨heap3, hb, hspec⟩ := Backward_spec eval evalY [Select.mk 0 c] heap2 hnd1 hpath
  simp only [List.nil_append] at hback
  rw [hb] at hback
  cases hback
  have h3 := hspec (Select.mk 0 c) (List.mem_singleton.2 rfl) _ _ h2 hget2
  have hstats : NextNodeParam.set (expandedNode n c).NextNodeParam c
      ⟨0 + (if (expandedNode n c).IsP1Node then evalY else eval.ReverseFunc evalY), 0 + 1⟩
      = n.NextNodeParam ++
        [(c, ⟨if E.IsP1Phase rootBattle then evalY else eval.ReverseFunc evalY, 1⟩)] := by
    show NextNodeParam.set (NextNodeParam.set n.NextNodeParam c ⟨0, 0⟩) c _ = _
    rw [NextNodeParam.set_set, NextNodeParam.set_of_get_none _ _ _ hget]
    have hs : (expandedNode n c).IsP1Node = E.IsP1Phase rootBattle := hside
    rw [hs]
    simp
  refine ⟨by rw [hall']; exact hall, _, h3, hbattle, havail, hside, ?_, ?_, ?_, ?_, ?_⟩
  · show (NextNodeParam.set (expandedNode n c).NextNodeParam c _).length = j + 1
    rw [hstats]
    simp [hlen]
  · show ((NextNodeParam.set (expandedNode n c).NextNodeParam c _).map Prod.fst).Nodup
    rw [hstats, List.map_append, List.nodup_append]
    refine ⟨hnd, by simp, ?_⟩
    intro a ha hb'
    simp only [List.map_cons, List.map_nil, List.mem_singleton] at hb'
    subst hb'
    exact hnotin ha
  · show ∀ d ∈ (NextNodeParam.set (expandedNode n c).NextNodeParam c _).map Prod.fst, _
    rw [hstats]
    intro d hd
    rw [List.map_append, List.mem_append] at hd
    rcases hd with hd | hd
    · exact hlegal d hd
    · simp only [List.map_cons, List.map_nil, List.mem_singleton] at hd
      subst hd
      rw [← havail]
      exact hcavail
  · show ∀ e ∈ NextNodeParam.set (expandedNode n c).NextNodeParam c _, _
    rw [hstats]
    intro e he
    rw [List.mem_append] at he
    rcases he with he | he
    · exact hentries e he
    · rw [List.mem_singleton] at he
      subst he
      exact ⟨rfl, ra, battle1, rb, evalY, random', hrun, hev, rfl⟩
  · show (expandedNode n c).IsAllExpansion = true ↔ _
    have hl : (NextNodeParam.set n.NextNodeParam c ⟨0, 0⟩).length = j + 1 := by
      rw [NextNodeParam.set_of_get_none _ _ _ hget]
      simp [hlen]
    simp only [expandedNode, hl, havail, hunflag]
    by_cases hjk : j + 1 = (legalActions E rootBattle).length
    · simp [hjk]
    · simp [hjk]

/-- The loop of `RunMCTS`, while the root has untried listed actions. -/
theorem RunMCTSLoop_RootFresh (E : Engine B C R) (eval : Eval B R) (fuel : Nat) (rootBattle : B)
    (X : ℚ) (hend : E.IsGameEnd rootBattle = false) :
    ∀ (m j : Nat) (heap : Heap B C) (allNodes : Nodes) (random : R) (r : RunResult B C R),
      j + m ≤ (legalActions E rootBattle).length →
      RootFresh E eval rootBattle j heap allNodes →
      RunMCTSLoop E eval fuel rootBattle X m heap allNodes random = some r → r.fault = none →
      RootFresh E eval rootBattle (j + m) r.heap r.allNodes := by
  intro m
  induction m with
  | zero =>
    intro j heap allNodes random r _ inv h _
    simp only [RunMCTSLoop, Option.some.injEq] at h
    subst h
    exact inv
  | succ m ih =>
    intro j heap allNodes random r hjm inv h hok
    simp only [RunMCTSLoop] at h
    cases hs : simulation E eval fuel rootBattle X heap allNodes random with
    | none => rw [hs] at h; simp at h
    | some res =>
      obtain ⟨heap1, random1, out⟩ := res
      cases out with
      | error e =>
        rw [hs] at h
        simp only [Option.some.injEq] at h
        subst h
        simp at hok
      | ok allNodes1 =>
        rw [hs] at h
        have inv1 := simulation_RootFresh E eval fuel rootBattle X j heap heap1 allNodes
          allNodes1 random random1 hend (by omega) inv hs
        have := ih (j + 1) heap1 allNodes1 random1 r (by omega) inv1 h hok
        have he : j + (m + 1) = j + 1 + m := by omega
        rw [he]
        exact this

theorem RootFresh_init (E : Engine B C R) (eval : Eval B R) (rootBattle : B)
    (hk : 1 ≤ (legalActions E rootBattle).length) :
    RootFresh E eval rootBattle 0 [NewNodePointer E rootBattle] [0] := by
  refine ⟨rfl, NewNodePointer E rootBattle, rfl, rfl, rfl, rfl, rfl, ?_, ?_, ?_, ?_⟩
  · simp [NewNodePointer]
  · simp [NewNodePointer]
  · simp [NewNodePointer]
  · simp only [NewNodePointer]
    constructor
    · intro hf; cases hf
    · intro h0; omega

end RootLemmas


section MaxSel
variable {B C R : Type} [DecidableEq C]

/-- Every action that `NewMaxUCBBattleCommands` returns has the largest score. -/
theorem NewMaxUCBBattleCommands_isMax (E : Engine B C R) (m : NextNodeParam C) (X : ℚ)
    (L : List C) (hnd : (m.map Prod.fst).Nodup)
    (h : NextNodeParam.NewMaxUCBBattleCommands E m X = .ok L) (c : C) (hc : c ∈ L) :
    IsMaxUCB E X m c := by
  have hkey := NewMaxUCBBattleCommands_mem E m X L h c hc
  have hne : m ≠ [] := by
    intro h0
    rw [h0] at hkey
    simp at hkey
  unfold NextNodeParam.NewMaxUCBBattleCommands at h
  cases hM : NextNodeParam.MaxUCB E m X with
  | error e => simp [hM] at h
  | ok M =>
    simp only [hM] at h
    cases hu : NextNodeParam.UCBs E m X with
    | error e => simp [hu] at h
    | ok ucbs =>
      simp only [hu, Except.ok.injEq] at h
      subst h
      have hkeys := UCBs_keys E m X ucbs hu
      have hnd' : (ucbs.map Prod.fst).Nodup := hkeys ▸ hnd
      obtain ⟨M', hM', _, hle⟩ := MaxUCB_spec E m X ucbs hne hu
      rw [hM] at hM'
      cases hM'
      obtain ⟨⟨c', u⟩, he, rfl⟩ := List.mem_map.1 hc
      obtain ⟨he1, he2⟩ := List.mem_filter.1 he
      refine ⟨ucbs, M, hu, hM, hkey, ?_, hle⟩
      rw [ucbsGet_of_mem ucbs c' u hnd' he1]
      simpa using he2

/-- A pass of `Select` that returns values keeps the core fields of every cell. -/
theorem SelectStep_inr_shape (E : Engine B C R) (X : ℚ) (s : SelectState B C R)
    (heap' : Heap B C) (random' : R) (ret : SelectReturn B C)
    (h : SelectStep E X s = .inr (heap', random', .ok ret)) :
    ∀ (p : Nat) (m : Node B C), s.heap[p]? = some m →
      ∃ m' : Node B C, heap'[p]? = some m' ∧ sameCore m m' := by
  obtain ⟨n, hn, hcases⟩ := SelectStep_inr_ok E X s heap' random' ret h
  intro p m hm
  rcases hcases with ⟨_, rfl, _, _⟩ | ⟨_, _, _, _, _, _, _, _, _, hrest⟩
  · exact ⟨m, hm, sameCore_refl m⟩
  · rcases hrest with ⟨_, _, hheap, _⟩ | ⟨_, _, nextNode, next, hres, _, _⟩
    · subst hheap
      exact sameCore_set_count s.heap s.node n (n.SelectCount + 1) hn p m hm
    · obtain ⟨m1, hm1, hc1⟩ := sameCore_set_count s.heap s.node n (n.SelectCount + 1) hn p m hm
      obtain ⟨_, h2, _⟩ := resolveNextNode_shape E _ heap' s.node nextNode ret.battle
        s.allNodes ret.allNodes hres
      obtain ⟨m2, hm2, hc2, _⟩ := h2 p m1 hm1
      exact ⟨m2, hm2, sameCore_trans hc1 hc2⟩

/-- Every pair on the path `Select` returns holds a fully expanded node and an
action with the largest UCB1 score at that node. -/
theorem Select_path_isMax (E : Engine B C R) (X : ℚ) (fuel : Nat) (heap heap' : Heap B C)
    (node : Nat) (battle : B) (allNodes : Nodes) (random random' : R) (ret : SelectReturn B C)
    (hnd : ∀ (p : Nat) (n : Node B C), heap[p]? = some n → (n.NextNodeParam.map Prod.fst).Nodup)
    (h : Node.Select E fuel heap node battle allNodes X random = some (heap', random', .ok ret)) :
    ∀ sel ∈ ret.selects, ∃ n : Node B C, heap'[sel.Node]? = some n ∧
      n.IsAllExpansion = true ∧ IsMaxUCB E X n.NextNodeParam sel.BattleCommand := by
  have key := SelectLoop_induct0 E X
    (fun s => (∀ (p : Nat) (n : Node B C), s.heap[p]? = some n →
        (n.NextNodeParam.map Prod.fst).Nodup) ∧
      ∀ sel ∈ s.selects, ∃ n : Node B C, s.heap[sel.Node]? = some n ∧
        n.IsAllExpansion = true ∧ IsMaxUCB E X n.NextNodeParam sel.BattleCommand)
    (fun r => ∀ (heap' : Heap B C) (random' : R) (ret : SelectReturn B C),
      r = (heap', random', .ok ret) →
      ∀ sel ∈ ret.selects, ∃ n : Node B C, heap'[sel.Node]? = some n ∧
        n.IsAllExpansion = true ∧ IsMaxUCB E X n.NextNodeParam sel.BattleCommand)
    ?_ ?_ fuel ⟨heap, node, battle, allNodes, [], random⟩ _ ⟨hnd, by simp⟩ h heap' random' ret
    rfl
  · exact key
  · intro s s' hP hs
    obtain ⟨hcells, hpath⟩ := hP
    obtain ⟨_, _, _, hcore, _⟩ := SelectStep_inl_shape E X s s' hs
    obtain ⟨n, cmds, c, random1, next, hn, hflag, hcmds, hch, _, _, _, _, _, hsel⟩ :=
      SelectStep_inl E X s s' hs
    refine ⟨?_, ?_⟩
    · intro p m' hm'
      rcases SelectStep_inl_cells E X s s' hs p m' hm' with ⟨m, hm, hc⟩ | hnew
      · rw [hc.2.2.1]
        exact hcells p m hm
      · rw [hnew]
        simp [NewNodePointer]
    · intro sel hmem
      rw [hsel, List.mem_append] at hmem
      rcases hmem with hmem | hmem
      · obtain ⟨m, hm, hf, hmax⟩ := hpath sel hmem
        obtain ⟨m', hm', hc⟩ := hcore sel.Node m hm
        exact ⟨m', hm', by rw [hc.2.2.2.1]; exact hf, by rw [hc.2.2.1]; exact hmax⟩
      · rw [List.mem_singleton] at hmem
        subst hmem
        obtain ⟨m', hm', hc⟩ := hcore s.node n hn
        refine ⟨m', hm', by rw [hc.2.2.2.1]; exact hflag, ?_⟩
        rw [hc.2.2.1]
        exact NewMaxUCBBattleCommands_isMax E n.NextNodeParam X cmds (hcells s.node n hn) hcmds c
          (RandomChoice_mem E cmds s.random random1 c hch)
  · intro s r hP hs heap' random' ret hr
    subst hr
    obtain ⟨hcells, hpath⟩ := hP
    have hcore := SelectStep_inr_shape E X s heap' random' ret hs
    obtain ⟨n, hn, hcases⟩ := SelectStep_inr_ok E X s heap' random' ret hs
    intro sel hmem
    have hold : ∀ sel ∈ s.selects, ∃ n : Node B C, heap'[sel.Node]? = some n ∧
        n.IsAllExpansion = true ∧ IsMaxUCB E X n.NextNodeParam sel.BattleCommand := by
      intro sel hmem
      obtain ⟨m, hm, hf, hmax⟩ := hpath sel hmem
      obtain ⟨m', hm', hc⟩ := hcore sel.Node m hm
      exact ⟨m', hm', by rw [hc.2.2.2.1]; exact hf, by rw [hc.2.2.1]; exact hmax⟩
    rcases hcases with ⟨_, _, _, hret⟩ | ⟨hflag, cmds, c, random1, hcmds, hch, _, _, hsel, _⟩
    · rw [hret] at hmem
      exact hold sel hmem
    · rw [hsel, List.mem_append] at hmem
      rcases hmem with hmem | hmem
      · exact hold sel hmem
      · rw [List.mem_singleton] at hmem
        subst hmem
        obtain ⟨m', hm', hc⟩ := hcore s.node n hn
        refine ⟨m', hm', by rw [hc.2.2.2.1]; exact hflag, ?_⟩
        rw [hc.2.2.1]
        exact NewMaxUCBBattleCommands_isMax E n.NextNodeParam X cmds (hcells s.node n hn) hcmds c
          (RandomChoice_mem E cmds s.random random1 c hch)

end MaxSel


/-- C10. `UCBParam.Average` returns an error exactly when the visit count is 0;
otherwise it returns `TotalValue / SimuNum` and no error. -/
theorem C10_Average_error_iff_zero_visits (ucbParam : UCBParam) :
    ((∃ e, ucbParam.Average = .error e) ↔ ucbParam.SimuNum = 0) ∧
    (ucbParam.SimuNum ≠ 0 →
      ucbParam.Average = .ok (ucbParam.TotalValue / (ucbParam.SimuNum : ℚ))) := by
  unfold UCBParam.Average
  by_cases h : ucbParam.SimuNum = 0
  · simp [h]
  · simp [h]

theorem C10_Average_witness :
    (⟨3, 2⟩ : UCBParam).SimuNum ≠ 0 ∧
      (⟨3, 2⟩ : UCBParam).Average = .ok ((3 : ℚ) / ((2 : Int) : ℚ)) :=
  ⟨by decide, (C10_Average_error_iff_zero_visits ⟨3, 2⟩).2 (by decide)⟩


section C4
variable {B C R : Type} [DecidableEq C]

/-- C4. Backpropagation along a path of pairwise distinct nodes whose pairs all
have a statistics entry returns normally; each listed entry gets visit count
`+ 1` and total value `+ evalY` (first-party node) or `+ ReverseFunc evalY`
(second-party node); no node gains or loses a key and every entry that is not
listed keeps its value; and a second-party node ends with the statistics a
first-party node with the same prior statistics gets from `ReverseFunc evalY`. -/
theorem C4_Backward_postcondition (eval : Eval B R) (evalY : ℚ) (selects : Selects C)
    (heap : Heap B C)
    (hdistinct : (selects.map Select.Node).Nodup)
    (hentry : ∀ s ∈ selects, ∃ n p, heap[s.Node]? = some n ∧
      NextNodeParam.get n.NextNodeParam s.BattleCommand = some p) :
    ∃ heap', Selects.Backward eval evalY selects heap = .ok heap' ∧
      (∀ s ∈ selects, ∀ n p, heap[s.Node]? = some n →
        NextNodeParam.get n.NextNodeParam s.BattleCommand = some p →
        ∃ n', heap'[s.Node]? = some n' ∧
          NextNodeParam.get n'.NextNodeParam s.BattleCommand = some
            ⟨p.TotalValue + (if n.IsP1Node then evalY else eval.ReverseFunc evalY),
              p.SimuNum + 1⟩) ∧
      (∀ i n, heap[i]? = some n →
        ∃ n', heap'[i]? = some n' ∧
          n'.NextNodeParam.map Prod.fst = n.NextNodeParam.map Prod.fst ∧
          ∀ c, (⟨i, c⟩ : Select C) ∉ selects →
            NextNodeParam.get n'.NextNodeParam c = NextNodeParam.get n.NextNodeParam c) ∧
      (∀ s ∈ selects, ∀ n, heap[s.Node]? = some n → n.IsP1Node = false →
        ∀ (heap2 : Heap B C) (s2 : Select C) (n2 : Node B C), heap2[s2.Node]? = some n2 →
          n2.IsP1Node = true → n2.NextNodeParam = n.NextNodeParam →
          s2.BattleCommand = s.BattleCommand →
          ∃ n' heap2' n2', heap'[s.Node]? = some n' ∧
            Selects.Backward eval (eval.ReverseFunc evalY) [s2] heap2 = .ok heap2' ∧
            heap2'[s2.Node]? = some n2' ∧ n'.NextNodeParam = n2'.NextNodeParam) := by
  obtain ⟨heap', hb, hpost⟩ := Backward_spec eval evalY selects heap hdistinct hentry
  refine ⟨heap', hb, ?_, ?_, ?_⟩
  · intro s hs n p hn hp
    refine ⟨_, hpost s hs n p hn hp, ?_⟩
    simp [NextNodeParam.get_set_same]
  · intro i n hn
    by_cases hi : i ∈ selects.map Select.Node
    · obtain ⟨s, hs, rfl⟩ := List.mem_map.1 hi
      obtain ⟨n0, p, hn0, hp⟩ := hentry s hs
      rw [hn] at hn0
      cases hn0
      refine ⟨_, hpost s hs n p hn hp, ?_, ?_⟩
      · exact NextNodeParam.keys_set_of_get_some _ _ _ _ hp
      · intro c hc
        have hne : s.BattleCommand ≠ c := by
          rintro rfl
          exact hc hs
        exact NextNodeParam.get_set_ne _ _ hne
    · refine ⟨n, ?_, rfl, fun _ _ => rfl⟩
      rw [Backward_frame eval evalY selects heap heap' hb i hi]
      exact hn
  · intro s hs n hn hp1 heap2 s2 n2 hn2 hp2 hstats hcmd
    obtain ⟨n0, p, hn0, hp⟩ := hentry s hs
    rw [hn] at hn0
    cases hn0
    have hp' : NextNodeParam.get n2.NextNodeParam s2.BattleCommand = some p := by
      rw [hstats, hcmd]; exact hp
    have h2 := backwardOne_eq eval (eval.ReverseFunc evalY) heap2 s2 n2 p hn2 hp'
    have hlt : s2.Node < heap2.length := (List.getElem?_eq_some_iff.1 hn2).1
    let n2' : Node B C :=
      { n2 with
        NextNodeParam := NextNodeParam.set n2.NextNodeParam s2.BattleCommand
          ⟨p.TotalValue + (if n2.IsP1Node then eval.ReverseFunc evalY
            else eval.ReverseFunc (eval.ReverseFunc evalY)), p.SimuNum + 1⟩
        SelectCount := 0 }
    refine ⟨_, heap2.set s2.Node n2', n2', hpost s hs n p hn hp, ?_, ?_, ?_⟩
    · simp [Selects.Backward, h2, n2']
    · simp [List.getElem?_set_self, hlt]
    · simp [hp1, hp2, hstats, hcmd, n2']

end C4

theorem C4_Backward_witness :
    ∃ heap', Selects.Backward drawEval (1 / 4) [⟨0, 0⟩] oneNodeHeap = .ok heap' ∧
      ∃ n', heap'[0]? = some n' ∧
        NextNodeParam.get n'.NextNodeParam 0 = some ⟨1 + (1 - 1 / 4), 3⟩ := by
  obtain ⟨heap', hb, h1, _⟩ := C4_Backward_postcondition drawEval (1 / 4) [⟨0, 0⟩] oneNodeHeap
    (by decide)
    (by
      intro s hs
      rw [List.mem_singleton] at hs
      subst hs
      exact ⟨_, ⟨1, 2⟩, rfl, rfl⟩)
  refine ⟨heap', hb, ?_⟩
  have := h1 ⟨0, 0⟩ (List.mem_singleton.2 rfl) _ ⟨1, 2⟩ rfl rfl
  simpa [oneNodeHeap, drawEval] using this


section C6
variable {B C R : Type} [DecidableEq C]

/-- C6. On a non-empty statistics map with positive visit counts on which the
external UCB1 function does not fail: `UCBs` gives every action the score
`UCB1(average, N, n, X)` with `N` the sum of all visit counts; `MaxUCB` returns
the largest score; `NewMaxUCBBattleCommands` returns a non-empty duplicate-free
list of exactly the actions with that score. A pass of the loop of `Select`
at a fully expanded node with this map picks one of these actions with
`RandomChoice`, applies `Run` to the live state with it, and, unless `Run`
fails (then the pass returns that error), appends the node with this action
to the path. And every pair on the path that a call of `Select` returns holds
a fully expanded node and an action whose score is the largest at that node. -/
theorem C6_UCB_selection_picks_maximiser (E : Engine B C R) (m : NextNodeParam C) (X : ℚ)
    (hne : m ≠ []) (hnd : (m.map Prod.fst).Nodup)
    (hpos : ∀ e ∈ m, 0 < e.2.SimuNum)
    (hucb : ∀ e ∈ m, ∃ u, E.UpperConfidenceBound1 (e.2.TotalValue / (e.2.SimuNum : ℚ))
      (m.map (fun e => e.2.SimuNum)).sum e.2.SimuNum X = .ok u) :
    ∃ ucbs M L, NextNodeParam.UCBs E m X = .ok ucbs ∧
      ucbs.map Prod.fst = m.map Prod.fst ∧
      (∀ e ∈ m, E.UpperConfidenceBound1 (e.2.TotalValue / (e.2.SimuNum : ℚ))
        (m.map (fun e => e.2.SimuNum)).sum e.2.SimuNum X = .ok (ucbsGet ucbs e.1)) ∧
      NextNodeParam.MaxUCB E m X = .ok M ∧
      (∃ e ∈ m, ucbsGet ucbs e.1 = M) ∧
      (∀ e ∈ m, ucbsGet ucbs e.1 ≤ M) ∧
      NextNodeParam.NewMaxUCBBattleCommands E m X = .ok L ∧
      L ≠ [] ∧ L.Nodup ∧
      (∀ c, c ∈ L ↔ c ∈ m.map Prod.fst ∧ ucbsGet ucbs c = M) ∧
      (∀ random, ∃ c random', RandomChoice E L random = .ok (c, random') ∧
        c ∈ m.map Prod.fst ∧ ucbsGet ucbs c = M) ∧
      (∀ (s : SelectState B C R) (n : Node B C), s.heap[s.node]? = some n →
        n.NextNodeParam = m → n.IsAllExpansion = true →
        ∃ c random1, RandomChoice E L s.random = .ok (c, random1) ∧
          c ∈ m.map Prod.fst ∧ ucbsGet ucbs c = M ∧
          (∀ s', SelectStep E X s = .inl s' →
            s'.selects = s.selects ++ [Select.mk s.node c] ∧
            E.Run s.battle c random1 = (.ok s'.battle, s'.random)) ∧
          (∀ heap' random' ret, SelectStep E X s = .inr (heap', random', .ok ret) →
            ret.selects = s.selects ++ [Select.mk s.node c] ∧
            E.Run s.battle c random1 = (.ok ret.battle, random')) ∧
          (∀ msg random2, E.Run s.battle c random1 = (.error msg, random2) →
            SelectStep E X s
              = .inr (s.heap.set s.node { n with SelectCount := n.SelectCount + 1 }, random2,
                  .error (.err msg)))) ∧
      (∀ (fuel : Nat) (heap heap' : Heap B C) (node : Nat) (battle : B) (allNodes : Nodes)
          (random random' : R) (ret : SelectReturn B C),
        (∀ (p : Nat) (n : Node B C), heap[p]? = some n →
          (n.NextNodeParam.map Prod.fst).Nodup) →
        Node.Select E fuel heap node battle allNodes X random
          = some (heap', random', .ok ret) →
        ∀ sel ∈ ret.selects, ∃ n : Node B C, heap'[sel.Node]? = some n ∧
          n.IsAllExpansion = true ∧ IsMaxUCB E X n.NextNodeParam sel.BattleCommand) := by
  obtain ⟨ucbs, hu⟩ := UCBsLoop_ok E (NextNodeParam.TotalSimuNum m) X m (by
    intro e he
    exact ⟨ne_of_gt (hpos e he), hucb e he⟩)
  have hu' : NextNodeParam.UCBs E m X = .ok ucbs := hu
  have hkeys := UCBs_keys E m X ucbs hu'
  have hnd' : (ucbs.map Prod.fst).Nodup := hkeys ▸ hnd
  have hall := forall₂_exists_of_mem_left _ m ucbs
    (UCBsLoop_forall₂ E (NextNodeParam.TotalSimuNum m) X m ucbs hu)
  have hscore : ∀ e ∈ m, E.UpperConfidenceBound1 (e.2.TotalValue / (e.2.SimuNum : ℚ))
      (m.map (fun e => e.2.SimuNum)).sum e.2.SimuNum X = .ok (ucbsGet ucbs e.1) := by
    intro e he
    obtain ⟨f, hf, hf1, _, hf2⟩ := hall e he
    have : ucbsGet ucbs e.1 = f.2 := ucbsGet_of_mem ucbs e.1 f.2 hnd' (by rw [← hf1]; exact hf)
    rw [this]
    exact hf2
  obtain ⟨M, hM, ⟨c0, hc0, hc0M⟩, hle⟩ := MaxUCB_spec E m X ucbs hne hu'
  have hL : NextNodeParam.NewMaxUCBBattleCommands E m X
      = .ok ((ucbs.filter (fun e => e.2 = M)).map Prod.fst) := by
    simp [NextNodeParam.NewMaxUCBBattleCommands, hM, hu']
  obtain ⟨hLne, hLnd, _⟩ := NewMaxUCBBattleCommands_sound E m X _ hnd hL
  have hmem : ∀ c, c ∈ (ucbs.filter (fun e => e.2 = M)).map Prod.fst ↔
      c ∈ m.map Prod.fst ∧ ucbsGet ucbs c = M := by
    intro c
    constructor
    · intro hc
      obtain ⟨⟨c', u⟩, he, rfl⟩ := List.mem_map.1 hc
      obtain ⟨he1, he2⟩ := List.mem_filter.1 he
      refine ⟨hkeys ▸ List.mem_map_of_mem Prod.fst he1, ?_⟩
      rw [ucbsGet_of_mem ucbs c' u hnd' he1]
      simpa using he2
    · rintro ⟨hc, hcM⟩
      rw [← hkeys] at hc
      obtain ⟨⟨c', u⟩, he, rfl⟩ := List.mem_map.1 hc
      refine List.mem_map.2 ⟨(c', u), List.mem_filter.2 ⟨he, ?_⟩, rfl⟩
      rw [ucbsGet_of_mem ucbs c' u hnd' he] at hcM
      simp [hcM]
  refine ⟨ucbs, M, _, hu', hkeys, hscore, hM, ?_, ?_, hL, hLne, hLnd, hmem, ?_, ?_, ?_⟩
  · obtain ⟨e, he, rfl⟩ := List.mem_map.1 hc0
    exact ⟨e, he, hc0M⟩
  · intro e he
    exact hle e.1 (List.mem_map_of_mem Prod.fst he)
  · intro random
    obtain ⟨c, random', hc⟩ := RandomChoice_ok E _ random hLne
    exact ⟨c, random', hc, (hmem c).1 (RandomChoice_mem E _ _ _ _ hc)⟩
  · intro s n hn hm hflag
    obtain ⟨c, random1, hch⟩ := RandomChoice_ok E _ s.random hLne
    have hcmax := (hmem c).1 (RandomChoice_mem E _ _ _ _ hch)
    have hLn : NextNodeParam.NewMaxUCBBattleCommands E n.NextNodeParam X
        = .ok ((ucbs.filter (fun e => e.2 = M)).map Prod.fst) := by rw [hm]; exact hL
    refine ⟨c, random1, hch, hcmax.1, hcmax.2, ?_, ?_, ?_⟩
    · intro s' hs
      obtain ⟨n', cmds', c', random1', next, hn', _, hcmds', hch', hrun, _, _, _, _, hsel⟩ :=
        SelectStep_inl E X s s' hs
      rw [hn] at hn'
      cases hn'
      rw [hLn] at hcmds'
      cases hcmds'
      rw [hch] at hch'
      cases hch'
      exact ⟨hsel, hrun⟩
    · intro heap' random' ret hs
      obtain ⟨n', hn', hcases⟩ := SelectStep_inr_ok E X s heap' random' ret hs
      rw [hn] at hn'
      cases hn'
      rcases hcases with ⟨hf, _⟩ | ⟨_, cmds', c', random1', hcmds', hch', hrun, _, hsel, _⟩
      · rw [hflag] at hf
        cases hf
      · rw [hLn] at hcmds'
        cases hcmds'
        rw [hch] at hch'
        cases hch'
        exact ⟨hsel, hrun⟩
    · intro msg random2 hrun
      simp [SelectStep, hn, hflag, hLn, hch, hrun]
  · intro fuel heap heap' node battle allNodes random random' ret hcells hsel
    exact Select_path_isMax E X fuel heap heap' node battle allNodes random random' ret hcells
      hsel

end C6

theorem C6_UCB_selection_witness :
    ∃ ucbs M s',
      NextNodeParam.UCBs treeEngine [(0, ⟨1, 2⟩), (1, ⟨1 / 2, 1⟩)] 1 = .ok ucbs ∧
      NextNodeParam.MaxUCB treeEngine [(0, ⟨1, 2⟩), (1, ⟨1 / 2, 1⟩)] 1 = .ok M ∧
      NextNodeParam.NewMaxUCBBattleCommands treeEngine [(0, ⟨1, 2⟩), (1, ⟨1 / 2, 1⟩)] 1
        = .ok [1] ∧
      ucbsGet ucbs 0 ≤ M ∧ ucbsGet ucbs 1 = M ∧
      SelectStep treeEngine 1 ⟨treeHeap3, 0, 0, [0, 1], [], 8⟩ = .inl s' ∧
      s'.selects = [Select.mk 0 1] ∧ s'.battle = 2 := by
  obtain ⟨ucbs, M, L, h1, _, _, h2, _, hle, h3, _, _, _, _, hstep, _⟩ :=
    C6_UCB_selection_picks_maximiser treeEngine [(0, ⟨1, 2⟩), (1, ⟨1 / 2, 1⟩)] 1
      (by simp) (by decide)
      (by intro e he; simp at he; rcases he with rfl | rfl <;> decide)
      (by intro e _; exact ⟨_, rfl⟩)
  have hL : NextNodeParam.NewMaxUCBBattleCommands treeEngine [(0, ⟨1, 2⟩), (1, ⟨1 / 2, 1⟩)] 1
      = .ok [1] := by with_unfolding_all rfl
  rw [hL] at h3
  cases h3
  obtain ⟨c, random1, hch, _, hc, ha, _, _⟩ :=
    hstep ⟨treeHeap3, 0, 0, [0, 1], [], 8⟩ _ rfl rfl rfl
  have hc1 : c = 1 := by
    have := RandomChoice_mem treeEngine [1] 8 random1 c hch
    simpa using this
  subst hc1
  have hs : SelectStep treeEngine 1 ⟨treeHeap3, 0, 0, [0, 1], [], 8⟩
      = .inl ⟨treeHeap4, 2, 2, [0, 1, 2], [Select.mk 0 1], 10⟩ := by with_unfolding_all rfl
  exact ⟨ucbs, M, _, h1, h2, hL, hle (0, ⟨1, 2⟩) (by simp), hc, hs, (ha _ hs).1, rfl⟩


section C7
variable {B C R : Type} [DecidableEq C]

/-- C7 (amended). For a node that is not fully expanded, has no more
statistics entries than listed legal actions and has a legal action without
an entry: `NewNoExpansionBattleCommands` returns, in legal-action order, the
non-empty list of the legal actions without an entry, `RandomChoice` picks
one of them, `c`, and when the transition from the live state by `c` and the
evaluator on the resulting state succeed `ExpansionWithEvalY` returns the
evaluator's value and the input path with `(node, c)` appended, and the node
gained exactly the entry `c ↦ {0, 0}`, with all other entries and fields
(other than the flag) as before and no other node changed. Conversely,
whenever `ExpansionWithEvalY` returns a value, all of this happened. -/
theorem C7_Expansion_postcondition (E : Engine B C R) (eval : Eval B R) (heap : Heap B C)
    (node : Nat) (n : Node B C) (battle : B) (selects : Selects C) (random : R)
    (hn : heap[node]? = some n) (hflag : n.IsAllExpansion = false)
    (hlen : n.NextNodeParam.length ≤ n.AvailableBattleCommands.length)
    (huntried : ∃ c ∈ n.AvailableBattleCommands, NextNodeParam.get n.NextNodeParam c = none) :
    n.NewNoExpansionBattleCommands = .ok (n.AvailableBattleCommands.filter
      (fun c => (NextNodeParam.get n.NextNodeParam c).isNone)) ∧
    (∃ c random1,
      RandomChoice E (n.AvailableBattleCommands.filter
        (fun c => (NextNodeParam.get n.NextNodeParam c).isNone)) random = .ok (c, random1) ∧
      c ∈ n.AvailableBattleCommands ∧ NextNodeParam.get n.NextNodeParam c = none ∧
      ∀ battle1 random2 evalY random3,
        E.Run battle c random1 = (.ok battle1, random2) →
        eval.Func battle1 random2 = (.ok evalY, random3) →
        ∃ heap' n',
          Node.ExpansionWithEvalY E eval heap node battle selects random
            = (heap', random3, .ok (evalY, selects ++ [Select.mk node c])) ∧
          heap'[node]? = some n' ∧
          n'.NextNodeParam = n.NextNodeParam ++ [(c, ⟨0, 0⟩)] ∧
          NextNodeParam.get n'.NextNodeParam c = some ⟨0, 0⟩ ∧
          (∀ d, d ≠ c →
            NextNodeParam.get n'.NextNodeParam d = NextNodeParam.get n.NextNodeParam d) ∧
          n'.Battle = n.Battle ∧ n'.AvailableBattleCommands = n.AvailableBattleCommands ∧
          n'.NextNodes = n.NextNodes ∧ n'.IsP1Node = n.IsP1Node ∧
          n'.SelectCount = n.SelectCount ∧
          heap'.length = heap.length ∧ (∀ i, i ≠ node → heap'[i]? = heap[i]?)) ∧
    (∀ heap' random' evalY selects',
      Node.ExpansionWithEvalY E eval heap node battle selects random
        = (heap', random', .ok (evalY, selects')) →
      ∃ c random1 battle1 random2 n',
        RandomChoice E (n.AvailableBattleCommands.filter
          (fun c => (NextNodeParam.get n.NextNodeParam c).isNone)) random = .ok (c, random1) ∧
        c ∈ n.AvailableBattleCommands ∧
        NextNodeParam.get n.NextNodeParam c = none ∧
        E.Run battle c random1 = (.ok battle1, random2) ∧
        eval.Func battle1 random2 = (.ok evalY, random') ∧
        selects' = selects ++ [Select.mk node c] ∧
        heap'[node]? = some n' ∧
        n'.NextNodeParam = n.NextNodeParam ++ [(c, ⟨0, 0⟩)] ∧
        NextNodeParam.get n'.NextNodeParam c = some ⟨0, 0⟩ ∧
        (∀ d, d ≠ c →
          NextNodeParam.get n'.NextNodeParam d = NextNodeParam.get n.NextNodeParam d) ∧
        n'.Battle = n.Battle ∧ n'.AvailableBattleCommands = n.AvailableBattleCommands ∧
        n'.NextNodes = n.NextNodes ∧ n'.IsP1Node = n.IsP1Node ∧
        n'.SelectCount = n.SelectCount ∧
        heap'.length = heap.length ∧ (∀ i, i ≠ node → heap'[i]? = heap[i]?)) := by
  have hlt : node < heap.length := (List.getElem?_eq_some_iff.1 hn).1
  have hcmds : n.NewNoExpansionBattleCommands = .ok (n.AvailableBattleCommands.filter
      (fun c => (NextNodeParam.get n.NextNodeParam c).isNone)) := by
    simp [Node.NewNoExpansionBattleCommands, not_lt.2 hlen]
  have hpost : ∀ c, NextNodeParam.get n.NextNodeParam c = none →
      (heap.set node (expandedNode n c))[node]? = some (expandedNode n c) ∧
      (expandedNode n c).NextNodeParam = n.NextNodeParam ++ [(c, ⟨0, 0⟩)] ∧
      NextNodeParam.get (expandedNode n c).NextNodeParam c = some ⟨0, 0⟩ ∧
      (∀ d, d ≠ c → NextNodeParam.get (expandedNode n c).NextNodeParam d
        = NextNodeParam.get n.NextNodeParam d) ∧
      (heap.set node (expandedNode n c)).length = heap.length ∧
      (∀ i, i ≠ node → (heap.set node (expandedNode n c))[i]? = heap[i]?) := by
    intro c hnone
    refine ⟨List.getElem?_set_self hlt, ?_, ?_, ?_, by simp, ?_⟩
    · simp [expandedNode, NextNodeParam.set_of_get_none _ _ _ hnone]
    · simp [expandedNode, NextNodeParam.get_set_same]
    · intro d hd
      simp only [expandedNode]
      exact NextNodeParam.get_set_ne _ _ (Ne.symm hd)
    · intro i hi
      rw [List.getElem?_set_ne (Ne.symm hi)]
  refine ⟨hcmds, ?_, ?_⟩
  · obtain ⟨c0, hc0, hnone0⟩ := huntried
    have hne : n.AvailableBattleCommands.filter
        (fun c => (NextNodeParam.get n.NextNodeParam c).isNone) ≠ [] := by
      intro h0
      have hmem : c0 ∈ n.AvailableBattleCommands.filter
          (fun c => (NextNodeParam.get n.NextNodeParam c).isNone) :=
        List.mem_filter.2 ⟨hc0, by simp [hnone0]⟩
      rw [h0] at hmem
      simp at hmem
    obtain ⟨c, random1, hr⟩ := RandomChoice_ok E _ random hne
    obtain ⟨hc1, hc2⟩ := List.mem_filter.1 (RandomChoice_mem E _ _ _ _ hr)
    have hnone : NextNodeParam.get n.NextNodeParam c = none := by simpa using hc2
    refine ⟨c, random1, hr, hc1, hnone, ?_⟩
    intro battle1 random2 evalY random3 hrun hev
    obtain ⟨h1, h2, h3, h4, h5, h6⟩ := hpost c hnone
    exact ⟨_, expandedNode n c,
      Expansion_ok_of E eval heap node battle battle1 selects random random1 random2 random3
        evalY n _ c hn hflag hcmds hr hrun hev,
      h1, h2, h3, h4, rfl, rfl, rfl, rfl, rfl, h5, h6⟩
  · intro heap' random' evalY selects' h
    obtain ⟨n0, cmds, c, random1, battle1, random2, hn0, _, hc, hr, hrun, hev, hheap, hsel⟩ :=
      Expansion_ok_inv E eval heap heap' node battle selects selects' random random' evalY h
    rw [hn] at hn0
    cases hn0
    obtain ⟨_, hcmds'⟩ := NewNoExpansionBattleCommands_ok n cmds hc
    subst hcmds'
    obtain ⟨hc1, hc2⟩ := List.mem_filter.1 (RandomChoice_mem E _ _ _ _ hr)
    have hnone : NextNodeParam.get n.NextNodeParam c = none := by simpa using hc2
    obtain ⟨h1, h2, h3, h4, h5, h6⟩ := hpost c hnone
    subst hheap
    exact ⟨c, random1, battle1, random2, expandedNode n c, hr, hc1, hnone, hrun, hev, hsel,
      h1, h2, h3, h4, rfl, rfl, rfl, rfl, rfl, h5, h6⟩

/-- C8. On a node with `IsAllExpansion = true`, `ExpansionWithEvalY` returns the
"already expanded" error and leaves the heap (statistics, flags, child caches)
and the random source as they were; the outcome is the same for every engine
and evaluator, so neither `Run` nor `Func` contributes to it. -/
theorem C8_Expansion_of_expanded_node_fails (E E' : Engine B C R) (eval eval' : Eval B R)
    (heap : Heap B C) (node : Nat) (n : Node B C) (battle : B) (selects : Selects C) (random : R)
    (hn : heap[node]? = some n) (hflag : n.IsAllExpansion = true) :
    Node.ExpansionWithEvalY E eval heap node battle selects random
      = (heap, random, .error (.err "展開済みのNodeである")) ∧
    Node.ExpansionWithEvalY E' eval' heap node battle selects random
      = Node.ExpansionWithEvalY E eval heap node battle selects random := by
  simp [Node.ExpansionWithEvalY, hn, hflag]

end C7

/-- C7 as stated fails for a node that is not fully expanded and has no legal
action without an entry (its single legal action is listed twice, or it has
no legal action at all): the transition and the evaluator never fail, yet
`ExpansionWithEvalY` adds no entry and panics in `RandomChoice`. -/
theorem C7_counterexample :
    (∃ n : Node Nat Nat, twiceHeap[0]? = some n ∧ n.IsAllExpansion = false) ∧
    (∀ s c r, ∃ b r1, twiceEngine.Run s c r = (.ok b, r1)) ∧
    (∀ b r, ∃ v r1, drawEval.Func b r = (.ok v, r1)) ∧
    Node.ExpansionWithEvalY twiceEngine drawEval twiceHeap 0 0 [] 0
      = (twiceHeap, 0, .error (.panic "invalid argument to Intn")) ∧
    (NewNodePointer noMoveEngine 0).IsAllExpansion = false ∧
    Node.ExpansionWithEvalY noMoveEngine drawEval [NewNodePointer noMoveEngine 0] 0 0 [] 0
      = ([NewNodePointer noMoveEngine 0], 0, .error (.panic "invalid argument to Intn")) :=
  ⟨⟨_, rfl, rfl⟩, fun s c r => ⟨_, _, rfl⟩, fun b r => ⟨_, _, rfl⟩,
    by with_unfolding_all rfl, rfl, by with_unfolding_all rfl⟩

theorem C7_Expansion_witness :
    ∃ heap' n', Node.ExpansionWithEvalY treeEngine drawEval oneNodeHeap 0 1 [] 0
        = (heap', 2, .ok (1 / 2, [] ++ [Select.mk 0 1])) ∧
      heap'[0]? = some n' ∧ n'.NextNodeParam = [(0, ⟨1, 2⟩)] ++ [(1, ⟨0, 0⟩)] := by
  obtain ⟨_, ⟨c, random1, hr, _, _, hex⟩, _⟩ :=
    C7_Expansion_postcondition treeEngine drawEval oneNodeHeap 0 _ 1 [] 0 rfl rfl
      (by decide) ⟨1, by simp [oneNodeHeap], rfl⟩
  have hr1 : RandomChoice treeEngine [1] 0 = .ok (c, random1) := hr
  have hval : RandomChoice treeEngine [1] 0 = .ok (1, 1) := rfl
  have hc : c = 1 ∧ random1 = 1 := by
    rw [hval] at hr1
    simp only [Except.ok.injEq, Prod.mk.injEq] at hr1
    exact ⟨hr1.1.symm, hr1.2.symm⟩
  obtain ⟨rfl, rfl⟩ := hc
  obtain ⟨heap', n', h1, h2, h3, _⟩ := hex 4 2 (1 / 2) 2 rfl rfl
  exact ⟨heap', n', h1, h2, h3⟩

theorem C8_Expansion_witness :
    Node.ExpansionWithEvalY treeEngine drawEval fullNodeHeap 0 0 [] 0
      = (fullNodeHeap, 0, .error (.err "展開済みのNodeである")) :=
  (C8_Expansion_of_expanded_node_fails treeEngine cycleEngine drawEval drawEval fullNodeHeap 0 _
    0 [] 0 rfl rfl).1


section C1C3
variable {B C R : Type} [DecidableEq C]

/-- Source: `Dedup` read by positions. -/
theorem Dedup_index (E : Engine B C R) (heap : Heap B C) (allNodes : Nodes)
    (hdd : Dedup E heap allNodes) :
    ∀ (i j pi pj : Nat) (ni nj : Node B C), i ≠ j → allNodes[i]? = some pi →
      allNodes[j]? = some pj → heap[pi]? = some ni → heap[pj]? = some nj →
      E.Equal ni.Battle nj.Battle = false := by
  intro i j pi pj ni nj hij hi hj hni hnj
  unfold Dedup at hdd
  rw [List.pairwise_iff_getElem] at hdd
  obtain ⟨hil, hi'⟩ := List.getElem?_eq_some_iff.1 hi
  obtain ⟨hjl, hj'⟩ := List.getElem?_eq_some_iff.1 hj
  rcases Nat.lt_or_gt_of_ne hij with hlt | hgt
  · exact (hdd i j hil hjl hlt ni nj (by rw [hi']; exact hni) (by rw [hj']; exact hnj)).1
  · exact (hdd j i hjl hil hgt nj ni (by rw [hj']; exact hnj) (by rw [hi']; exact hni)).2

/-- C1. When `Equal` is symmetric (as every equivalence relation is) and
`RunMCTS` succeeds, every entry of the returned registry points to a node and
no two entries at different positions hold `Equal` states.  `Select` keeps this
property of a registry: entered from a registry with markers 0, valid child
caches and the entry node in it, what it returns is again free of `Equal`
duplicates; and the lookup of lines 95-105 extends the registry only by a new
node for the reached state, and only when no node of the child cache and no
node of the registry holds a state `Equal` to it. -/
theorem C1_registry_deduplication (E : Engine B C R)
    (hsymm : ∀ a b, E.Equal a b = true → E.Equal b a = true) :
    (∀ (eval : Eval B R) (fuel : Nat) (rootBattle : B) (simuNum : Int) (X : ℚ) (random : R)
        (r : RunResult B C R),
      RunMCTS E eval fuel rootBattle simuNum X random = some r → r.fault = none →
      (∀ p ∈ r.allNodes, ∃ n, r.heap[p]? = some n) ∧
      ∀ (i j pi pj : Nat) (ni nj : Node B C), i ≠ j → r.allNodes[i]? = some pi →
        r.allNodes[j]? = some pj → r.heap[pi]? = some ni → r.heap[pj]? = some nj →
        E.Equal ni.Battle nj.Battle = false) ∧
    (∀ (fuel : Nat) (X : ℚ) (heap heap' : Heap B C) (node : Nat) (battle : B)
        (allNodes : Nodes) (random random' : R) (ret : SelectReturn B C),
      (∀ p ∈ allNodes, p < heap.length) →
      (∀ p ∈ allNodes, ∀ n, heap[p]? = some n → ∀ q ∈ n.NextNodes, q ∈ allNodes) →
      node ∈ allNodes →
      (∀ p ∈ allNodes, ∀ n, heap[p]? = some n → n.SelectCount = 0) →
      Dedup E heap allNodes →
      Node.Select E fuel heap node battle allNodes X random = some (heap', random', .ok ret) →
      Dedup E heap' ret.allNodes) ∧
    (∀ (heap heap2 : Heap B C) (node nextNode : Nat) (battle : B) (allNodes allNodes2 : Nodes),
      resolveNextNode E heap node battle allNodes = .ok (heap2, allNodes2, nextNode) →
      allNodes2 = allNodes ∨
      (allNodes2 = allNodes ++ [nextNode] ∧
        heap2[nextNode]? = some (NewNodePointer E battle) ∧
        (∀ p ∈ allNodes, ∃ n, heap[p]? = some n ∧ E.Equal n.Battle battle = false) ∧
        ∃ n, heap[node]? = some n ∧
          ∀ q ∈ n.NextNodes, ∃ m, heap[q]? = some m ∧ E.Equal m.Battle battle = false)) := by
  have hsymm' : ∀ a b, E.Equal a b = E.Equal b a := by
    intro a b
    cases hab : E.Equal a b with
    | true => exact (hsymm a b hab).symm
    | false =>
      cases hba : E.Equal b a with
      | true => rw [hsymm b a hba] at hab; cases hab
      | false => rfl
  refine ⟨?_, ?_, ?_⟩
  · intro eval fuel rootBattle simuNum X random r h hok
    have inv := RunMCTS_RunInv E eval fuel rootBattle simuNum X random r h hok
    refine ⟨fun p hp => ⟨_, List.getElem?_eq_getElem (inv.valid p hp)⟩, ?_⟩
    exact Dedup_index E r.heap r.allNodes
      (RunMCTS_Dedup E eval fuel rootBattle simuNum X random r hsymm' h hok)
  · intro fuel X heap heap' node battle allNodes random random' ret hv hc hn hcnt hdd h
    exact SelectLoop_dedup E X allNodes node battle fuel _ heap' random' ret hsymm'
      (SelInv_init heap node battle allNodes random hv hc hn hcnt) hdd h
  · intro heap heap2 node nextNode battle allNodes allNodes2 h
    obtain ⟨n, hn, hcases⟩ :=
      resolveNextNode_ok E heap heap2 node nextNode battle allNodes allNodes2 h
    have hlt : node < heap.length := (List.getElem?_eq_some_iff.1 hn).1
    rcases hcases with ⟨_, _, h2⟩ | ⟨_, _, _, h2⟩ | ⟨⟨msg1, h1⟩, ⟨msg2, h2⟩, h3, h4, h5⟩
    · exact Or.inl h2
    · exact Or.inl h2
    · right
      refine ⟨by rw [h5, h3], ?_, Find_err E heap battle allNodes msg2 h2,
        n, hn, Find_err E heap battle n.NextNodes msg1 h1⟩
      rw [h4, h3, List.getElem?_set_ne (by omega)]
      simp

/-- C3. For a non-terminal root state and `simuNum ≥ 0`, when `RunMCTS`
succeeds the first registry entry is the root node (pointer 0, holding the root
state) and the visit counts of its statistics entries sum to `simuNum`. -/
theorem C3_root_visit_conservation (E : Engine B C R) (eval : Eval B R) (fuel : Nat)
    (rootBattle : B) (simuNum : Int) (X : ℚ) (random : R) (r : RunResult B C R)
    (hlive : E.IsGameEnd rootBattle = false) (hN : 0 ≤ simuNum)
    (h : RunMCTS E eval fuel rootBattle simuNum X random = some r) (hok : r.fault = none) :
    r.allNodes[0]? = some 0 ∧
    ∃ n, r.heap[0]? = some n ∧ n.Battle = rootBattle ∧
      (n.NextNodeParam.map (fun e => e.2.SimuNum)).sum = simuNum := by
  have inv := RunMCTS_RunInv E eval fuel rootBattle simuNum X random r h hok
  obtain ⟨rest, hrest⟩ := inv.root
  obtain ⟨n, hn, hb⟩ := inv.rootNode
  obtain ⟨n', hn', hk⟩ := inv.visits hlive
  rw [hn] at hn'
  cases hn'
  refine ⟨by rw [hrest]; simp, n, hn, hb, ?_⟩
  have : NextNodeParam.TotalSimuNum n.NextNodeParam = (simuNum.toNat : Int) := hk
  rw [Int.toNat_of_nonneg hN] at this
  exact this

end C1C3

theorem C1_registry_deduplication_witness :
    ∃ r, RunMCTS treeEngine drawEval 8 0 7 1 0 = some r ∧ r.fault = none ∧
      ∀ (i j pi pj : Nat) (ni nj : Node Nat Nat), i ≠ j → r.allNodes[i]? = some pi →
        r.allNodes[j]? = some pj → r.heap[pi]? = some ni → r.heap[pj]? = some nj →
        treeEngine.Equal ni.Battle nj.Battle = false := by
  obtain ⟨r, h, hok⟩ := succeeded_iff (RunMCTS treeEngine drawEval 8 0 7 1 0) (by decide!)
  exact ⟨r, h, hok,
    ((C1_registry_deduplication treeEngine
      (by intro a b hab; simp only [treeEngine, beq_iff_eq] at hab ⊢; exact hab.symm)).1
      drawEval 8 0 7 1 0 r h hok).2⟩

theorem C3_root_visit_conservation_witness :
    ∃ r n, RunMCTS cycleEngine drawEval 6 0 5 1 0 = some r ∧ r.fault = none ∧
      r.heap[0]? = some n ∧ (n.NextNodeParam.map (fun e => e.2.SimuNum)).sum = 5 := by
  obtain ⟨r, h, hok⟩ := succeeded_iff (RunMCTS cycleEngine drawEval 6 0 5 1 0) (by decide!)
  obtain ⟨_, n, hn, _, hsum⟩ := C3_root_visit_conservation cycleEngine drawEval 6 0 5 1 0 r
    rfl (by decide) h hok
  exact ⟨r, n, h, hok, hn, hsum⟩


section C2C9
variable {B C R : Type} [DecidableEq C]

/-- Distinct keys that are all legal actions cover the distinct legal actions
exactly when there are as many of them. -/
theorem keys_cover_iff (keys legal : List C) (hk : keys.Nodup) (hl : legal.Nodup)
    (hsub : ∀ c ∈ keys, c ∈ legal) :
    keys.length = legal.length ↔ ∀ c, c ∈ keys ↔ c ∈ legal := by
  constructor
  · intro hlen c
    have hperm : keys.Perm legal :=
      (List.subperm_of_subset hk hsub).perm_of_length_le (le_of_eq hlen.symm)
    exact hperm.mem_iff
  · intro hmem
    exact ((List.perm_ext_iff_of_nodup hk hl).2 hmem).length_eq

/-- C2 (amended). From a registry that contains the entry node, whose entries
all point to nodes with marker 0 and child caches inside the registry, `Select`
returns (the same result for every amount of fuel above the size of the
registry), and a returned path has at most as many pairs as the registry had
nodes; and `RunMCTS` returns for every simulation count (the same result for
every amount of fuel above that count). -/
theorem C2_Select_terminates_on_cycles (E : Engine B C R) (X : ℚ) (heap : Heap B C)
    (node : Nat) (battle : B) (allNodes : Nodes) (random : R)
    (hvalid : ∀ p ∈ allNodes, p < heap.length)
    (hcache : ∀ p ∈ allNodes, ∀ n, heap[p]? = some n → ∀ q ∈ n.NextNodes, q ∈ allNodes)
    (hnode : node ∈ allNodes)
    (hcount : ∀ p ∈ allNodes, ∀ n, heap[p]? = some n → n.SelectCount = 0) :
    (∃ r, (∀ fuel, allNodes.length < fuel →
        Node.Select E fuel heap node battle allNodes X random = some r) ∧
      ∀ ret, r.2.2 = .ok ret → ret.selects.length ≤ allNodes.length) ∧
    (∀ (eval : Eval B R) (rootBattle : B) (simuNum : Int) (random0 : R),
      ∃ r, ∀ fuel, simuNum.toNat < fuel →
        RunMCTS E eval fuel rootBattle simuNum X random0 = some r) := by
  constructor
  · obtain ⟨r, hr⟩ := Select_total E X heap node battle allNodes random hvalid hcache hnode
      hcount
    refine ⟨r, hr, ?_⟩
    intro ret hret
    obtain ⟨heap', random', res⟩ := r
    simp only at hret
    subst hret
    have post := SelectLoop_post E X allNodes node battle (allNodes.length + 1) _ heap' random'
      ret (SelInv_init heap node battle allNodes random hvalid hcache hnode hcount)
      (hr _ (Nat.lt_succ_self _))
    exact path_length_le allNodes ret.selects post.nodup (fun sel hsel => (post.path sel hsel).1)
  · intro eval rootBattle simuNum random0
    exact RunMCTS_total E eval rootBattle simuNum X random0

/-- C9 (amended). When `RunMCTS` succeeds, every registry entry points to a
node whose flag `IsAllExpansion` is true exactly when its statistics map is
non-empty and has as many entries as the node has legal actions; the keys are
distinct legal actions; so for a node whose list of legal actions is non-empty
and free of duplicates the flag is true exactly when the actions with an entry
are the legal actions. -/
theorem C9_fully_expanded_flag (E : Engine B C R) (eval : Eval B R) (fuel : Nat)
    (rootBattle : B) (simuNum : Int) (X : ℚ) (random : R) (r : RunResult B C R)
    (h : RunMCTS E eval fuel rootBattle simuNum X random = some r) (hok : r.fault = none) :
    ∀ p ∈ r.allNodes, ∃ n, r.heap[p]? = some n ∧
      (n.IsAllExpansion = true ↔
        (n.NextNodeParam ≠ [] ∧ n.NextNodeParam.length = n.AvailableBattleCommands.length)) ∧
      (n.NextNodeParam.map Prod.fst).Nodup ∧
      (∀ c ∈ n.NextNodeParam.map Prod.fst, c ∈ n.AvailableBattleCommands) ∧
      (n.AvailableBattleCommands ≠ [] → n.AvailableBattleCommands.Nodup →
        (n.IsAllExpansion = true ↔
          ∀ c, c ∈ n.NextNodeParam.map Prod.fst ↔ c ∈ n.AvailableBattleCommands)) := by
  intro p hp
  have inv := RunMCTS_RunInv E eval fuel rootBattle simuNum X random r h hok
  have hn := List.getElem?_eq_getElem (inv.valid p hp)
  have ok := inv.nodeOK p hp _ hn
  refine ⟨_, hn, ok.flag, ok.keys_nodup, ok.keys_legal, ?_⟩
  intro hne hnd
  have hcover := keys_cover_iff _ _ ok.keys_nodup hnd ok.keys_legal
  simp only [List.length_map] at hcover
  rw [ok.flag, ← hcover]
  constructor
  · exact fun h => h.2
  · intro hlen
    refine ⟨?_, hlen⟩
    intro hnil
    rw [hnil] at hlen
    exact hne (List.length_eq_zero.1 hlen.symm)

end C2C9

/-- C2 as stated fails when the entry node is not in the registry: with an empty
registry, all markers 0 and all child caches empty, `Select` on a fully expanded
node returns a path of one pair. -/
theorem C2_counterexample :
    (∀ n ∈ fullNodeHeap, n.SelectCount = 0 ∧ ∀ q ∈ n.NextNodes, q ∈ ([] : Nodes)) ∧
    ∃ heap' random' ret, Node.Select cycleEngine 3 fullNodeHeap 0 0 [] 1 0
      = some (heap', random', .ok ret) ∧ ([] : Nodes).length < ret.selects.length :=
  ⟨by simp [fullNodeHeap],
   [{ Battle := 0, AvailableBattleCommands := [0], NextNodeParam := [(0, ⟨1, 1⟩)],
      NextNodes := [1], IsAllExpansion := true, IsP1Node := true, SelectCount := 1 },
    { Battle := 1, AvailableBattleCommands := [0], NextNodeParam := [],
      NextNodes := [], IsAllExpansion := false, IsP1Node := false, SelectCount := 0 }],
   2, ⟨1, 1, [1], [⟨0, 0⟩], false⟩, by with_unfolding_all rfl, by decide⟩

theorem C2_Select_terminates_witness :
    ∃ r, (∀ fuel, [0].length < fuel →
        Node.Select cycleEngine fuel fullNodeHeap 0 0 [0] 1 0 = some r) ∧
      ∀ ret, r.2.2 = .ok ret → ret.selects.length ≤ [0].length :=
  (C2_Select_terminates_on_cycles cycleEngine 1 fullNodeHeap 0 0 [0] 0
    (by simp [fullNodeHeap])
    (by
      intro p hp n hn q hq
      rw [List.mem_singleton] at hp
      subst hp
      simp only [fullNodeHeap, List.getElem?_cons_zero, Option.some.injEq] at hn
      subst hn
      simp at hq)
    (by simp)
    (by
      intro p hp n hn
      rw [List.mem_singleton] at hp
      subst hp
      simp only [fullNodeHeap, List.getElem?_cons_zero, Option.some.injEq] at hn
      subst hn
      rfl)).1

/-- C9 as stated fails for a node without legal actions (the flag stays false
though the empty set of entries equals the empty set of legal actions) and for
a node whose legal actions are listed twice (the lengths never agree). -/
theorem C9_counterexample :
    (∃ r n, RunMCTS noMoveEngine drawEval 1 0 2 1 0 = some r ∧ r.fault = none ∧
      0 ∈ r.allNodes ∧ r.heap[0]? = some n ∧
      (∀ c, c ∈ n.NextNodeParam.map Prod.fst ↔ c ∈ n.AvailableBattleCommands) ∧
      n.IsAllExpansion = false) ∧
    (∃ r n, RunMCTS twiceEngine drawEval 2 0 1 1 0 = some r ∧ r.fault = none ∧
      0 ∈ r.allNodes ∧ r.heap[0]? = some n ∧
      (∀ c, c ∈ n.NextNodeParam.map Prod.fst ↔ c ∈ n.AvailableBattleCommands) ∧
      n.IsAllExpansion = false) :=
  ⟨⟨⟨[{ Battle := 0, AvailableBattleCommands := [], NextNodeParam := [],
        NextNodes := [], IsAllExpansion := false, IsP1Node := true, SelectCount := 0 }],
      0, [0], none⟩, _, by with_unfolding_all rfl, rfl, by simp, rfl, by simp, rfl⟩,
   ⟨⟨[{ Battle := 0, AvailableBattleCommands := [0, 0], NextNodeParam := [(0, ⟨1 / 2, 1⟩)],
        NextNodes := [], IsAllExpansion := false, IsP1Node := true, SelectCount := 0 }],
      0, [0], none⟩, _, by with_unfolding_all rfl, rfl, by simp, rfl, by simp, rfl⟩⟩

theorem C9_fully_expanded_flag_witness :
    ∃ r, RunMCTS treeEngine drawEval 8 0 7 1 0 = some r ∧ r.fault = none ∧
      ∀ p ∈ r.allNodes, ∃ n, r.heap[p]? = some n ∧
        (n.AvailableBattleCommands ≠ [] → n.AvailableBattleCommands.Nodup →
          (n.IsAllExpansion = true ↔
            ∀ c, c ∈ n.NextNodeParam.map Prod.fst ↔ c ∈ n.AvailableBattleCommands)) := by
  obtain ⟨r, h, hok⟩ := succeeded_iff (RunMCTS treeEngine drawEval 8 0 7 1 0) (by decide!)
  refine ⟨r, h, hok, ?_⟩
  intro p hp
  obtain ⟨n, hn, _, _, _, hiff⟩ := C9_fully_expanded_flag treeEngine drawEval 8 0 7 1 0 r h hok p hp
  exact ⟨n, hn, hiff⟩


section C5
variable {B C R : Type} [DecidableEq C]

/-- A successful call of the trainer, taken apart. -/
theorem NewMCTSTrainer_ok_inv (E : Engine B C R) (eval : Eval B R) (fuel : Nat) (simuNum : Int)
    (X : ℚ) (battle : B) (random random' : R) (c : C)
    (h : NewMCTSTrainer E eval fuel simuNum X battle random = some (random', .ok c)) :
    ∃ r root rest n L,
      RunMCTS E eval fuel battle simuNum X random = some r ∧ r.fault = none ∧
      r.allNodes = root :: rest ∧ r.heap[root]? = some n ∧
      NextNodeParam.NewMaxSimuNumBattleCommands n.NextNodeParam = .ok L ∧
      RandomChoice E L r.random = .ok (c, random') := by
  unfold NewMCTSTrainer at h
  cases hr : RunMCTS E eval fuel battle simuNum X random with
  | none => simp [hr] at h
  | some r =>
    obtain ⟨heap, random1, allNodes, fault⟩ := r
    cases fault with
    | some e => simp [hr] at h
    | none =>
      simp only [hr] at h
      cases allNodes with
      | nil => simp at h
      | cons root rest =>
        simp only at h
        cases hn : heap[root]? with
        | none => simp [hn] at h
        | some n =>
          simp only [hn] at h
          cases hL : NextNodeParam.NewMaxSimuNumBattleCommands n.NextNodeParam with
          | error e => simp [hL] at h
          | ok L =>
            simp only [hL] at h
            cases hc : RandomChoice E L random1 with
            | error e => simp [hc] at h
            | ok cr =>
              obtain ⟨c', random2⟩ := cr
              simp only [hc, Option.some.injEq, Prod.mk.injEq, Except.ok.injEq] at h
              obtain ⟨rfl, rfl⟩ := h
              exact ⟨_, root, rest, n, L, rfl, rfl, rfl, hn, hL, hc⟩

/-- C5. On a non-empty statistics map (with distinct keys) `MaxSimuNum`
returns the largest visit count and `NewMaxSimuNumBattleCommands` a non-empty
duplicate-free list of exactly the actions with that visit count.  Whenever the
function built by `NewMCTSTrainer` returns an action, `RunMCTS` succeeded, the
first registry entry is the node of the given state, the action has a
statistics entry there and no entry of that node has a larger visit count; and
for a non-terminal state and `simuNum ≥ 1` the function does return an action
whenever `RunMCTS` succeeds. -/
theorem C5_recommendation_is_max_visit (E : Engine B C R) :
    (∀ (m : NextNodeParam C), m ≠ [] → (m.map Prod.fst).Nodup →
      ∃ M L, NextNodeParam.MaxSimuNum m = .ok M ∧
        (∃ e ∈ m, e.2.SimuNum = M) ∧ (∀ e ∈ m, e.2.SimuNum ≤ M) ∧
        NextNodeParam.NewMaxSimuNumBattleCommands m = .ok L ∧
        L ≠ [] ∧ L.Nodup ∧
        (∀ c, c ∈ L ↔ ∃ p, NextNodeParam.get m c = some p ∧ p.SimuNum = M)) ∧
    (∀ (eval : Eval B R) (fuel : Nat) (simuNum : Int) (X : ℚ) (battle : B) (random random' : R)
        (c : C),
      NewMCTSTrainer E eval fuel simuNum X battle random = some (random', .ok c) →
      ∃ r n p, RunMCTS E eval fuel battle simuNum X random = some r ∧ r.fault = none ∧
        r.allNodes[0]? = some 0 ∧ r.heap[0]? = some n ∧ n.Battle = battle ∧
        NextNodeParam.get n.NextNodeParam c = some p ∧
        ∀ c' p', NextNodeParam.get n.NextNodeParam c' = some p' → p'.SimuNum ≤ p.SimuNum) ∧
    (∀ (eval : Eval B R) (fuel : Nat) (simuNum : Int) (X : ℚ) (battle : B) (random : R)
        (r : RunResult B C R),
      E.IsGameEnd battle = false → 1 ≤ simuNum →
      RunMCTS E eval fuel battle simuNum X random = some r → r.fault = none →
      ∃ random' c, NewMCTSTrainer E eval fuel simuNum X battle random = some (random', .ok c)) := by
  refine ⟨fun m hne hnd => NewMaxSimuNumBattleCommands_spec m hne hnd, ?_, ?_⟩
  · intro eval fuel simuNum X battle random random' c h
    obtain ⟨r, root, rest, n, L, hr, hok, hall, hn, hL, hc⟩ :=
      NewMCTSTrainer_ok_inv E eval fuel simuNum X battle random random' c h
    have inv := RunMCTS_RunInv E eval fuel battle simuNum X random r hr hok
    obtain ⟨rest', hrest⟩ := inv.root
    have hroot : root = 0 := by
      rw [hall] at hrest
      exact (List.cons.inj hrest).1
    subst hroot
    obtain ⟨n', hn', hb⟩ := inv.rootNode
    rw [hn] at hn'
    cases hn'
    have ok := inv.nodeOK 0 (by rw [hall]; exact List.mem_cons_self _ _) n hn
    have hne : n.NextNodeParam ≠ [] := by
      intro hnil
      rw [hnil] at hL
      simp [NextNodeParam.NewMaxSimuNumBattleCommands, NextNodeParam.MaxSimuNum,
        NextNodeParam.NewBattleCommands] at hL
    obtain ⟨M, L', _, _, hle, hL', _, _, hmem⟩ :=
      NewMaxSimuNumBattleCommands_spec n.NextNodeParam hne ok.keys_nodup
    rw [hL] at hL'
    cases hL'
    obtain ⟨p, hp, hpM⟩ := (hmem c).1 (RandomChoice_mem E _ _ _ _ hc)
    refine ⟨r, n, p, hr, hok, by rw [hall]; simp, hn, hb, hp, ?_⟩
    intro c' p' hp'
    rw [hpM]
    exact hle (c', p') (NextNodeParam.mem_of_get _ _ _ hp')
  · intro eval fuel simuNum X battle random r hlive hN hr hok
    have inv := RunMCTS_RunInv E eval fuel battle simuNum X random r hr hok
    obtain ⟨rest, hrest⟩ := inv.root
    obtain ⟨n, hn, hk⟩ := inv.visits hlive
    have ok := inv.nodeOK 0 (by rw [hrest]; exact List.mem_cons_self _ _) n hn
    have hne : n.NextNodeParam ≠ [] := by
      intro hnil
      rw [hnil] at hk
      simp only [NextNodeParam.TotalSimuNum, List.map_nil, List.sum_nil] at hk
      have : (simuNum.toNat : Int) = simuNum := Int.toNat_of_nonneg (by omega)
      omega
    obtain ⟨M, L, _, _, _, hL, hLne, _, _⟩ :=
      NewMaxSimuNumBattleCommands_spec n.NextNodeParam hne ok.keys_nodup
    obtain ⟨c, random', hc⟩ := RandomChoice_ok E L r.random hLne
    refine ⟨random', c, ?_⟩
    obtain ⟨heap, random1, allNodes, fault⟩ := r
    simp only at hok hrest hn hc
    subst hok hrest
    simp [NewMCTSTrainer, hr, hn, hL, hc]

end C5

theorem C5_recommendation_witness :
    ∃ random' c, NewMCTSTrainer treeEngine drawEval 8 7 1 0 0 = some (random', .ok c) := by
  obtain ⟨r, h, hok⟩ := succeeded_iff (RunMCTS treeEngine drawEval 8 0 7 1 0) (by decide!)
  exact (C5_recommendation_is_max_visit treeEngine).2.2 drawEval 8 7 1 0 0 r rfl (by decide)
    h hok


section EvalLemmas
variable {B C R W : Type} [DecidableEq C]

/-- What `evalFunc` returns in each of its paths. -/
theorem evalFunc_cases (E : Engine B C R) (P : Playout B R W) (battle : B) (random : R) :
    (E.IsGameEnd battle = true → ∀ w err, P.Winner battle = (w, some err) →
      evalFunc E P battle random = (.error err, random)) ∧
    (E.IsGameEnd battle = true → ∀ w, P.Winner battle = (w, none) →
      evalFunc E P battle random = (.ok (P.WINNER_TO_FLOAT64 w), random)) ∧
    (E.IsGameEnd battle = false → ∀ err random1, P.OneGame battle random = (.error err, random1) →
      evalFunc E P battle random = (.error err, random1)) ∧
    (E.IsGameEnd battle = false → ∀ gameEndBattle random1,
      P.OneGame battle random = (.ok gameEndBattle, random1) →
      evalFunc E P battle random
        = (.ok (P.WINNER_TO_FLOAT64 (P.Winner gameEndBattle).1), random1)) := by
  refine ⟨?_, ?_, ?_, ?_⟩
  · intro hg w err hw
    simp [evalFunc, hg, hw]
  · intro hg w hw
    simp [evalFunc, hg, hw]
  · intro hg err random1 ho
    simp [evalFunc, hg, ho]
  · intro hg gameEndBattle random1 ho
    simp [evalFunc, hg, ho]

end EvalLemmas

/-- C17. At the non-terminal state 0 of `treeEngine` with `brokenPlayout`, the
playout succeeds and ends in state 9, `Winner` fails on state 9, and `Func`
returns the value 1/2 and no error; on the terminal state 9 itself `Func`
returns the error of `Winner`. -/
theorem C17_playout_Winner_error_is_dropped :
    treeEngine.IsGameEnd 0 = false ∧
    brokenPlayout.OneGame 0 0 = (.ok 9, 1) ∧
    brokenPlayout.Winner 9 = (0, some "winner unknown") ∧
    (NewRandomPlayoutEval treeEngine brokenPlayout).Func 0 0 = (.ok (1 / 2), 1) ∧
    treeEngine.IsGameEnd 9 = true ∧
    (NewRandomPlayoutEval treeEngine brokenPlayout).Func 9 0 = (.error "winner unknown", 0) :=
  ⟨rfl, rfl, rfl, rfl, rfl, rfl⟩


section C16
variable {B C R : Type} [DecidableEq C]

/-- C16. A call of `Select` that returns without error, from any heap and any
registry, leaves the registry either unchanged or extended by exactly one
pointer at its end; in the second case that pointer is the node returned, the
cycle flag is false, and the node is a cell that did not exist at entry and
holds the fresh node made for the returned live state. So the registry passed
in is a prefix of the one returned, at most one node is added, every pointer
of the registry stays at its position, and every cell that existed at entry
still exists with the same state, legal actions, statistics, expansion flag
and side. -/
theorem C16_new_node_ends_walk (E : Engine B C R) (fuel : Nat) (heap heap' : Heap B C)
    (node : Nat) (battle : B) (allNodes : Nodes) (X : ℚ) (random random' : R)
    (ret : SelectReturn B C)
    (h : Node.Select E fuel heap node battle allNodes X random = some (heap', random', .ok ret)) :
    (ret.allNodes = allNodes ∨
      (ret.allNodes = allNodes ++ [ret.node] ∧ ret.isRoopSelect = false ∧
        heap.length ≤ ret.node ∧ heap'[ret.node]? = some (NewNodePointer E ret.battle))) ∧
    allNodes <+: ret.allNodes ∧
    ret.allNodes.length ≤ allNodes.length + 1 ∧
    (∀ (i : Nat) (p : Nat), allNodes[i]? = some p → ret.allNodes[i]? = some p) ∧
    heap.length ≤ heap'.length ∧
    (∀ (p : Nat) (m : Node B C), heap[p]? = some m →
      ∃ m' : Node B C, heap'[p]? = some m' ∧ m'.Battle = m.Battle ∧
        m'.AvailableBattleCommands = m.AvailableBattleCommands ∧
        m'.NextNodeParam = m.NextNodeParam ∧ m'.IsAllExpansion = m.IsAllExpansion ∧
        m'.IsP1Node = m.IsP1Node) := by
  obtain ⟨hlen, hcore, hreg⟩ := SelectLoop_growth E X heap allNodes fuel
    ⟨heap, node, battle, allNodes, [], random⟩ heap' random' ret ⟨rfl, rfl⟩ h
  have hpre : allNodes <+: ret.allNodes := by
    rcases hreg with h1 | ⟨h1, _⟩
    · rw [h1]
    · rw [h1]; exact List.prefix_append _ _
  refine ⟨hreg, hpre, ?_, ?_, hlen, ?_⟩
  · rcases hreg with h1 | ⟨h1, _⟩
    · rw [h1]; omega
    · rw [h1]; simp
  · intro i p hi
    obtain ⟨t, ht⟩ := hpre
    rw [← ht, List.getElem?_append_left (List.getElem?_eq_some_iff.1 hi).1]
    exact hi
  · intro p m hm
    obtain ⟨m', hm', hc⟩ := hcore p m hm
    exact ⟨m', hm', hc⟩

end C16

theorem C16_new_node_witness :
    ∃ heap' random' ret, Node.Select cycleEngine 3 fullNodeHeap 0 0 [] 1 0
        = some (heap', random', .ok ret) ∧
      ret.allNodes = [] ++ [ret.node] ∧ ret.isRoopSelect = false ∧
      [] <+: ret.allNodes ∧ ret.allNodes.length ≤ ([] : Nodes).length + 1 :=
  have h : Node.Select cycleEngine 3 fullNodeHeap 0 0 [] 1 0
      = some (
        [{ Battle := 0, AvailableBattleCommands := [0], NextNodeParam := [(0, ⟨1, 1⟩)],
           NextNodes := [1], IsAllExpansion := true, IsP1Node := true, SelectCount := 1 },
         { Battle := 1, AvailableBattleCommands := [0], NextNodeParam := [],
           NextNodes := [], IsAllExpansion := false, IsP1Node := false, SelectCount := 0 }],
        2, .ok ⟨1, 1, [1], [⟨0, 0⟩], false⟩) := by with_unfolding_all rfl
  ⟨_, _, _, h, rfl, rfl,
    (C16_new_node_ends_walk cycleEngine 3 fullNodeHeap _ 0 0 [] 1 0 _ _ h).2.1,
    (C16_new_node_ends_walk cycleEngine 3 fullNodeHeap _ 0 0 [] 1 0 _ _ h).2.2.1⟩


section C20
variable {B C R : Type} [DecidableEq C]

/-- C20 (amended). With a reflexive `Equal`, when `Select` is entered at a node
whose stored state is `Equal` to the live state, the stored state of the
current node is `Equal` to the live state at the top of every pass of the
loop, and when `Select` returns a non-terminal live state with the cycle flag
false the returned node's state is `Equal` to the returned live state. The
action that `ExpansionWithEvalY` then applies to the live state is one of the
legal actions stored in the node; it is a legal action of the live state
under the further assumptions that `Equal` states have the same legal actions
and that every node of the heap stores the legal actions of its own state. -/
theorem C20_live_state_matches_node (E : Engine B C R) (eval : Eval B R) (X : ℚ)
    (heap : Heap B C) (node : Nat) (battle : B) (allNodes : Nodes) (random : R) (n0 : Node B C)
    (hrefl : ∀ b, E.Equal b b = true)
    (hn0 : heap[node]? = some n0) (hentry : E.Equal n0.Battle battle = true) :
    (∀ (k : Nat) (s : SelectState B C R),
      SelectIter E X k ⟨heap, node, battle, allNodes, [], random⟩ = some s →
      ∃ n : Node B C, s.heap[s.node]? = some n ∧ E.Equal n.Battle s.battle = true) ∧
    (∀ (fuel : Nat) (heap1 : Heap B C) (random1 : R) (ret : SelectReturn B C),
      Node.Select E fuel heap node battle allNodes X random = some (heap1, random1, .ok ret) →
      E.IsGameEnd ret.battle = false → ret.isRoopSelect = false →
      ∃ n : Node B C, heap1[ret.node]? = some n ∧ E.Equal n.Battle ret.battle = true ∧
        ∀ (heap2 : Heap B C) (random2 : R) (evalY : ℚ) (selects2 : Selects C),
          Node.ExpansionWithEvalY E eval heap1 ret.node ret.battle ret.selects random1
            = (heap2, random2, .ok (evalY, selects2)) →
          ∃ c : C, selects2 = ret.selects ++ [Select.mk ret.node c] ∧
            c ∈ n.AvailableBattleCommands ∧
            ((∀ a b, E.Equal a b = true → legalActions E a = legalActions E b) →
              (∀ (p : Nat) (m : Node B C), heap[p]? = some m →
                m.AvailableBattleCommands = legalActions E m.Battle) →
              c ∈ legalActions E ret.battle)) := by
  refine ⟨?_, ?_⟩
  · intro k s hk
    have := SelectIter_induct0 E X
      (fun s => ∃ n : Node B C, s.heap[s.node]? = some n ∧ E.Equal n.Battle s.battle = true)
      (fun s s' hP hs => by
        obtain ⟨_, _, _, _, hreg⟩ := SelectStep_inl_shape E X s s' hs
        rcases hreg with ⟨_, nn, h1, h2⟩ | ⟨_, _, h3⟩
        · exact ⟨nn, h1, h2⟩
        · exact ⟨_, h3, hrefl _⟩)
      k ⟨heap, node, battle, allNodes, [], random⟩ s ⟨n0, hn0, hentry⟩ hk
    exact this
  · intro fuel heap1 random1 ret hsel hge hroop
    have key := SelectLoop_induct0 E X
      (fun s => ((∀ (p : Nat) (m : Node B C), heap[p]? = some m →
            m.AvailableBattleCommands = legalActions E m.Battle) →
          ∀ (p : Nat) (m : Node B C), s.heap[p]? = some m →
            m.AvailableBattleCommands = legalActions E m.Battle) ∧
        ∃ n : Node B C, s.heap[s.node]? = some n ∧ E.Equal n.Battle s.battle = true)
      (fun r => ∀ (heap1 : Heap B C) (random1 : R) (ret : SelectReturn B C),
        r = (heap1, random1, .ok ret) → E.IsGameEnd ret.battle = false →
        ret.isRoopSelect = false →
        ∃ n : Node B C, heap1[ret.node]? = some n ∧ E.Equal n.Battle ret.battle = true ∧
          ((∀ (p : Nat) (m : Node B C), heap[p]? = some m →
            m.AvailableBattleCommands = legalActions E m.Battle) →
            n.AvailableBattleCommands = legalActions E n.Battle))
      ?_ ?_ fuel ⟨heap, node, battle, allNodes, [], random⟩ _ ⟨fun hm => hm, n0, hn0, hentry⟩
      hsel heap1 random1 ret rfl hge hroop
    · obtain ⟨n, hn, heq, hmade⟩ := key
      refine ⟨n, hn, heq, ?_⟩
      intro heap2 random2 evalY selects2 hexp
      obtain ⟨n', cmds, c, random', battle1, random'', hn', _, hcmds, hch, _, _, _, hsel2⟩ :=
        Expansion_ok_inv E eval heap1 heap2 ret.node ret.battle ret.selects selects2 random1
          random2 evalY hexp
      rw [hn] at hn'
      cases hn'
      have hmem : c ∈ n.AvailableBattleCommands := by
        have h1 := RandomChoice_mem E cmds random1 random' c hch
        rw [(NewNoExpansionBattleCommands_ok n cmds hcmds).2] at h1
        exact (List.mem_filter.1 h1).1
      refine ⟨c, hsel2, hmem, ?_⟩
      intro hlegal hm
      rw [← hlegal _ _ heq, ← hmade hm]
      exact hmem
    · intro s s' hP hs
      refine ⟨fun hm => ?_, ?_⟩
      · exact (SelectStep_inl_matches E X s s' hrefl ⟨hP.1 hm, hP.2⟩ hs).1
      · obtain ⟨_, _, _, _, hreg⟩ := SelectStep_inl_shape E X s s' hs
        rcases hreg with ⟨_, nn, h1, h2⟩ | ⟨_, _, h3⟩
        · exact ⟨nn, h1, h2⟩
        · exact ⟨_, h3, hrefl _⟩
    · intro s r hP hs heap1 random1 ret hr hge hroop
      subst hr
      obtain ⟨n, hn, hcases⟩ := SelectStep_inr_ok E X s heap1 random1 ret hs
      rcases hcases with ⟨_, rfl, _, rfl⟩ | ⟨_, _, _, _, _, _, _, _, _, hrest⟩
      · obtain ⟨hmade, n', hn', heq⟩ := hP
        exact ⟨n', hn', heq, fun hm => hmade hm _ _ hn'⟩
      · rcases hrest with ⟨hge', _⟩ | ⟨_, hroop', _⟩
        · rw [hge] at hge'
          cases hge'
        · rw [hroop] at hroop'
          cases hroop'

end C20

/-- C20 as stated fails in its last clause when `Equal` holds between states
with different legal actions: after three simulations the fourth selection
reaches state 2, finds the node stored for state 1 (the two are `Equal`),
and the action then expanded, 1, is legal in state 1 but not in state 2. -/
theorem C20_counterexample :
    (∀ b, coarseEngine.Equal b b = true) ∧
    ∃ r heap1 random1 ret n heap2 random2 evalY c,
      RunMCTS coarseEngine drawEval 5 0 3 1 0 = some r ∧ r.fault = none ∧
      Node.Select coarseEngine 5 r.heap 0 0 r.allNodes 1 r.random
        = some (heap1, random1, .ok ret) ∧
      coarseEngine.IsGameEnd ret.battle = false ∧ ret.isRoopSelect = false ∧
      heap1[ret.node]? = some n ∧ coarseEngine.Equal n.Battle ret.battle = true ∧
      Node.ExpansionWithEvalY coarseEngine drawEval heap1 ret.node ret.battle ret.selects random1
        = (heap2, random2, .ok (evalY, ret.selects ++ [Select.mk ret.node c])) ∧
      c ∈ legalActions coarseEngine n.Battle ∧
      c ∉ legalActions coarseEngine ret.battle :=
  ⟨by intro b; simp [coarseEngine],
   ⟨[{ Battle := 0, AvailableBattleCommands := [0, 1],
       NextNodeParam := [(0, ⟨1, 2⟩), (1, ⟨1 / 2, 1⟩)],
       NextNodes := [1], IsAllExpansion := true, IsP1Node := true, SelectCount := 0 },
     { Battle := 1, AvailableBattleCommands := [0, 1], NextNodeParam := [(0, ⟨1 / 2, 1⟩)],
       NextNodes := [], IsAllExpansion := false, IsP1Node := true, SelectCount := 0 }],
     8, [0, 1], none⟩,
   [{ Battle := 0, AvailableBattleCommands := [0, 1],
      NextNodeParam := [(0, ⟨1, 2⟩), (1, ⟨1 / 2, 1⟩)],
      NextNodes := [1], IsAllExpansion := true, IsP1Node := true, SelectCount := 1 },
    { Battle := 1, AvailableBattleCommands := [0, 1], NextNodeParam := [(0, ⟨1 / 2, 1⟩)],
      NextNodes := [], IsAllExpansion := false, IsP1Node := true, SelectCount := 0 }],
   10, ⟨1, 2, [0, 1], [⟨0, 1⟩], false⟩,
   { Battle := 1, AvailableBattleCommands := [0, 1], NextNodeParam := [(0, ⟨1 / 2, 1⟩)],
     NextNodes := [], IsAllExpansion := false, IsP1Node := true, SelectCount := 0 },
   [{ Battle := 0, AvailableBattleCommands := [0, 1],
      NextNodeParam := [(0, ⟨1, 2⟩), (1, ⟨1 / 2, 1⟩)],
      NextNodes := [1], IsAllExpansion := true, IsP1Node := true, SelectCount := 1 },
    { Battle := 1, AvailableBattleCommands := [0, 1],
      NextNodeParam := [(0, ⟨1 / 2, 1⟩), (1, ⟨0, 0⟩)],
      NextNodes := [], IsAllExpansion := true, IsP1Node := true, SelectCount := 0 }],
   12, 1 / 2, 1,
   by with_unfolding_all rfl, rfl, by with_unfolding_all rfl, by decide, rfl, rfl, by decide,
   by with_unfolding_all rfl, by decide, by decide⟩

theorem C20_live_state_witness :
    (∀ b, cycleEngine.Equal b b = true) ∧
    ∃ heap1 random1 ret n,
      Node.Select cycleEngine 3 fullNodeHeap 0 0 [] 1 0 = some (heap1, random1, .ok ret) ∧
      heap1[ret.node]? = some n ∧ cycleEngine.Equal n.Battle ret.battle = true ∧
      ∀ (heap2 : Heap Nat Nat) (random2 : Nat) (evalY : ℚ) (selects2 : Selects Nat),
        Node.ExpansionWithEvalY cycleEngine drawEval heap1 ret.node ret.battle ret.selects random1
          = (heap2, random2, .ok (evalY, selects2)) →
        ∃ c : Nat, selects2 = ret.selects ++ [Select.mk ret.node c] ∧
          c ∈ legalActions cycleEngine ret.battle := by
  have hrefl : ∀ b, cycleEngine.Equal b b = true := by intro b; simp [cycleEngine]
  have h : Node.Select cycleEngine 3 fullNodeHeap 0 0 [] 1 0
      = some (
        [{ Battle := 0, AvailableBattleCommands := [0], NextNodeParam := [(0, ⟨1, 1⟩)],
           NextNodes := [1], IsAllExpansion := true, IsP1Node := true, SelectCount := 1 },
         { Battle := 1, AvailableBattleCommands := [0], NextNodeParam := [],
           NextNodes := [], IsAllExpansion := false, IsP1Node := false, SelectCount := 0 }],
        2, .ok ⟨1, 1, [1], [⟨0, 0⟩], false⟩) := by with_unfolding_all rfl
  obtain ⟨n, hn, heq, hexp⟩ := (C20_live_state_matches_node cycleEngine drawEval 1 fullNodeHeap
    0 0 [] 0 _ hrefl rfl rfl).2 3 _ _ _ h rfl rfl
  refine ⟨hrefl, _, _, _, n, h, hn, heq, ?_⟩
  intro heap2 random2 evalY selects2 hx
  obtain ⟨c, h1, _, h3⟩ := hexp heap2 random2 evalY selects2 hx
  refine ⟨c, h1, h3 ?_ ?_⟩
  · intro a b _
    simp [legalActions, cycleEngine]
  · intro p m hm
    cases p with
    | zero =>
      simp only [fullNodeHeap, List.getElem?_cons_zero, Option.some.injEq] at hm
      subst hm
      rfl
    | succ q => simp [fullNodeHeap] at hm


section C11
variable {B C R : Type} [DecidableEq C]

/-- C11. After `j` simulations that completed, if simulation `j + 1` fails then
for every simulation count above `j` `RunMCTS` returns exactly that error,
the empty registry, and the heap and random source as the failing simulation
left them (no further simulation ran). The simulation fails with the error
of `Select`, or of the evaluation phase; `Select` fails with the error of
`Run`; the evaluation phase fails with the error of the evaluator on a
terminal or cycle state, with the already-expanded error of
`ExpansionWithEvalY` on a flagged node, with the error of `Run` in the
expansion and with the error of the evaluator after the expansion. Whenever
`RunMCTS` returns an error its registry is empty. -/
theorem C11_failure_aborts_search (E : Engine B C R) (eval : Eval B R) (fuel : Nat)
    (rootBattle : B) (X : ℚ) (random : R) (j : Nat) (r : RunResult B C R)
    (hj : RunMCTS E eval fuel rootBattle (j : Int) X random = some r) (hok : r.fault = none) :
    (∀ (heap1 : Heap B C) (random1 : R) (e : Fault),
      simulation E eval fuel rootBattle X r.heap r.allNodes r.random
        = some (heap1, random1, .error e) →
      ∀ simuNum : Int, (j : Int) < simuNum →
        RunMCTS E eval fuel rootBattle simuNum X random = some ⟨heap1, random1, [], some e⟩) ∧
    (∀ (heap1 : Heap B C) (random1 : R) (e : Fault),
      Node.Select E fuel r.heap 0 rootBattle r.allNodes X r.random
        = some (heap1, random1, .error e) →
      simulation E eval fuel rootBattle X r.heap r.allNodes r.random
        = some (heap1, random1, .error e)) ∧
    (∀ (heap1 heap2 : Heap B C) (random1 random2 : R) (sel : SelectReturn B C) (e : Fault),
      Node.Select E fuel r.heap 0 rootBattle r.allNodes X r.random
        = some (heap1, random1, .ok sel) →
      evaluatePhase E eval heap1 sel random1 = (heap2, random2, .error e) →
      simulation E eval fuel rootBattle X r.heap r.allNodes r.random
        = some (heap2, random2, .error e)) ∧
    (∀ (k : Nat) (s : SelectState B C R) (n : Node B C) (cmds : List C) (c : C)
        (random1 random2 : R) (msg : String),
      SelectIter E X k ⟨r.heap, 0, rootBattle, r.allNodes, [], r.random⟩ = some s →
      s.heap[s.node]? = some n → n.IsAllExpansion = true →
      NextNodeParam.NewMaxUCBBattleCommands E n.NextNodeParam X = .ok cmds →
      RandomChoice E cmds s.random = .ok (c, random1) →
      E.Run s.battle c random1 = (.error msg, random2) → k < fuel →
      Node.Select E fuel r.heap 0 rootBattle r.allNodes X r.random
        = some (s.heap.set s.node { n with SelectCount := n.SelectCount + 1 }, random2,
            .error (.err msg))) ∧
    (∀ (heap1 : Heap B C) (random1 random2 : R) (sel : SelectReturn B C) (msg : String),
      (E.IsGameEnd sel.battle || sel.isRoopSelect) = true →
      eval.Func sel.battle random1 = (.error msg, random2) →
      evaluatePhase E eval heap1 sel random1 = (heap1, random2, .error (.err msg))) ∧
    (∀ (heap1 : Heap B C) (random1 : R) (sel : SelectReturn B C) (n : Node B C),
      (E.IsGameEnd sel.battle || sel.isRoopSelect) = false →
      heap1[sel.node]? = some n → n.IsAllExpansion = true →
      evaluatePhase E eval heap1 sel random1
        = (heap1, random1, .error (.err "展開済みのNodeである"))) ∧
    (∀ (heap1 : Heap B C) (random1 random2 random3 : R) (sel : SelectReturn B C) (n : Node B C)
        (cmds : List C) (c : C) (msg : String),
      (E.IsGameEnd sel.battle || sel.isRoopSelect) = false →
      heap1[sel.node]? = some n → n.IsAllExpansion = false →
      n.NewNoExpansionBattleCommands = .ok cmds →
      RandomChoice E cmds random1 = .ok (c, random2) →
      E.Run sel.battle c random2 = (.error msg, random3) →
      evaluatePhase E eval heap1 sel random1 = (heap1, random3, .error (.err msg))) ∧
    (∀ (heap1 : Heap B C) (random1 random2 random3 random4 : R) (sel : SelectReturn B C)
        (n : Node B C) (cmds : List C) (c : C) (battle1 : B) (msg : String),
      (E.IsGameEnd sel.battle || sel.isRoopSelect) = false →
      heap1[sel.node]? = some n → n.IsAllExpansion = false →
      n.NewNoExpansionBattleCommands = .ok cmds →
      RandomChoice E cmds random1 = .ok (c, random2) →
      E.Run sel.battle c random2 = (.ok battle1, random3) →
      eval.Func battle1 random3 = (.error msg, random4) →
      evaluatePhase E eval heap1 sel random1
        = (heap1.set sel.node (expandedNode n c), random4, .error (.err msg))) ∧
    (∀ (simuNum : Int) (r1 : RunResult B C R),
      RunMCTS E eval fuel rootBattle simuNum X random = some r1 → r1.fault ≠ none →
      r1.allNodes = []) := by
  refine ⟨?_, ?_, ?_, ?_, ?_, ?_, ?_, ?_, ?_⟩
  · intro heap1 random1 e hsim simuNum hlt
    obtain ⟨m, hm⟩ : ∃ m : Nat, simuNum.toNat = j + (m + 1) :=
      ⟨simuNum.toNat - j - 1, by omega⟩
    unfold RunMCTS at hj ⊢
    simp only [Int.toNat_ofNat] at hj
    rw [hm, RunMCTSLoop_add E eval fuel rootBattle X (m + 1) j _ _ _ r hj hok]
    simp only [RunMCTSLoop, hsim]
  · intro heap1 random1 e hsel
    rw [simulation_eq, hsel]
  · intro heap1 heap2 random1 random2 sel e hsel hev
    rw [simulation_eq, hsel]
    simp only [hev]
  · intro k s n cmds c random1 random2 msg hk hn hflag hcmds hch hrun hlt
    refine SelectLoop_of_iter E X _ k _ s hk ?_ fuel hlt
    simp [SelectStep, hn, hflag, hcmds, hch, hrun]
  · intro heap1 random1 random2 sel msg hcond hev
    simp [evaluatePhase, hcond, hev]
  · intro heap1 random1 sel n hcond hn hflag
    simp [evaluatePhase, hcond, Node.ExpansionWithEvalY, hn, hflag]
  · intro heap1 random1 random2 random3 sel n cmds c msg hcond hn hflag hcmds hch hrun
    simp [evaluatePhase, hcond, Node.ExpansionWithEvalY, hn, hflag, hcmds, hch, hrun]
  · intro heap1 random1 random2 random3 random4 sel n cmds c battle1 msg hcond hn hflag hcmds
      hch hrun hev
    simp [evaluatePhase, hcond, Node.ExpansionWithEvalY, hn, hflag, hcmds, hch, hrun, hev,
      expandedNode]
  · intro simuNum r1 h hf
    exact RunMCTSLoop_fault_nil E eval fuel rootBattle X _ _ _ _ r1 h hf

end C11

theorem C11_failure_witness :
    RunMCTS treeEngine failEval 4 0 ((0 : Nat) : Int) 1 0
      = some ⟨[NewNodePointer treeEngine 0], 0, [0], none⟩ ∧
    simulation treeEngine failEval 4 0 1 [NewNodePointer treeEngine 0] [0] 0
      = some ([expandedNode (NewNodePointer treeEngine 0) 0], 2, .error (.err "no winner")) ∧
    RunMCTS treeEngine failEval 4 0 5 1 0
      = some ⟨[expandedNode (NewNodePointer treeEngine 0) 0], 2, [], some (.err "no winner")⟩ :=
  have hj : RunMCTS treeEngine failEval 4 0 ((0 : Nat) : Int) 1 0
      = some ⟨[NewNodePointer treeEngine 0], 0, [0], none⟩ := rfl
  have hsim : simulation treeEngine failEval 4 0 1 [NewNodePointer treeEngine 0] [0] 0
      = some ([expandedNode (NewNodePointer treeEngine 0) 0], 2, .error (.err "no winner")) := by
    with_unfolding_all rfl
  ⟨hj, hsim,
    (C11_failure_aborts_search treeEngine failEval 4 0 1 0 0 _ hj rfl).1 _ _ _ hsim 5
      (by decide)⟩


section C14
variable {B C R : Type} [DecidableEq C]

/-- C14. In the state a successful `RunMCTS` leaves after any number of
simulations every registry node has `SelectCount` 0. In the selection of the
next simulation, at the top of every pass and when `Select` returns, the path
holds no node twice and every registry node has `SelectCount` 1 if it is on
the path and 0 otherwise; the evaluation phase leaves these counts as they
are, and `Backward` then succeeds and leaves every registry node with
`SelectCount` 0. -/
theorem C14_cycle_markers_cleared (E : Engine B C R) (eval : Eval B R) (fuel : Nat)
    (rootBattle : B) (simuNum : Int) (X : ℚ) (random : R) (r : RunResult B C R)
    (h : RunMCTS E eval fuel rootBattle simuNum X random = some r) (hok : r.fault = none) :
    (∀ p ∈ r.allNodes, ∃ n : Node B C, r.heap[p]? = some n ∧ n.SelectCount = 0) ∧
    (∀ (k : Nat) (s : SelectState B C R),
      SelectIter E X k ⟨r.heap, 0, rootBattle, r.allNodes, [], r.random⟩ = some s →
      (s.selects.map Select.Node).Nodup ∧
      ∀ p ∈ s.allNodes, ∃ n : Node B C, s.heap[p]? = some n ∧
        n.SelectCount = if p ∈ s.selects.map Select.Node then 1 else 0) ∧
    (∀ (fuel1 : Nat) (heap1 : Heap B C) (random1 : R) (ret : SelectReturn B C),
      Node.Select E fuel1 r.heap 0 rootBattle r.allNodes X r.random
        = some (heap1, random1, .ok ret) →
      (ret.selects.map Select.Node).Nodup ∧
      (∀ p ∈ ret.allNodes, ∃ n : Node B C, heap1[p]? = some n ∧
        n.SelectCount = if p ∈ ret.selects.map Select.Node then 1 else 0) ∧
      ∀ (heap2 : Heap B C) (random2 : R) (evalY : ℚ) (selects : Selects C),
        evaluatePhase E eval heap1 ret random1 = (heap2, random2, .ok (evalY, selects)) →
        (∀ p ∈ ret.allNodes, ∃ n : Node B C, heap2[p]? = some n ∧
          n.SelectCount = if p ∈ ret.selects.map Select.Node then 1 else 0) ∧
        ∃ heap3, Selects.Backward eval evalY selects heap2 = .ok heap3 ∧
          ∀ p ∈ ret.allNodes, ∃ n : Node B C, heap3[p]? = some n ∧ n.SelectCount = 0) := by
  have inv := RunMCTS_RunInv E eval fuel rootBattle simuNum X random r h hok
  refine ⟨?_, ?_, ?_⟩
  · intro p hp
    exact ⟨_, List.getElem?_eq_getElem (inv.valid p hp),
      inv.count p hp _ (List.getElem?_eq_getElem (inv.valid p hp))⟩
  · intro k s hk
    obtain ⟨sinv, _⟩ := SelectIter_from_RunInv E rootBattle _ r.heap r.allNodes X r.random k s
      inv hk
    refine ⟨sinv.nodup, ?_⟩
    intro p hp
    exact ⟨_, List.getElem?_eq_getElem (sinv.valid p hp),
      sinv.count p hp _ (List.getElem?_eq_getElem (sinv.valid p hp))⟩
  · intro fuel1 heap1 random1 ret hsel
    obtain ⟨post, _⟩ := Select_from_RunInv E rootBattle _ r.heap heap1 r.allNodes fuel1 X
      r.random random1 ret inv hsel
    have hcount1 : ∀ p ∈ ret.allNodes, ∃ n : Node B C, heap1[p]? = some n ∧
        n.SelectCount = if p ∈ ret.selects.map Select.Node then 1 else 0 := by
      intro p hp
      exact ⟨_, List.getElem?_eq_getElem (post.valid p hp),
        post.count p hp _ (List.getElem?_eq_getElem (post.valid p hp))⟩
    refine ⟨post.nodup, hcount1, ?_⟩
    intro heap2 random2 evalY selects hev
    have mid := MidInv_of_evaluatePhase E eval rootBattle _ r.heap heap1 heap2 r.allNodes fuel1 X
      r.random random1 random2 ret evalY selects inv hsel hev
    refine ⟨?_, ?_⟩
    · rcases evaluatePhase_ok_cases E eval heap1 heap2 ret random1 random2 evalY selects hev with
        ⟨_, rfl, _, _⟩ | ⟨_, hex⟩
      · exact hcount1
      · obtain ⟨n, cmds, c, ra, b1, rb, hn, _, _, _, _, _, hheap, _⟩ :=
          Expansion_ok_inv E eval heap1 heap2 ret.node ret.battle ret.selects selects random1
            random2 evalY hex
        have hlt : ret.node < heap1.length := (List.getElem?_eq_some_iff.1 hn).1
        intro p hp
        obtain ⟨m, hm, hcnt⟩ := hcount1 p hp
        rcases getElem?_set_cases heap1 ret.node p (expandedNode n c) hlt with
          ⟨rfl, hx⟩ | ⟨_, hx⟩
        · rw [hn] at hm
          cases hm
          exact ⟨expandedNode n c, by rw [hheap]; exact hx, hcnt⟩
        · exact ⟨m, by rw [hheap, hx]; exact hm, hcnt⟩
    · obtain ⟨heap3, hb⟩ := MidInv_Backward_ok E eval rootBattle _ heap2 ret.allNodes selects
        evalY mid
      have inv3 := RunInv_Backward E eval rootBattle _ heap2 heap3 ret.allNodes selects evalY
        mid hb
      refine ⟨heap3, hb, ?_⟩
      intro p hp
      exact ⟨_, List.getElem?_eq_getElem (inv3.valid p hp),
        inv3.count p hp _ (List.getElem?_eq_getElem (inv3.valid p hp))⟩

end C14

theorem C14_cycle_markers_witness :
    ∃ r, RunMCTS treeEngine drawEval 8 0 7 1 0 = some r ∧ r.fault = none ∧
      ∀ p ∈ r.allNodes, ∃ n : Node Nat Nat, r.heap[p]? = some n ∧ n.SelectCount = 0 := by
  obtain ⟨r, h, hok⟩ := succeeded_iff (RunMCTS treeEngine drawEval 8 0 7 1 0) (by decide!)
  exact ⟨r, h, hok, (C14_cycle_markers_cleared treeEngine drawEval 8 0 7 1 0 r h hok).1⟩


section C19
variable {B C R : Type} [DecidableEq C]

/-- C19. In the simulation that follows any number of completed simulations,
once `Select` and the evaluation phase have returned values, the path handed
to `Backward` is the path of `Select`, followed by the pair appended by
`ExpansionWithEvalY` if it ran; no node occurs twice on it and every pair has
a statistics entry at its node. `Backward` then returns without a fault, the
simulation completes, every node on the path has exactly one more visit in
total (the entry of its pair gets one more visit, its value the evaluation
seen from the node's side), and cells off the path are untouched. -/
theorem C19_no_node_counted_twice (E : Engine B C R) (eval : Eval B R) (fuel : Nat)
    (rootBattle : B) (simuNum : Int) (X : ℚ) (random : R) (r : RunResult B C R)
    (heap1 heap2 : Heap B C) (random1 random2 : R) (sel : SelectReturn B C) (evalY : ℚ)
    (selects : Selects C)
    (h : RunMCTS E eval fuel rootBattle simuNum X random = some r) (hok : r.fault = none)
    (hsel : Node.Select E fuel r.heap 0 rootBattle r.allNodes X r.random
      = some (heap1, random1, .ok sel))
    (hev : evaluatePhase E eval heap1 sel random1 = (heap2, random2, .ok (evalY, selects))) :
    (selects = sel.selects ∨ ∃ c, selects = sel.selects ++ [Select.mk sel.node c]) ∧
    (selects.map Select.Node).Nodup ∧
    (∀ s ∈ selects, ∃ n p, heap2[s.Node]? = some n ∧
      NextNodeParam.get n.NextNodeParam s.BattleCommand = some p) ∧
    ∃ heap3, Selects.Backward eval evalY selects heap2 = .ok heap3 ∧
      simulation E eval fuel rootBattle X r.heap r.allNodes r.random
        = some (heap3, random2, .ok sel.allNodes) ∧
      (∀ s ∈ selects, ∃ n p n3, heap2[s.Node]? = some n ∧
        NextNodeParam.get n.NextNodeParam s.BattleCommand = some p ∧
        heap3[s.Node]? = some n3 ∧
        NextNodeParam.get n3.NextNodeParam s.BattleCommand
          = some ⟨p.TotalValue + (if n.IsP1Node then evalY else eval.ReverseFunc evalY),
              p.SimuNum + 1⟩ ∧
        (∀ c, c ≠ s.BattleCommand →
          NextNodeParam.get n3.NextNodeParam c = NextNodeParam.get n.NextNodeParam c) ∧
        NextNodeParam.TotalSimuNum n3.NextNodeParam
          = NextNodeParam.TotalSimuNum n.NextNodeParam + 1) ∧
      (∀ p, p ∉ selects.map Select.Node → heap3[p]? = heap2[p]?) := by
  have inv := RunMCTS_RunInv E eval fuel rootBattle simuNum X random r h hok
  have mid := MidInv_of_evaluatePhase E eval rootBattle _ r.heap heap1 heap2 r.allNodes fuel X
    r.random random1 random2 sel evalY selects inv hsel hev
  have hpath : ∀ s ∈ selects, ∃ n p, heap2[s.Node]? = some n ∧
      NextNodeParam.get n.NextNodeParam s.BattleCommand = some p := by
    intro s hs
    obtain ⟨_, n, p, hn, hp⟩ := mid.path s hs
    exact ⟨n, p, hn, hp⟩
  refine ⟨?_, mid.nodup, hpath, ?_⟩
  · rcases evaluatePhase_ok_cases E eval heap1 heap2 sel random1 random2 evalY selects hev with
      ⟨_, _, hs, _⟩ | ⟨_, hex⟩
    · exact Or.inl hs
    · obtain ⟨n, cmds, c, ra, b1, rb, _, _, _, _, _, _, _, hs⟩ :=
        Expansion_ok_inv E eval heap1 heap2 sel.node sel.battle sel.selects selects random1
          random2 evalY hex
      exact Or.inr ⟨c, hs⟩
  · obtain ⟨heap3, hb, hspec⟩ := Backward_spec eval evalY selects heap2 mid.nodup hpath
    refine ⟨heap3, hb, ?_, ?_, ?_⟩
    · rw [simulation_eq, hsel]
      simp only [hev, hb]
    · intro s hs
      obtain ⟨n, p, hn, hp⟩ := hpath s hs
      refine ⟨n, p, _, hn, hp, hspec s hs n p hn hp, ?_, ?_, ?_⟩
      · exact NextNodeParam.get_set_same _ _ _
      · intro c hc
        exact NextNodeParam.get_set_ne _ _ (Ne.symm hc)
      · show NextNodeParam.TotalSimuNum (NextNodeParam.set n.NextNodeParam s.BattleCommand _) = _
        rw [NextNodeParam.TotalSimuNum_set_of_get_some _ _ _ p hp]
        simp only
        omega
    · intro p hp
      exact Backward_frame eval evalY selects heap2 heap3 hb p hp

end C19

theorem C19_no_node_counted_twice_witness :
    (([Select.mk 0 1, Select.mk 2 0] : Selects Nat).map Select.Node).Nodup ∧
    (∃ heap3, Selects.Backward drawEval (1 / 2) [Select.mk 0 1, Select.mk 2 0] treeHeap4e
        = .ok heap3 ∧
      simulation treeEngine drawEval 9 0 1 treeHeap3 [0, 1] 8
        = some (heap3, 12, .ok [0, 1, 2]) ∧
      ∀ s ∈ ([Select.mk 0 1, Select.mk 2 0] : Selects Nat), ∃ n n3 : Node Nat Nat,
        treeHeap4e[s.Node]? = some n ∧ heap3[s.Node]? = some n3 ∧
        NextNodeParam.TotalSimuNum n3.NextNodeParam
          = NextNodeParam.TotalSimuNum n.NextNodeParam + 1) ∧
    (([Select.mk 0 0, Select.mk 1 0] : Selects Nat).map Select.Node).Nodup ∧
    (∃ heap3, Selects.Backward drawEval (1 / 2) [Select.mk 0 0, Select.mk 1 0] cycleHeap2s
        = .ok heap3 ∧
      simulation cycleEngine drawEval 9 0 1 cycleHeap2 [0, 1] 6
        = some (heap3, 10, .ok [0, 1]) ∧
      ∀ s ∈ ([Select.mk 0 0, Select.mk 1 0] : Selects Nat), ∃ n n3 : Node Nat Nat,
        cycleHeap2s[s.Node]? = some n ∧ heap3[s.Node]? = some n3 ∧
        NextNodeParam.TotalSimuNum n3.NextNodeParam
          = NextNodeParam.TotalSimuNum n.NextNodeParam + 1) := by
  have h : RunMCTS treeEngine drawEval 9 0 3 1 0 = some ⟨treeHeap3, 8, [0, 1], none⟩ := by
    with_unfolding_all rfl
  have hsel : Node.Select treeEngine 9 treeHeap3 0 0 [0, 1] 1 8
      = some (treeHeap4, 10, .ok ⟨2, 2, [0, 1, 2], [Select.mk 0 1], false⟩) := by
    with_unfolding_all rfl
  have hev : evaluatePhase treeEngine drawEval treeHeap4
      ⟨2, 2, [0, 1, 2], [Select.mk 0 1], false⟩ 10
      = (treeHeap4e, 12, .ok (1 / 2, [Select.mk 0 1, Select.mk 2 0])) := by
    with_unfolding_all rfl
  have h' : RunMCTS cycleEngine drawEval 9 0 2 1 0 = some ⟨cycleHeap2, 6, [0, 1], none⟩ := by
    with_unfolding_all rfl
  have hsel' : Node.Select cycleEngine 9 cycleHeap2 0 0 [0, 1] 1 6
      = some (cycleHeap2s, 10, .ok ⟨1, 0, [0, 1], [Select.mk 0 0, Select.mk 1 0], true⟩) := by
    with_unfolding_all rfl
  have hev' : evaluatePhase cycleEngine drawEval cycleHeap2s
      ⟨1, 0, [0, 1], [Select.mk 0 0, Select.mk 1 0], true⟩ 10
      = (cycleHeap2s, 10, .ok (1 / 2, [Select.mk 0 0, Select.mk 1 0])) := by
    with_unfolding_all rfl
  obtain ⟨_, hnd, _, heap3, hb, hsim, hvis, _⟩ :=
    C19_no_node_counted_twice treeEngine drawEval 9 0 3 1 0 _ _ _ _ _ _ _ _ h rfl hsel hev
  obtain ⟨_, hnd', _, heap3', hb', hsim', hvis', _⟩ :=
    C19_no_node_counted_twice cycleEngine drawEval 9 0 2 1 0 _ _ _ _ _ _ _ _ h' rfl hsel' hev'
  refine ⟨hnd, ⟨heap3, hb, hsim, ?_⟩, hnd', ⟨heap3', hb', hsim', ?_⟩⟩
  · intro s hs
    obtain ⟨n, p, n3, h1, _, h3, _, _, h6⟩ := hvis s hs
    exact ⟨n, n3, h1, h3, h6⟩
  · intro s hs
    obtain ⟨n, p, n3, h1, _, h3, _, _, h6⟩ := hvis' s hs
    exact ⟨n, n3, h1, h3, h6⟩


section C18
variable {B C R : Type} [DecidableEq C]

/-- C18. In the state a successful `RunMCTS` leaves after any number of
simulations, which is the state at the start of the next simulation, every
statistics entry of every registry node has visit count at least 1 and every
fully expanded registry node has a non-empty statistics map. So at the top of
every pass of the selection that follows, the current node is such a node:
`Average` returns a value for each of its entries, an error of `UCBs` on its
map can only be an error returned by `UpperConfidenceBound1`, and if it is
fully expanded its action list is non-empty and `MaxUCB` does not panic. -/
theorem C18_degenerate_branches_unreachable (E : Engine B C R) (eval : Eval B R) (fuel : Nat)
    (rootBattle : B) (simuNum : Int) (X : ℚ) (random : R) (r : RunResult B C R)
    (h : RunMCTS E eval fuel rootBattle simuNum X random = some r) (hok : r.fault = none) :
    (∀ p ∈ r.allNodes, ∃ n : Node B C, r.heap[p]? = some n ∧
      (∀ e ∈ n.NextNodeParam, 1 ≤ e.2.SimuNum) ∧
      (n.IsAllExpansion = true → n.NextNodeParam ≠ [])) ∧
    (∀ (k : Nat) (s : SelectState B C R),
      SelectIter E X k ⟨r.heap, 0, rootBattle, r.allNodes, [], r.random⟩ = some s →
      ∃ n : Node B C, s.heap[s.node]? = some n ∧
        (∀ e ∈ n.NextNodeParam, 1 ≤ e.2.SimuNum ∧
          e.2.Average = .ok (e.2.TotalValue / (e.2.SimuNum : ℚ))) ∧
        (∀ f, NextNodeParam.UCBs E n.NextNodeParam X = .error f →
          ∃ e ∈ n.NextNodeParam, ∃ msg,
            E.UpperConfidenceBound1 (e.2.TotalValue / (e.2.SimuNum : ℚ))
              (NextNodeParam.TotalSimuNum n.NextNodeParam) e.2.SimuNum X = .error msg ∧
            f = .err msg) ∧
        (n.IsAllExpansion = true →
          NextNodeParam.NewBattleCommands n.NextNodeParam ≠ [] ∧
          ∀ msg, NextNodeParam.MaxUCB E n.NextNodeParam X ≠ .error (.panic msg))) := by
  have inv := RunMCTS_RunInv E eval fuel rootBattle simuNum X random r h hok
  have hvis : ∀ n : Node B C, NodeOK E (fun _ => False) n →
      ∀ e ∈ n.NextNodeParam, 1 ≤ e.2.SimuNum := by
    intro n ok e he
    rcases ok.visited e he with h1 | ⟨_, h2⟩
    · exact h1
    · exact absurd h2 id
  refine ⟨?_, ?_⟩
  · intro p hp
    have hn := List.getElem?_eq_getElem (inv.valid p hp)
    have ok := inv.nodeOK p hp _ hn
    exact ⟨_, hn, hvis _ ok, fun hf => (ok.flag.1 hf).1⟩
  · intro k s hk
    obtain ⟨sinv, hall⟩ := SelectIter_from_RunInv E rootBattle _ r.heap r.allNodes X r.random k s
      inv hk
    obtain ⟨n, hn, ok⟩ := hall s.node sinv.node_mem
    have hnz : ∀ e ∈ n.NextNodeParam, e.2.SimuNum ≠ 0 := by
      intro e he
      have := hvis n ok e he
      omega
    refine ⟨n, hn, ?_, ?_, ?_⟩
    · intro e he
      exact ⟨hvis n ok e he, Average_ok e.2 (hnz e he)⟩
    · intro f hf
      exact UCBsLoop_error E _ X f n.NextNodeParam hnz hf
    · intro hflag
      have hne : n.NextNodeParam ≠ [] := (ok.flag.1 hflag).1
      refine ⟨?_, fun msg => MaxUCB_no_panic E n.NextNodeParam X hne hnz msg⟩
      simpa [NextNodeParam.NewBattleCommands] using hne

end C18

theorem C18_degenerate_branches_witness :
    ∃ r, RunMCTS treeEngine drawEval 8 0 7 1 0 = some r ∧ r.fault = none ∧
      ∀ p ∈ r.allNodes, ∃ n : Node Nat Nat, r.heap[p]? = some n ∧
        (∀ e ∈ n.NextNodeParam, 1 ≤ e.2.SimuNum) ∧
        (n.IsAllExpansion = true → n.NextNodeParam ≠ []) := by
  obtain ⟨r, h, hok⟩ := succeeded_iff (RunMCTS treeEngine drawEval 8 0 7 1 0) (by decide!)
  exact ⟨r, h, hok, (C18_degenerate_branches_unreachable treeEngine drawEval 8 0 7 1 0 r h hok).1⟩


/-- C15. With `twiceEngine`, whose single command is listed twice, the first
simulation from state 0 expands that command and leaves the root not marked
fully expanded. In the second simulation `Select` returns the root with the
non-terminal state 0 and the cycle flag false, although every legal action
of the root has a statistics entry; `ExpansionWithEvalY` then panics in
`RandomChoice` on the empty list of untried actions, and so does `RunMCTS`
with two simulations. -/
theorem C15_second_simulation_panics :
    RunMCTS twiceEngine drawEval 3 0 1 1 0 = some ⟨twiceHeap, 0, [0], none⟩ ∧
    Node.Select twiceEngine 3 twiceHeap 0 0 [0] 1 0
      = some (twiceHeap, 0, .ok ⟨0, 0, [0], [], false⟩) ∧
    twiceEngine.IsGameEnd 0 = false ∧
    (∃ n : Node Nat Nat, twiceHeap[0]? = some n ∧ n.IsAllExpansion = false ∧
      (∀ c ∈ legalActions twiceEngine 0, NextNodeParam.get n.NextNodeParam c ≠ none) ∧
      (∀ c ∈ n.AvailableBattleCommands, NextNodeParam.get n.NextNodeParam c ≠ none)) ∧
    Node.ExpansionWithEvalY twiceEngine drawEval twiceHeap 0 0 [] 0
      = (twiceHeap, 0, .error (.panic "invalid argument to Intn")) ∧
    RunMCTS twiceEngine drawEval 3 0 2 1 0
      = some ⟨twiceHeap, 0, [], some (.panic "invalid argument to Intn")⟩ :=
  ⟨by with_unfolding_all rfl, by with_unfolding_all rfl, by decide,
   ⟨_, rfl, rfl, by simp [twiceHeap, legalActions, twiceEngine, NextNodeParam.get],
     by simp [twiceHeap, NextNodeParam.get]⟩,
   by with_unfolding_all rfl, by with_unfolding_all rfl⟩


section C13
variable {B C R : Type} [DecidableEq C]

/-- C13. For a non-terminal root state with at least one listed legal action,
after `j` simulations that completed, `j` at most the number of listed legal
actions, the root is the only registry node, its statistics have exactly `j`
entries, their keys are distinct legal actions of the root state, every entry
has visit count 1 and as total value the evaluation of the state its action
leads to, reversed with `ReverseFunc` when the root is a second-party node,
and the root is marked fully expanded exactly when `j` is the number of
listed legal actions. -/
theorem C13_first_simulations_expand_root (E : Engine B C R) (eval : Eval B R) (fuel : Nat)
    (rootBattle : B) (X : ℚ) (random : R) (j : Nat) (r : RunResult B C R)
    (hend : E.IsGameEnd rootBattle = false)
    (hk : 1 ≤ (legalActions E rootBattle).length)
    (hj : j ≤ (legalActions E rootBattle).length)
    (h : RunMCTS E eval fuel rootBattle (j : Int) X random = some r) (hok : r.fault = none) :
    r.allNodes = [0] ∧
    ∃ n : Node B C, r.heap[0]? = some n ∧ n.Battle = rootBattle ∧
      n.NextNodeParam.length = j ∧
      (n.NextNodeParam.map Prod.fst).Nodup ∧
      (∀ c ∈ n.NextNodeParam.map Prod.fst, c ∈ legalActions E rootBattle) ∧
      (∀ e ∈ n.NextNodeParam, e.2.SimuNum = 1 ∧
        ∃ (random1 : R) (battle1 : B) (random2 : R) (evalY : ℚ) (random3 : R),
          E.Run rootBattle e.1 random1 = (.ok battle1, random2) ∧
          eval.Func battle1 random2 = (.ok evalY, random3) ∧
          e.2.TotalValue = if E.IsP1Phase rootBattle then evalY else eval.ReverseFunc evalY) ∧
      (n.IsAllExpansion = true ↔ j = (legalActions E rootBattle).length) := by
  unfold RunMCTS at h
  simp only [Int.toNat_ofNat] at h
  have := RunMCTSLoop_RootFresh E eval fuel rootBattle X hend j 0 _ _ random r (by omega)
    (RootFresh_init E eval rootBattle hk) h hok
  rw [Nat.zero_add] at this
  obtain ⟨hall, n, hn, hb, _, _, hlen, hnd, hlegal, hentries, hflag⟩ := this
  exact ⟨hall, n, hn, hb, hlen, hnd, hlegal, hentries, hflag⟩

end C13

theorem C13_spec_scenario_witness :
    RunMCTS twoMoveEngine drawEval 3 0 ((2 : Nat) : Int) 1 0
      = some ⟨[{ Battle := 0, AvailableBattleCommands := [0, 1],
                 NextNodeParam := [(0, ⟨1 / 2, 1⟩), (1, ⟨1 / 2, 1⟩)],
                 NextNodes := [], IsAllExpansion := true, IsP1Node := true,
                 SelectCount := 0 }], 4, [0], none⟩ ∧
    NextNodeParam.NewMaxSimuNumBattleCommands
      ([(0, ⟨1 / 2, 1⟩), (1, ⟨1 / 2, 1⟩)] : NextNodeParam Nat) = .ok [0, 1] ∧
    ∃ n : Node Nat Nat, n.NextNodeParam.length = 2 ∧
      (∀ e ∈ n.NextNodeParam, e.2.SimuNum = 1) ∧
      (n.IsAllExpansion = true ↔ 2 = (legalActions twoMoveEngine 0).length) :=
  have h : RunMCTS twoMoveEngine drawEval 3 0 ((2 : Nat) : Int) 1 0
      = some ⟨[{ Battle := 0, AvailableBattleCommands := [0, 1],
                 NextNodeParam := [(0, ⟨1 / 2, 1⟩), (1, ⟨1 / 2, 1⟩)],
                 NextNodes := [], IsAllExpansion := true, IsP1Node := true,
                 SelectCount := 0 }], 4, [0], none⟩ := by with_unfolding_all rfl
  match C13_first_simulations_expand_root twoMoveEngine drawEval 3 0 1 0 2 _ (by decide)
    (by decide) (by decide) h rfl with
  | ⟨_, n, _, _, hlen, _, _, hentries, hflag⟩ =>
    ⟨h, by with_unfolding_all rfl, n, hlen, fun e he => (hentries e he).1, hflag⟩

end Bibarel
